import Mathlib

/-!
# Double-array prefix tree (`prefixtree-core`): embedding and checked properties

The Go sources `core.go`, `api.go` and `errors.go` are embedded as pure Lean
functions over an explicit state record.

* Go `int` is 64 bit.  Values are modelled in `Int`; the only arithmetic of the
  sources whose result can leave the 64-bit range on data the API can produce
  is the addition in `Update`, which is wrapped explicitly (`wrap64`).
  `node.base` is exact: for every 64-bit `Value` the Go result of
  `-(Value + 1)` (two wrap-arounds when `Value = ValueLimit`) is the
  mathematical one.
* A Go run-time panic for an index outside a slice is the fault
  `Fault.indexOutOfRange`; a loop that runs longer than any loop over a
  finite structure without repetition can is cut with `Fault.outOfFuel`.
* Go `error` results are ordinary values: `Option Error`, `none` being `nil`.
* The Go identifiers `from` and `to` are reserved words here; they are written
  `frm` and `dst`.
* Pointers into the state (`&tree.Ninfos[i].Child`, `&tree.BheadC`, ...) are
  modelled by small location types that are read and written through the state.
-/

namespace PrefixTree

/-- Run-time faults made explicit by the embedding. -/
inductive Fault where
  | indexOutOfRange
  | outOfFuel
deriving DecidableEq, Repr

/-- The error values of `errors.go`. -/
inductive Error where
  | ErrInvalidDataType
  | ErrInvalidValue
  | ErrInvalidKey
  | ErrNoPath
  | ErrNoValue
deriving DecidableEq, Repr

instance instDecidableEqExcept {ε α : Type} [DecidableEq ε] [DecidableEq α] :
    DecidableEq (Except ε α)
  | .ok a, .ok b => if h : a = b then isTrue (by rw [h]) else isFalse (fun h2 => h (by cases h2; rfl))
  | .error a, .error b =>
    if h : a = b then isTrue (by rw [h]) else isFalse (fun h2 => h (by cases h2; rfl))
  | .ok _, .error _ => isFalse (fun h => by cases h)
  | .error _, .ok _ => isFalse (fun h => by cases h)

/-- Go `byte`. -/
abbrev byte := Fin 256

/-- Go `int(b)` for a byte `b`. -/
def int (b : byte) : Int := Int.ofNat b.val

/-- Go `byte(x)` for an int `x`: the low eight bits. -/
def toByte (x : Int) : byte := ⟨(x % 256).toNat, by omega⟩

/-- Two's complement wrap-around of a 64-bit signed integer. -/
def wrap64 (x : Int) : Int := (x + 2 ^ 63) % 2 ^ 64 - 2 ^ 63

/-- `const ValueLimit = int(^uint(0) >> 1)` on a 64-bit platform. -/
def ValueLimit : Int := 2 ^ 63 - 1

/-- `type node struct { Value int; Check int }`. -/
structure node where
  Value : Int
  Check : Int
deriving DecidableEq, Repr

/-- `func (n *node) base() int { return -(n.Value + 1) }`. -/
def node.base (n : node) : Int := -(n.Value + 1)

/-- `type ninfo struct { Sibling, Child byte }`. -/
structure ninfo where
  Sibling : byte
  Child : byte
deriving DecidableEq, Repr

/-- `type block struct { Prev, Next, Num, Reject, Trial, Ehead int }`. -/
structure block where
  Prev : Int
  Next : Int
  Num : Int
  Reject : Int
  Trial : Int
  Ehead : Int
deriving DecidableEq, Repr

/-- `func (b *block) init()`. -/
def block.init (b : block) : block := { b with Num := 256, Reject := 257 }

/-- `type prefixTree struct { ... }`; slices are lists, `[257]int` is a list of length 257. -/
structure prefixTree where
  Array : List node
  Ninfos : List ninfo
  Blocks : List block
  Reject : List Int
  BheadF : Int
  BheadC : Int
  BheadO : Int
  Capacity : Int
  Size : Int
  Ordered : Bool
  MaxTrial : Int
deriving DecidableEq, Repr

/-- Slice read `a[i]`; an index outside the slice is a fault. -/
def rd {α : Type} (a : List α) (i : Int) : Except Fault α :=
  if i < 0 then .error .indexOutOfRange
  else
    match a[i.toNat]? with
    | some v => .ok v
    | none => .error .indexOutOfRange

/-- Slice update `a[i] = f a[i]`; an index outside the slice is a fault. -/
def wr {α : Type} (a : List α) (i : Int) (f : α → α) : Except Fault (List α) :=
  if i < 0 then .error .indexOutOfRange
  else
    match a[i.toNat]? with
    | some v => .ok (a.set i.toNat (f v))
    | none => .error .indexOutOfRange

/-- Zero value of `node`. -/
def node.zero : node := ⟨0, 0⟩

/-- Zero value of `ninfo`. -/
def ninfo.zero : ninfo := ⟨0, 0⟩

/-- Zero value of `block`. -/
def block.zero : block := ⟨0, 0, 0, 0, 0, 0⟩

/-- The slot written by the loop of `New` at index `i` (with the two fix-ups
`Array[1].Value = -255` and `Array[255].Check = -1` applied). -/
def newSlot (i : Nat) : node :=
  if i = 0 then ⟨-2, 0⟩
  else ⟨if i = 1 then -255 else -((i : Int) - 1), if i = 255 then -1 else -((i : Int) + 1)⟩

/-- `func New() *PrefixTree`. -/
def New : prefixTree :=
  { Array := (List.range 256).map newSlot
    Ninfos := List.replicate 256 ninfo.zero
    Blocks := [{ block.zero.init with Ehead := 1 }]
    Reject := (List.range 257).map (fun i => (i : Int) + 1)
    BheadF := 0
    BheadC := 0
    BheadO := 0
    Capacity := 256
    Size := 256
    Ordered := true
    MaxTrial := 1 }

/-- Write `Array[i].Value = v`. -/
def setValue (t : prefixTree) (i v : Int) : Except Fault prefixTree := do
  let a ← wr t.Array i (fun n => { n with Value := v })
  return { t with Array := a }

/-- Write `Array[i].Check = v`. -/
def setCheck (t : prefixTree) (i v : Int) : Except Fault prefixTree := do
  let a ← wr t.Array i (fun n => { n with Check := v })
  return { t with Array := a }

/-- Write `Array[i] = n`. -/
def setNode (t : prefixTree) (i : Int) (n : node) : Except Fault prefixTree := do
  let a ← wr t.Array i (fun _ => n)
  return { t with Array := a }

/-- Update of `Blocks[bi]` through a pointer `b := &tree.Blocks[bi]`. -/
def setBlock (t : prefixTree) (bi : Int) (f : block → block) : Except Fault prefixTree := do
  let bs ← wr t.Blocks bi f
  return { t with Blocks := bs }

/-- The three list heads `&tree.BheadF`, `&tree.BheadC`, `&tree.BheadO`. -/
inductive Head where
  | F
  | C
  | O
deriving DecidableEq, Repr

/-- Read `*head`. -/
def getHead (t : prefixTree) : Head → Int
  | .F => t.BheadF
  | .C => t.BheadC
  | .O => t.BheadO

/-- Write `*head = v`. -/
def setHead (t : prefixTree) (h : Head) (v : Int) : prefixTree :=
  match h with
  | .F => { t with BheadF := v }
  | .C => { t with BheadC := v }
  | .O => { t with BheadO := v }

/-- A pointer to one of the two bytes of a `ninfo`: `&tree.Ninfos[i].Child` or
`&tree.Ninfos[i].Sibling`. -/
inductive Loc where
  | child (i : Int)
  | sibling (i : Int)
deriving DecidableEq, Repr

/-- Read `*c`. -/
def readLoc (t : prefixTree) : Loc → Except Fault byte
  | .child i => do
    let x ← rd t.Ninfos i
    return x.Child
  | .sibling i => do
    let x ← rd t.Ninfos i
    return x.Sibling

/-- Write `*c = v`. -/
def writeLoc (t : prefixTree) (c : Loc) (v : byte) : Except Fault prefixTree :=
  match c with
  | .child i => do
    let ns ← wr t.Ninfos i (fun x => { x with Child := v })
    return { t with Ninfos := ns }
  | .sibling i => do
    let ns ← wr t.Ninfos i (fun x => { x with Sibling := v })
    return { t with Ninfos := ns }

/-- `func (tree *prefixTree) popBlock(bi int, head_in *int, last bool)`. -/
def popBlock (t : prefixTree) (bi : Int) (head_in : Head) (last : Bool) :
    Except Fault prefixTree :=
  if last then
    return setHead t head_in 0
  else do
    let b ← rd t.Blocks bi
    let t ← setBlock t b.Prev (fun x => { x with Next := b.Next })
    let b ← rd t.Blocks bi
    let t ← setBlock t b.Next (fun x => { x with Prev := b.Prev })
    let b ← rd t.Blocks bi
    if bi = getHead t head_in then
      return setHead t head_in b.Next
    else
      return t

/-- `func (tree *prefixTree) pushBlock(bi int, head_out *int, empty bool)`.  In the
tuple assignment the index `*tail_out` is read before any of the three stores. -/
def pushBlock (t : prefixTree) (bi : Int) (head_out : Head) (empty : Bool) :
    Except Fault prefixTree := do
  let _ ← rd t.Blocks bi
  if empty then
    let t := setHead t head_out bi
    setBlock t bi (fun x => { x with Prev := bi, Next := bi })
  else
    let h := getHead t head_out
    let hb ← rd t.Blocks h
    let t ← setBlock t bi (fun x => { x with Prev := hb.Prev })
    let t ← setBlock t bi (fun x => { x with Next := h })
    let hb ← rd t.Blocks h
    let tail := hb.Prev
    let _ ← rd t.Blocks tail
    let t := setHead t head_out bi
    let t ← setBlock t h (fun x => { x with Prev := bi })
    setBlock t tail (fun x => { x with Next := bi })

/-- `copy(make([]T, cap), old)`: the first `cap` entries of `old`, zero beyond. -/
def grow {α : Type} (old : List α) (cap : Int) (zero : α) : List α :=
  old.take cap.toNat ++ List.replicate (cap.toNat - old.length) zero

/-- The node that `addBlock` stores at `Array[size + j]`, `j < 256`: the first and the
last of the block by the two single stores, the others by the loop
`for i := Size+1; i < Size+255; i++ { Array[i] = node{-(i - 1), -(i + 1)} }`. -/
def blockSlot (size : Int) (j : Nat) : node :=
  if j = 0 then ⟨-(size + 255), -(size + 1)⟩
  else if j = 255 then ⟨-(size + 254), -size⟩
  else ⟨-(size + (j : Int) - 1), -(size + (j : Int) + 1)⟩

/-- The 256 stores of `addBlock` into `Array[size] .. Array[size + 255]`, as one update;
a store outside the slice is a fault. -/
def writeBlock (a : List node) (size : Int) : Except Fault (List node) :=
  if size < 0 ∨ a.length < size.toNat + 256 then .error .indexOutOfRange
  else .ok (a.take size.toNat ++ ((List.range 256).map (blockSlot size) ++ a.drop (size.toNat + 256)))

/-- `func (tree *prefixTree) addBlock() int`. -/
def addBlock (t : prefixTree) : Except Fault (prefixTree × Int) := do
  let t :=
    if t.Size = t.Capacity then
      let cap := t.Capacity * 2
      { t with
        Capacity := cap
        Array := grow t.Array cap node.zero
        Ninfos := grow t.Ninfos cap ninfo.zero
        Blocks := grow t.Blocks (cap >>> 8) block.zero }
    else t
  let t ← setBlock t (t.Size >>> 8) block.init
  let t ← setBlock t (t.Size >>> 8) (fun b => { b with Ehead := t.Size })
  let a ← writeBlock t.Array t.Size
  let t := { t with Array := a }
  let t ← pushBlock t (t.Size >>> 8) .O (t.BheadO = 0)
  let t := { t with Size := t.Size + 256 }
  return (t, (t.Size >>> 8) - 1)

/-- `func (tree *prefixTree) transferBlock(bi int, head_in, head_out *int)`. -/
def transferBlock (t : prefixTree) (bi : Int) (head_in head_out : Head) :
    Except Fault prefixTree := do
  let b ← rd t.Blocks bi
  let t ← popBlock t bi head_in (bi = b.Next)
  let b ← rd t.Blocks bi
  pushBlock t bi head_out (getHead t head_out = 0 ∧ b.Num ≠ 0)

/-- `func (tree *prefixTree) findPlace() int`. -/
def findPlace (t : prefixTree) : Except Fault (prefixTree × Int) := do
  if t.BheadC ≠ 0 then
    let b ← rd t.Blocks t.BheadC
    return (t, b.Ehead)
  if t.BheadO ≠ 0 then
    let b ← rd t.Blocks t.BheadO
    return (t, b.Ehead)
  let (t, bi) ← addBlock t
  return (t, bi <<< 8)

/-- The `else` branch of `popEnode` ("release empty node from empty ring"): unlink the
slot `e` from the ring of its block `bi`. -/
def popEnodeUnlink (t : prefixTree) (e bi : Int) : Except Fault prefixTree := do
  let n ← rd t.Array e
  let t ← setCheck t (-n.Value) n.Check
  let n ← rd t.Array e
  let t ← setValue t (-n.Check) n.Value
  let n ← rd t.Array e
  let b ← rd t.Blocks bi
  let t ← (if e = b.Ehead then setBlock t bi (fun b => { b with Ehead := -n.Check }) else pure t)
  let b ← rd t.Blocks bi
  (if bi ≠ 0 ∧ b.Num = 1 ∧ b.Trial ≠ t.MaxTrial then transferBlock t bi .O .C else pure t)

/-- `func (tree *prefixTree) popEnode(base int, label byte, from int) int`. -/
def popEnode (t : prefixTree) (base : Int) (label : byte) (frm : Int) :
    Except Fault (prefixTree × Int) := do
  let (t, e) ← (if base < 0 then findPlace t else pure (t, Int.xor base (int label)))
  let bi := e >>> 8
  let _ ← rd t.Array e
  let _ ← rd t.Blocks bi
  let t ← setBlock t bi (fun b => { b with Num := b.Num - 1 })
  let b ← rd t.Blocks bi
  let t ← (if b.Num = 0 then (if bi ≠ 0 then transferBlock t bi .C .F else pure t)
    else popEnodeUnlink t e bi)
  let t ← setValue t e ValueLimit
  let t ← setCheck t e frm
  let t ← (if base < 0 then setValue t frm (-(Int.xor e (int label)) - 1) else pure t)
  return (t, e)

/-- The branch `b.Num == 1` of `pushEnode`: the slot `e` becomes the one-slot ring of
its block `bi`. -/
def pushEnodeFirst (t : prefixTree) (e bi : Int) : Except Fault prefixTree := do
  let t ← setBlock t bi (fun b => { b with Ehead := e })
  let t ← setNode t e ⟨-e, -e⟩
  (if bi ≠ 0 then transferBlock t bi .F .C else pure t)

/-- The `else` branch of `pushEnode`: the slot `e` is linked into the ring of its block
`bi` after `prev := b.Ehead`. -/
def pushEnodeLink (t : prefixTree) (e bi prev : Int) : Except Fault prefixTree := do
  let p ← rd t.Array prev
  let next := -p.Check
  let t ← setNode t e ⟨-prev, -next⟩
  let t ← setCheck t prev (-e)
  let t ← setValue t next (-e)
  let b ← rd t.Blocks bi
  let t ← (if b.Num = 2 ∨ b.Trial = t.MaxTrial then
      (if bi ≠ 0 then transferBlock t bi .C .O else pure t)
    else pure t)
  setBlock t bi (fun b => { b with Trial := 0 })

/-- `func (tree *prefixTree) pushEnode(e int)`. -/
def pushEnode (t : prefixTree) (e : Int) : Except Fault prefixTree := do
  let bi := e >>> 8
  let _ ← rd t.Blocks bi
  let t ← setBlock t bi (fun b => { b with Num := b.Num + 1 })
  let b ← rd t.Blocks bi
  let t ← (if b.Num = 1 then pushEnodeFirst t e bi else pushEnodeLink t e bi b.Ehead)
  let b ← rd t.Blocks bi
  let r ← rd t.Reject b.Num
  let t ← (if b.Reject < r then setBlock t bi (fun b => { b with Reject := r }) else pure t)
  let ns ← wr t.Ninfos e (fun _ => ninfo.zero)
  return { t with Ninfos := ns }

/-- The loop `for tree.Ordered && *c != 0 && *c < label` of `pushSibling`. -/
def pushSiblingLoop (t : prefixTree) (base : Int) (label : byte) : Nat → Loc → Except Fault Loc
  | 0, _ => .error .outOfFuel
  | fuel + 1, c => do
    let v ← readLoc t c
    if t.Ordered ∧ v ≠ 0 ∧ v < label then
      let i := Int.xor base (int v)
      let _ ← rd t.Ninfos i
      pushSiblingLoop t base label fuel (.sibling i)
    else
      return c

/-- `func (tree *prefixTree) pushSibling(from, base int, label byte, hasChild bool)`. -/
def pushSibling (t : prefixTree) (frm base : Int) (label : byte) (hasChild : Bool) :
    Except Fault prefixTree := do
  let c := Loc.child frm
  let v ← readLoc t c
  let keepOrder := if t.Ordered then decide (label > v) else decide (v = 0)
  let c ← (if hasChild ∧ keepOrder then (do
      let i := Int.xor base (int v)
      let _ ← rd t.Ninfos i
      pushSiblingLoop t base label 257 (.sibling i))
    else pure c)
  let v ← readLoc t c
  let t ← writeLoc t (.sibling (Int.xor base (int label))) v
  writeLoc t c label

/-- The loop `for *c != label` of `popSibling`. -/
def popSiblingLoop (t : prefixTree) (base : Int) (label : byte) : Nat → Loc → Except Fault Loc
  | 0, _ => .error .outOfFuel
  | fuel + 1, c => do
    let v ← readLoc t c
    if v ≠ label then
      let i := Int.xor base (int v)
      let _ ← rd t.Ninfos i
      popSiblingLoop t base label fuel (.sibling i)
    else
      return c

/-- `func (tree *prefixTree) popSibling(from, base int, label byte)`. -/
def popSibling (t : prefixTree) (frm base : Int) (label : byte) : Except Fault prefixTree := do
  let _ ← rd t.Ninfos frm
  let c ← popSiblingLoop t base label 257 (.child frm)
  let v ← readLoc t c
  let x ← rd t.Ninfos (Int.xor base (int v))
  writeLoc t c x.Sibling

/-- The loop `for c_n != 0 && c_p != 0` of `consult`. -/
def consultLoop (t : prefixTree) (base_n base_p : Int) : Nat → byte → byte → Except Fault Bool
  | 0, _, _ => .error .outOfFuel
  | fuel + 1, c_n, c_p =>
    if c_n ≠ 0 ∧ c_p ≠ 0 then do
      let x ← rd t.Ninfos (Int.xor base_n (int c_n))
      let y ← rd t.Ninfos (Int.xor base_p (int c_p))
      consultLoop t base_n base_p fuel x.Sibling y.Sibling
    else
      return decide (c_p ≠ 0)

/-- `func (tree *prefixTree) consult(base_n, base_p int, c_n, c_p byte) bool`. -/
def consult (t : prefixTree) (base_n base_p : Int) (c_n c_p : byte) : Except Fault Bool := do
  let x ← rd t.Ninfos (Int.xor base_n (int c_n))
  let y ← rd t.Ninfos (Int.xor base_p (int c_p))
  consultLoop t base_n base_p 257 x.Sibling y.Sibling

/-- The loop `for c != 0 && c <= label` of `setChild`. -/
def setChildOrdered (t : prefixTree) (base : Int) (label : byte) :
    Nat → byte → List byte → Except Fault (byte × List byte)
  | 0, _, _ => .error .outOfFuel
  | fuel + 1, c, child =>
    if c ≠ 0 ∧ c ≤ label then do
      let x ← rd t.Ninfos (Int.xor base (int c))
      setChildOrdered t base label fuel x.Sibling (child ++ [c])
    else
      return (c, child)

/-- The final loop `for c != 0` of `setChild`. -/
def setChildRest (t : prefixTree) (base : Int) : Nat → byte → List byte → Except Fault (List byte)
  | 0, _, _ => .error .outOfFuel
  | fuel + 1, c, child =>
    if c ≠ 0 then do
      let x ← rd t.Ninfos (Int.xor base (int c))
      setChildRest t base fuel x.Sibling (child ++ [c])
    else
      return child

/-- `func (tree *prefixTree) setChild(base int, c byte, label byte, flag bool) []byte`. -/
def setChild (t : prefixTree) (base : Int) (c : byte) (label : byte) (flag : Bool) :
    Except Fault (List byte) := do
  let (c, child) ← (if c = 0 then (do
      let x ← rd t.Ninfos (Int.xor base (int c))
      pure (x.Sibling, [c]))
    else pure (c, []))
  let (c, child) ←
    (if t.Ordered then setChildOrdered t base label 257 c child else pure (c, child))
  let child := if flag then child ++ [label] else child
  setChildRest t base 257 c child

/-- The innermost loop of `findPlaces`,
`for i := 0; tree.Array[base^int(child[i])].Check < 0; i++`, over the labels not yet
tested: `true` when the body returned (all slots empty), `false` when the loop ended. -/
def allEmpty (t : prefixTree) (base : Int) : List byte → Except Fault Bool
  | [] => .error .indexOutOfRange
  | [c] => do
    let n ← rd t.Array (Int.xor base (int c))
    return decide (n.Check < 0)
  | c :: rest => do
    let n ← rd t.Array (Int.xor base (int c))
    if n.Check < 0 then allEmpty t base rest else return false

/-- The loop `for e := b.Ehead; ; { ... }` of `findPlaces` over the empty ring of block
`bi`: `some e` when a base was found. -/
def findPlacesRing (t : prefixTree) (bi : Int) (child : List byte) :
    Nat → Int → Except Fault (Option Int)
  | 0, _ => .error .outOfFuel
  | fuel + 1, e => do
    let c0 ← rd child 0
    let base := Int.xor e (int c0)
    if (← allEmpty t base child) then
      return some e
    let n ← rd t.Array e
    let e := -n.Check
    let b ← rd t.Blocks bi
    if e = b.Ehead then
      return none
    findPlacesRing t bi child fuel e

/-- The loop `for { ... }` of `findPlaces` over the open blocks: `some e` when the
function returned from inside the loop. -/
def findPlacesBlocks (child : List byte) (bz : Int) :
    Nat → prefixTree → Int → Except Fault (prefixTree × Option Int)
  | 0, _, _ => .error .outOfFuel
  | fuel + 1, t, bi => do
    let nc : Int := child.length
    let b ← rd t.Blocks bi
    let found ← (if b.Num ≥ nc ∧ nc < b.Reject then
        findPlacesRing t bi child (t.Array.length + 1) b.Ehead
      else pure none)
    match found with
    | some e =>
      let t ← setBlock t bi (fun b => { b with Ehead := e })
      return (t, some e)
    | none =>
      let t ← setBlock t bi (fun b => { b with Reject := nc })
      let b ← rd t.Blocks bi
      let r ← rd t.Reject b.Num
      let t ← (if b.Reject < r then (do
          let rs ← wr t.Reject b.Num (fun _ => b.Reject)
          pure { t with Reject := rs })
        else pure t)
      let bi_ := b.Next
      let t ← setBlock t bi (fun b => { b with Trial := b.Trial + 1 })
      let b ← rd t.Blocks bi
      let t ← (if b.Trial = t.MaxTrial then transferBlock t bi .O .C else pure t)
      if bi = bz then
        return (t, none)
      findPlacesBlocks child bz fuel t bi_

/-- `func (tree *prefixTree) findPlaces(child []byte) int`. -/
def findPlaces (t : prefixTree) (child : List byte) : Except Fault (prefixTree × Int) := do
  let bi := t.BheadO
  let (t, found) ← (if bi ≠ 0 then (do
      let b ← rd t.Blocks t.BheadO
      findPlacesBlocks child b.Prev (t.Blocks.length + 1) t bi)
    else pure (t, none))
  match found with
  | some e => return (t, e)
  | none =>
    let (t, bi) ← addBlock t
    return (t, bi <<< 8)

/-- The loop `for c != 0` of `resolve` that rewrites the `Check` of the remaining
grandchildren; `nb` is `n.base()`. -/
def fixChecks (nb dst : Int) : Nat → prefixTree → byte → Except Fault prefixTree
  | 0, _, _ => .error .outOfFuel
  | fuel + 1, t, c =>
    if c ≠ 0 then do
      let t ← setCheck t (Int.xor nb (int c)) dst
      let x ← rd t.Ninfos (Int.xor nb (int c))
      fixChecks nb dst fuel t x.Sibling
    else
      return t

/-- The loop `for i := 0; i < len(children); i++` of `resolve` over the labels not yet
moved; the state carries `from_n`, which the body may update. -/
def resolveLoop (flag : Bool) (base base_ to_pn frm : Int) (label_n : byte) :
    List byte → prefixTree → Int → Except Fault (prefixTree × Int)
  | [], t, from_n => .ok (t, from_n)
  | c :: rest, t, from_n => do
    let (t, dst) ← popEnode t base c frm
    let dst_ := Int.xor base_ (int c)
    let t ← writeLoc t (.sibling dst) (rest.headD 0)
    if flag ∧ dst_ = to_pn then
      resolveLoop flag base base_ to_pn frm label_n rest t from_n
    else
      let _ ← rd t.Array dst
      let n_ ← rd t.Array dst_
      let t ← setValue t dst n_.Value
      let n ← rd t.Array dst
      let t ← (if n.Value < 0 ∧ c ≠ 0 then (do
          let x ← rd t.Ninfos dst_
          let g := x.Child
          let t ← writeLoc t (.child dst) g
          let t ← setCheck t (Int.xor n.base (int g)) dst
          let y ← rd t.Ninfos (Int.xor n.base (int g))
          fixChecks n.base dst 257 t y.Sibling)
        else pure t)
      let from_n := if ¬ flag ∧ dst_ = from_n then dst else from_n
      let t ← (if ¬ flag ∧ dst_ = to_pn then (do
          let t ← pushSibling t from_n (Int.xor to_pn (int label_n)) label_n true
          let t ← writeLoc t (.child dst_) 0
          let t ← setValue t dst_ ValueLimit
          setCheck t dst_ from_n)
        else pushEnode t dst_)
      resolveLoop flag base base_ to_pn frm label_n rest t from_n

/-- `func (tree *prefixTree) resolve(from_n, base_n int, label_n byte) int`. -/
def resolve (t : prefixTree) (from_n base_n : Int) (label_n : byte) :
    Except Fault (prefixTree × Int) := do
  let to_pn := Int.xor base_n (int label_n)
  let from_p := (← rd t.Array to_pn).Check
  let base_p := (← rd t.Array from_p).base
  let cn := (← rd t.Ninfos from_n).Child
  let cp := (← rd t.Ninfos from_p).Child
  let flag ← consult t base_n base_p cn cp
  let children ← (if flag then setChild t base_n cn label_n true
    else setChild t base_p cp 255 false)
  let (t, base) ← (if children.length = 1 then findPlace t else findPlaces t children)
  let c0 ← rd children 0
  let base := Int.xor base (int c0)
  let frm := if flag then from_n else from_p
  let base_ := if flag then base_n else base_p
  let t ← (if flag ∧ c0 = label_n then writeLoc t (.child frm) label_n else pure t)
  let t ← setValue t frm (-base - 1)
  let (t, _) ← resolveLoop flag base base_ to_pn frm label_n children t from_n
  if flag then
    return (t, Int.xor base (int label_n))
  return (t, to_pn)

/-- `func (tree *prefixTree) follow(from int, label byte) int`. -/
def follow (t : prefixTree) (frm : Int) (label : byte) : Except Fault (prefixTree × Int) := do
  let base := (← rd t.Array frm).base
  let dst := Int.xor base (int label)
  let free ← (if base < 0 then pure true else (do
    let n ← rd t.Array dst
    pure (decide (n.Check < 0))))
  if free then
    let hasChild ← (if base ≥ 0 then (do
        let x ← rd t.Ninfos frm
        let n ← rd t.Array (Int.xor base (int x.Child))
        pure (decide (n.Check = frm)))
      else pure false)
    let (t, dst) ← popEnode t base label frm
    let t ← pushSibling t frm (Int.xor dst (int label)) label hasChild
    return (t, dst)
  let n ← rd t.Array dst
  if n.Check ≠ frm then
    resolve t frm base label
  else
    return (t, dst)

/-- The loop `for ; pos < len(key); pos++` of `get` over the bytes not yet read. -/
def getLoop : List byte → prefixTree → Int → Except Fault (prefixTree × Int)
  | [], t, frm => .ok (t, frm)
  | b :: rest, t, frm => do
    let value := (← rd t.Array frm).Value
    let t ← (if value ≥ 0 ∧ value ≠ ValueLimit then (do
        let (t, dst) ← follow t frm 0
        setValue t dst value)
      else pure t)
    let (t, frm) ← follow t frm b
    getLoop rest t frm

/-- `func (tree *prefixTree) get(key []byte, from, pos int) *int`; the result is the
index `to` of the slot whose `Value` field the returned pointer addresses. -/
def get (t : prefixTree) (key : List byte) (frm : Int) (pos : Nat) :
    Except Fault (prefixTree × Int) := do
  let (t, frm) ← getLoop (key.drop pos) t frm
  let n ← rd t.Array frm
  if n.Value < 0 then
    follow t frm 0
  else
    return (t, frm)

/-- The loop of `Status` over the slots `i < Size`, `k` slots from `i`; the pair is
`(keys, nodes)`. -/
def statusLoop (t : prefixTree) : Nat → Int → Int × Int → Except Fault (Int × Int)
  | 0, _, acc => .ok acc
  | k + 1, i, (keys, nodes) => do
    let n ← rd t.Array i
    let acc :=
      if n.Check ≥ 0 then (if n.Value ≥ 0 then keys + 1 else keys, nodes + 1) else (keys, nodes)
    statusLoop t k (i + 1) acc

/-- `func (tree *PrefixTree) Status() (keys, nodes, size, capacity int)`. -/
def Status (t : prefixTree) : Except Fault (Int × Int × Int × Int) := do
  let (keys, nodes) ← statusLoop t t.Size.toNat 0 (0, 0)
  return (keys, nodes, t.Size, t.Capacity)

/-- The loop of `Jump`; the third argument is the named result `to`. -/
def jumpLoop (t : prefixTree) : List byte → Int → Int → Except Fault (Int × Option Error)
  | [], _, dst => .ok (dst, none)
  | b :: rest, frm, _ => do
    let n ← rd t.Array frm
    if n.Value ≥ 0 then
      return (frm, some .ErrNoPath)
    let dst := Int.xor n.base (int b)
    let m ← rd t.Array dst
    if m.Check ≠ frm then
      return (frm, some .ErrNoPath)
    jumpLoop t rest dst dst

/-- `func (tree *PrefixTree) Jump(path []byte, from int) (to int, err error)`. -/
def Jump (t : prefixTree) (path : List byte) (frm : Int) : Except Fault (Int × Option Error) :=
  jumpLoop t path frm 0

/-- The loop `for id > 0` of `Key`; `key` is the slice built so far. -/
def keyLoop (t : prefixTree) : Nat → Int → List byte → Except Fault (Int × List byte × Option Error)
  | 0, _, _ => .error .outOfFuel
  | fuel + 1, id, key =>
    if id > 0 then do
      let n ← rd t.Array id
      let frm := n.Check
      if frm < 0 then
        return (id, [], some .ErrNoPath)
      let p ← rd t.Array frm
      let char := toByte (Int.xor p.base id)
      keyLoop t fuel frm (if char ≠ 0 then key ++ [char] else key)
    else
      .ok (id, key, none)

/-- `func (tree *PrefixTree) Key(id int) (key []byte, err error)`. -/
def Key (t : prefixTree) (id : Int) : Except Fault (List byte × Option Error) := do
  let (id, key, err) ← keyLoop t (t.Array.length + 1) id []
  if err.isSome then
    return ([], err)
  if id ≠ 0 ∨ key.length = 0 then
    return ([], some .ErrInvalidKey)
  return (key.reverse, none)

/-- `func (tree *PrefixTree) Value(id int) (value int, err error)`. -/
def Value (t : prefixTree) (id : Int) : Except Fault (Int × Option Error) := do
  let n ← rd t.Array id
  let value := n.Value
  if value ≥ 0 then
    return (value, none)
  let dst := n.base
  let m ← rd t.Array dst
  if m.Check = id ∧ m.Value ≥ 0 then
    return (m.Value, none)
  return (0, some .ErrNoValue)

/-- `func (tree *PrefixTree) Get(key []byte) (value int, err error)`. -/
def Get (t : prefixTree) (key : List byte) : Except Fault (Int × Option Error) := do
  let (dst, err) ← Jump t key 0
  if err.isSome then
    return (0, err)
  Value t dst

/-- `func (tree *PrefixTree) Insert(key []byte, value int) error`. -/
def Insert (t : prefixTree) (key : List byte) (value : Int) :
    Except Fault (prefixTree × Option Error) :=
  if value < 0 ∨ value ≥ ValueLimit then
    .ok (t, some .ErrInvalidValue)
  else do
    let (t, p) ← get t key 0 0
    let t ← setValue t p value
    return (t, none)

/-- `func (tree *PrefixTree) Update(key []byte, value int) error`; `*p+value` is 64-bit
addition. -/
def Update (t : prefixTree) (key : List byte) (value : Int) :
    Except Fault (prefixTree × Option Error) := do
  let (t, p) ← get t key 0 0
  let n ← rd t.Array p
  if n.Value = ValueLimit then
    let t ← setValue t p value
    return (t, none)
  if wrap64 (n.Value + value) < 0 ∨ wrap64 (n.Value + value) ≥ ValueLimit then
    return (t, some .ErrInvalidValue)
  let t ← setValue t p (wrap64 (n.Value + value))
  return (t, none)

/-- The loop `for to > 0` of `Delete`. -/
def deleteLoop : Nat → prefixTree → Int → Except Fault prefixTree
  | 0, _, _ => .error .outOfFuel
  | fuel + 1, t, dst =>
    if dst > 0 then do
      let frm := (← rd t.Array dst).Check
      let base := (← rd t.Array frm).base
      let label := toByte (Int.xor dst base)
      let x ← rd t.Ninfos dst
      let y ← rd t.Ninfos frm
      if x.Sibling ≠ 0 ∨ y.Child ≠ label then
        let t ← popSibling t frm base label
        pushEnode t dst
      else
        let t ← pushEnode t dst
        deleteLoop fuel t frm
    else
      return t

/-- `func (tree *PrefixTree) Delete(key []byte) error`. -/
def Delete (t : prefixTree) (key : List byte) : Except Fault (prefixTree × Option Error) := do
  let (dst, err) ← Jump t key 0
  if err.isSome then
    return (t, some .ErrNoPath)
  let n ← rd t.Array dst
  let dst ← (if n.Value < 0 then (do
      let base := n.base
      let m ← rd t.Array base
      pure (if m.Check = dst then base else dst))
    else pure dst)
  let t ← deleteLoop (t.Array.length + 1) t dst
  return (t, none)

/-- The loop of `PrefixMatch` over the bytes not yet read. -/
def prefixMatchLoop (t : prefixTree) :
    List byte → Int → Int → List Int → Except Fault (List Int)
  | [], _, _, ids => .ok ids
  | b :: rest, frm, num, ids => do
    let (dst, err) ← Jump t [b] frm
    if err.isSome then
      return ids
    let (_, verr) ← Value t dst
    if verr.isNone then
      let ids := ids ++ [dst]
      let num := num - 1
      if num = 0 then
        return ids
      prefixMatchLoop t rest dst num ids
    else
      prefixMatchLoop t rest dst num ids

/-- `func (tree *PrefixTree) PrefixMatch(key []byte, num int) (ids []int)`. -/
def PrefixMatch (t : prefixTree) (key : List byte) (num : Int) : Except Fault (List Int) :=
  prefixMatchLoop t key 0 num []

/-- The loop `for c := tree.Ninfos[from].Child; c != 0;` of `begin`. -/
def beginLoop (t : prefixTree) : Nat → Int → byte → Except Fault Int
  | 0, _, _ => .error .outOfFuel
  | fuel + 1, frm, c =>
    if c ≠ 0 then do
      let n ← rd t.Array frm
      let dst := Int.xor n.base (int c)
      let x ← rd t.Ninfos dst
      beginLoop t fuel dst x.Child
    else
      return frm

/-- `func (tree *PrefixTree) begin(from int) (to int, err error)`. -/
def begin (t : prefixTree) (frm : Int) : Except Fault (Int × Option Error) := do
  let x ← rd t.Ninfos frm
  let frm ← beginLoop t (t.Array.length + 1) frm x.Child
  let n ← rd t.Array frm
  if n.base > 0 then
    return (n.base, none)
  return (frm, none)

/-- The loop `for c == 0 && from != root && tree.Array[from].Check >= 0` of `next`. -/
def nextLoop (t : prefixTree) (root : Int) : Nat → Int → byte → Except Fault (Int × byte)
  | 0, _, _ => .error .outOfFuel
  | fuel + 1, frm, c => do
    if c = 0 ∧ frm ≠ root then
      let n ← rd t.Array frm
      if n.Check ≥ 0 then
        let x ← rd t.Ninfos n.Check
        nextLoop t root fuel n.Check x.Sibling
      else
        return (frm, c)
    else
      return (frm, c)

/-- `func (tree *PrefixTree) next(from int, root int) (to int, err error)`. -/
def next (t : prefixTree) (frm root : Int) : Except Fault (Int × Option Error) := do
  let x ← rd t.Ninfos frm
  let (frm, c) ← nextLoop t root (t.Array.length + 1) frm x.Sibling
  if frm = root then
    return (0, some .ErrNoPath)
  let n ← rd t.Array frm
  let p ← rd t.Array n.Check
  begin t (Int.xor p.base (int c))

/-- The loop of `PrefixPredict`: `cur` is the pair last returned by `begin` or `next`. -/
def prefixPredictLoop (t : prefixTree) (root : Int) :
    Nat → Int × Option Error → Int → List Int → Except Fault (List Int)
  | 0, _, _, _ => .error .outOfFuel
  | fuel + 1, (frm, err), num, ids =>
    if err.isNone then do
      let ids := ids ++ [frm]
      let num := num - 1
      if num = 0 then
        return ids
      let cur ← next t frm root
      prefixPredictLoop t root fuel cur num ids
    else
      return ids

/-- `func (tree *PrefixTree) PrefixPredict(key []byte, num int) (ids []int)`. -/
def PrefixPredict (t : prefixTree) (key : List byte) (num : Int) : Except Fault (List Int) := do
  let (root, err) ← Jump t key 0
  if err.isSome then
    return []
  let cur ← begin t root
  prefixPredictLoop t root (max (t.Array.length + 2) (num.toNat + 1)) cur num []

/-- One mutating call of the API. -/
inductive Op where
  | insert (key : List byte) (value : Int)
  | update (key : List byte) (value : Int)
  | delete (key : List byte)
deriving DecidableEq, Repr

/-- Perform one call on a trie. -/
def Op.apply (t : prefixTree) : Op → Except Fault (prefixTree × Option Error)
  | .insert key value => Insert t key value
  | .update key value => Update t key value
  | .delete key => Delete t key

/-- Perform a sequence of calls, left to right, collecting the returned errors. -/
def run : List Op → prefixTree → Except Fault (prefixTree × List (Option Error))
  | [], t => .ok (t, [])
  | op :: ops, t => do
    let (t, e) ← op.apply t
    let (t, es) ← run ops t
    return (t, e :: es)

/-- The trie after a sequence of calls on `New()`, when every call returned `nil`;
a call that returns an error, or faults, makes the whole run a fault or `none`. -/
def build (ops : List Op) : Except Fault (Option prefixTree) := do
  let (t, es) ← run ops New
  return if es.all Option.isNone then some t else none

/-- `Get` on the result of `build`. -/
def getAfter (ops : List Op) (key : List byte) : Except Fault (Option (Int × Option Error)) := do
  match ← build ops with
  | some t => return some (← Get t key)
  | none => return none

/-- The errors returned by a sequence of calls on `New()`. -/
def errorsOf (ops : List Op) : Except Fault (List (Option Error)) := do
  let (_, es) ← run ops New
  return es

/-- The keys of a list of node ids, by `Key`. -/
def keysOf (t : prefixTree) (ids : List Int) : Except Fault (List (List byte × Option Error)) :=
  ids.mapM (Key t)

/-- One iteration of the loop of `Jump` that does not return `ErrNoPath`: from the
internal node `frm` the byte `b` leads to `dst`. -/
def Step (t : prefixTree) (frm : Int) (b : byte) (dst : Int) : Prop :=
  ∃ n m, rd t.Array frm = .ok n ∧ n.Value < 0 ∧ dst = Int.xor n.base (int b) ∧
    rd t.Array dst = .ok m ∧ m.Check = frm

/-- The bytes `ks` lead from node `frm` to node `dst` by successive `Step`s. -/
def Path (t : prefixTree) : Int → List byte → Int → Prop
  | frm, [], dst => dst = frm
  | frm, b :: rest, dst => ∃ mid, Step t frm b mid ∧ Path t mid rest dst

/-- The trie after a sequence of calls on `New()` (`New()` itself when a call faults). -/
def trieOf (ops : List Op) : prefixTree :=
  match run ops New with
  | .ok (t, _) => t
  | .error _ => New

/-- The slot `i` exists and is empty (`Check < 0`). -/
def isFree (t : prefixTree) (i : Int) : Bool :=
  match rd t.Array i with
  | .ok n => decide (n.Check < 0)
  | .error _ => false

/-- What `pushEnode` and the block-list operations leave alone. -/
structure Frame (s s' : prefixTree) : Prop where
  array : s'.Array = s.Array
  ninfos : s'.Ninfos = s.Ninfos
  reject : s'.Reject = s.Reject
  maxTrial : s'.MaxTrial = s.MaxTrial
  ne : s'.Blocks.map (fun b => (b.Num, b.Ehead)) = s.Blocks.map (fun b => (b.Num, b.Ehead))

/-- The empty slots of an array. -/
def freeIn (a : List node) (x : Int) : Prop := ∃ n, rd a x = .ok n ∧ n.Check < 0

/-- Closure of the empty slots of an array under the `next` link. -/
def closedIn (a : List node) : Prop := ∀ x n, rd a x = .ok n → n.Check < 0 → freeIn a (-n.Check)

/-- What releasing the slot `e` does to the array. -/
structure Released (a a' : List node) (e : Int) : Prop where
  closed : closedIn a'
  free : freeIn a' e
  mono : ∀ x, freeIn a x → freeIn a' x
  same : ∀ x, x ≠ e → ¬ freeIn a x → rd a' x = rd a x

/-- The part of the free-ring invariant that `Delete` relies on: the empty slots are
closed under the `next` link, and the `Ehead` of a block that counts an empty slot is
empty. -/
def FR (s : prefixTree) : Prop :=
  closedIn s.Array ∧ ∀ bi b, rd s.Blocks bi = .ok b → b.Num ≠ 0 → freeIn s.Array b.Ehead

/-- The nodes of the prefixes of `kp` longer than `j`. -/
def RelSet (t : prefixTree) (kp : List byte) (j : Nat) (x : Int) : Prop :=
  ∃ i, j < i ∧ i ≤ kp.length ∧ Path t 0 (kp.take i) x

/-- The node of the prefix of length `i` of `kp` is the only child in the chain of its
parent: it has no sibling and it is its parent's first child. -/
def Econd (t : prefixTree) (kp : List byte) (i : Nat) : Prop :=
  ∃ x y ix iy b, Path t 0 (kp.take (i - 1)) x ∧ Step t x b y ∧ kp[i - 1]? = some b ∧
    rd t.Ninfos y = .ok iy ∧ iy.Sibling = 0 ∧ rd t.Ninfos x = .ok ix ∧ ix.Child = b

/-- The array after the nodes of the prefixes longer than `j` were released. -/
structure InvA (t s : prefixTree) (kp : List byte) (j : Nat) : Prop where
  free : ∀ x, RelSet t kp j x → freeIn s.Array x
  same : ∀ x, ¬ freeIn t.Array x → ¬ RelSet t kp j x → rd s.Array x = rd t.Array x
  econd : ∀ i, j + 1 < i → i ≤ kp.length → Econd t kp i

/-- The invariant of the loop of `Delete`. -/
structure Inv (t s : prefixTree) (kp : List byte) (j : Nat) extends InvA t s kp j : Prop where
  fr : FR s
  mono : ∀ x, freeIn t.Array x → freeIn s.Array x
  ninfos : ∀ x, ¬ RelSet t kp j x → rd s.Ninfos x = rd t.Ninfos x
  econd1 : j + 1 ≤ kp.length → Econd t kp (j + 1)

/-- The labels that follow `c` in a sibling chain under the base `base`, `c` included,
up to the end mark 0. -/
def chainFrom (t : prefixTree) (base : Int) : Nat → byte → List byte
  | 0, _ => []
  | fuel + 1, c =>
    if c = 0 then []
    else c :: (match rd t.Ninfos (Int.xor base (int c)) with
      | .ok x => chainFrom t base fuel x.Sibling
      | .error _ => [])

/-- The labels listed in the child chain of the node `x`: `Ninfos[x].Child`, then the
`Sibling` links. -/
def childLabels (t : prefixTree) (x : Int) : List byte :=
  match rd t.Array x, rd t.Ninfos x with
  | .ok n, .ok i =>
    i.Child :: (match rd t.Ninfos (Int.xor n.base (int i.Child)) with
      | .ok y => chainFrom t n.base 256 y.Sibling
      | .error _ => [])
  | _, _ => []

/-- The occupied slot `z` with content `m`, when it is the child of an internal node for
some label, has that label listed in the chain of its parent. -/
def childListed (t : prefixTree) (z : Nat) (m : node) : Bool :=
  match rd t.Array m.Check with
  | .ok n =>
    !(decide (n.Value < 0) &&
        decide (Int.xor n.base (int (toByte (Int.xor (z : Int) n.base))) = (z : Int))) ||
      decide (toByte (Int.xor (z : Int) n.base) ∈ childLabels t m.Check)
  | .error _ => true

/-- Every child slot other than the root is listed in the chain of its parent. -/
def ChainComplete (t : prefixTree) : Prop :=
  ∀ p ∈ t.Array.enum, p.1 ≠ 0 → childListed t p.1 p.2 = true

instance instDecidableChainComplete (t : prefixTree) : Decidable (ChainComplete t) := by
  unfold ChainComplete; infer_instance

/-- The free-ring conditions that `Delete` relies on, in checkable form: the `next` link
of every empty slot leads to an empty slot, and the `Ehead` of every block that counts
an empty slot is an empty slot. -/
def RingLinked (t : prefixTree) : Prop :=
  (∀ n ∈ t.Array, n.Check < 0 → isFree t (-n.Check) = true) ∧
  (∀ b ∈ t.Blocks, b.Num ≠ 0 → isFree t b.Ehead = true)

instance instDecidableRingLinked (t : prefixTree) : Decidable (RingLinked t) := by
  unfold RingLinked; infer_instance

/-- Scenario D: the 256 calls `Insert([]byte{i}, i)`, `i` in `0..255`. -/
def scenarioD : List Op := (List.range 256).map (fun i => Op.insert [toByte i] i)

/-- The empty slots (`Check < 0`) of block `b`, in index order. -/
def emptySlots (t : prefixTree) (b : Nat) : List Int :=
  ((((t.Array.enum.drop (256 * b)).take 256).filter (fun p => decide (p.2.Check < 0))).map
    (fun p => (p.1 : Int)))

/-- The slots met from `e` along the `next` links of the empty ring (`next = -Check`),
until the link leads back to `stop`. -/
def ringFrom (t : prefixTree) (stop : Int) : Nat → Int → List Int
  | 0, _ => []
  | fuel + 1, e =>
    e :: (match rd t.Array e with
      | .ok n => if -n.Check = stop then [] else ringFrom t stop fuel (-n.Check)
      | .error _ => [])

/-- A list of labels in strictly ascending order. -/
def ascending : List byte → Bool
  | a :: b :: rest => decide (a < b) && ascending (b :: rest)
  | _ => true

/-- The result of `Get` is a value: no fault and no error. -/
def hasValue (r : Except Fault (Int × Option Error)) : Bool :=
  match r with
  | .ok (_, none) => true
  | _ => false

/-- The call returned (it did not fault). -/
def returns {α : Type} (r : Except Fault α) : Bool :=
  match r with
  | .ok _ => true
  | .error _ => false

/-- The non-empty prefixes of `k` for which `Get` returns a value, by increasing
length. -/
def storedPrefixes (t : prefixTree) (k : List byte) : List (List byte) :=
  k.inits.tail.filter (fun p => hasValue (Get t p))

/-- The states reachable from `New()` by calls of `Insert`, `Update` and `Delete` that
return (the other calls of the API leave the state as it is). -/
inductive Reachable : prefixTree → Prop
  | init : Reachable New
  | step (op : Op) (t t2 : prefixTree) (e : Option Error) :
      Reachable t → op.apply t = .ok (t2, e) → Reachable t2

/-- The size fields, which only `addBlock` changes: `Size`, `Capacity`, `len(Array)`,
`len(Ninfos)`. -/
def dims (t : prefixTree) : Int × Int × Nat × Nat :=
  (t.Size, t.Capacity, t.Array.length, t.Ninfos.length)

/-- `Size` is a multiple of 256 and at most `Capacity`, and `Array` and `Ninfos` have
`Capacity` entries. -/
def SizeInv (t : prefixTree) : Prop :=
  t.Size % 256 = 0 ∧ t.Size ≤ t.Capacity ∧ (t.Array.length : Int) = t.Capacity ∧
    (t.Ninfos.length : Int) = t.Capacity

/-- The invariant kept by `addBlock`: `SizeInv`, and `Capacity` is 256 doubled some
number of times. -/
def CapInv (t : prefixTree) : Prop :=
  SizeInv t ∧ ∃ k : Nat, t.Capacity = 256 * 2 ^ k

/-- From `s` to `s2` the invariant `CapInv` is kept and `Capacity` does not decrease. -/
def Grows (s s2 : prefixTree) : Prop :=
  CapInv s → CapInv s2 ∧ s.Capacity ≤ s2.Capacity

/-- The number of occupied slots (`Check >= 0`) among the slots `i < Size`. -/
def occupiedSlots (t : prefixTree) : Nat :=
  (t.Array.take t.Size.toNat).countP (fun n => decide (n.Check ≥ 0))

/-- The number of occupied slots with `Value >= 0` among the slots `i < Size`. -/
def valueSlots (t : prefixTree) : Nat :=
  (t.Array.take t.Size.toNat).countP (fun n => decide (n.Check ≥ 0 ∧ n.Value ≥ 0))

/-- The labels read from the location `c` on: `*c`, then the `Sibling` links of the
slots `base XOR label`, up to the end mark 0, are the list given. -/
def Linked (t : prefixTree) (base : Int) : Loc → List byte → Prop
  | c, [] => readLoc t c = .ok 0
  | c, d :: rest => readLoc t c = .ok d ∧ Linked t base (.sibling (Int.xor base (int d))) rest

/-- The location reached from `c` by walking over the labels `ls`: `c` itself, or
`&Ninfos[base XOR l].Sibling` for the last label `l`. -/
def endLoc (base : Int) (c : Loc) (ls : List byte) : Loc :=
  ls.foldl (fun _ d => Loc.sibling (Int.xor base (int d))) c

/-- The calls `Insert([]byte{b}, b)` for the `n` bytes `b = hi, hi - 1, ...`, in this
order. -/
def insertsFrom : Nat → Nat → List Op
  | _, 0 => []
  | hi, n + 1 => Op.insert [toByte (hi : Int)] (hi : Int) :: insertsFrom (hi - 1) n

/-- An occupied slot of block 0 in `downTo`: the slot `i` holds the value `i XOR 1`, the
byte that leads to it from the root. -/
def downUsed (i : Nat) : node :=
  ⟨if i % 2 = 0 then (i : Int) + 1 else (i : Int) - 1, 0⟩

/-- The slot `i` of `downTo m`. -/
def downSlot (m i : Nat) : node :=
  if i = 0 then ⟨-2, 0⟩
  else if m % 2 = 0 then
    (if i < m then
      ⟨if i = 1 then -((m : Int) - 1) else -((i : Int) - 1),
        if i + 1 = m then -1 else -((i : Int) + 1)⟩
    else downUsed i)
  else
    (if i + 1 < m then
      ⟨if i = 1 then -(m : Int) else -((i : Int) - 1),
        if i + 2 = m then -(m : Int) else -((i : Int) + 1)⟩
    else if i = m then ⟨-((m : Int) - 2), -1⟩
    else downUsed i)

/-- The `ninfo` of slot `i` of `downTo m`. -/
def downInfo (m i : Nat) : ninfo :=
  if i = 0 then ⟨0, toByte (m : Int)⟩
  else if (m % 2 = 0 ∧ i < m) ∨ (m % 2 = 1 ∧ (i + 1 < m ∨ i = m)) then ninfo.zero
  else ⟨toByte (if i % 2 = 0 then (if i = 254 then 0 else (i : Int) + 2) else (i : Int)), 0⟩

/-- Closed form of the trie after `Insert([]byte{b}, b)` for `b = 255, 254, ..., m` on
`New()` (`insertsFrom 255 (256 - m)`), for `2 ≤ m ≤ 256`: the slots `b XOR 1` of these
bytes are occupied, the other slots of block 0 form the ring of empty slots in
ascending order, the root's chain lists the bytes in ascending order, and block 0 counts
`m` empty slots. -/
def downTo (m : Nat) : prefixTree :=
  { New with
    Array := (List.range 256).map (downSlot m)
    Ninfos := (List.range 256).map (downInfo m)
    Blocks := [{ block.zero.init with Ehead := 1, Num := (m : Int) }] }

/-- The calls `Insert([]byte{b}, b)` for `b = 255, 254, ..., 2` and then
`Insert([]byte{0}, 0)`: 255 one-byte keys, which take the 255 slots of block 0 that
`New()` links into the ring of empty slots. -/
def fullBlock0 : List Op := insertsFrom 255 254 ++ [Op.insert [0] 0]

/-- The slot `i` of `fullTrie`. -/
def fullSlot (i : Nat) : node :=
  if i = 0 then ⟨-2, 0⟩ else if i = 1 then ⟨0, 0⟩ else downUsed i

/-- Closed form of the trie after the calls of `fullBlock0` on `New()`: every slot of
block 0 is occupied, the slot `b XOR 1` by the key of the one byte `b`, and block 0 still
counts one empty slot, with the ring head `Ehead = 1`. -/
def fullTrie : prefixTree :=
  { New with
    Array := (List.range 256).map fullSlot
    Ninfos := (List.range 256).map (fun i =>
      if i = 0 then ⟨0, 0⟩ else if i = 1 then ⟨2, 0⟩ else downInfo 2 i)
    Blocks := [{ block.zero.init with Ehead := 1, Num := 1 }] }

end PrefixTree


namespace PrefixTree

/-! ## Evaluation at concrete inputs -/

/-- C1 (round trip), failing input: after `Insert("\x01a", 5)` and `Insert("a", 7)`, both
returning `nil`, `Get("\x01a")` returns `(7, nil)` and not the value 5 inserted for that
key: the root slot is its own child for the label `0x01`. -/
theorem roundtrip_fails_on_root_alias :
    getAfter [.insert [1, 97] 5, .insert [97] 7] [1, 97] = .ok (some (7, none)) := by
  decide!

/-- C2 (re-insert), failing input: `Update("y", -1000)` on the empty trie returns `nil`
and leaves a state in which `Insert("y", 3)` does not return: it indexes `Array` out of
range. -/
theorem insert_faults_after_update :
    errorsOf [.update [121] (-1000)] = .ok [none] ∧
    errorsOf [.update [121] (-1000), .insert [121] 3] = .error .indexOutOfRange := by
  decide!

/-- C3 (Insert returns nil for in-range values), failing input: after three inserts that
return `nil`, `Insert("a\x01", 1)` does not return: it indexes `Ninfos` out of range. -/
theorem insert_in_range_faults :
    errorsOf [.insert [97] 1, .insert [0, 0] 1, .insert [1] 1] = .ok [none, none, none] ∧
    errorsOf [.insert [97] 1, .insert [0, 0] 1, .insert [1] 1, .insert [97, 1] 1] =
      .error .indexOutOfRange := by
  decide!

/-- Scenario B: after `Delete("abc")` returned `nil`, `Get("abc")` returns `ErrNoValue`,
not `ErrNoPath`: the slot of `"abc"` stays as an inner node on the path of `"abcd"`. -/
theorem scenarioB_get_is_no_value :
    getAfter [.insert [97, 98] 23, .insert [97, 98, 99] 19, .insert [97, 98, 99, 100] 37,
      .delete [97, 98, 99]] [97, 98, 99] = .ok (some (0, some .ErrNoValue)) := by
  decide!

/-- C5 (Delete of an absent key), failing input: with only `"ab"` stored, `Delete("a")`
returns `nil` instead of `ErrNoPath`, and afterwards `Get("ab")` returns `ErrNoPath`. -/
theorem delete_of_proper_prefix_destroys :
    errorsOf [.insert [97, 98] 1, .delete [97]] = .ok [none, none] ∧
    getAfter [.insert [97, 98] 1, .delete [97]] [97, 98] = .ok (some (0, some .ErrNoPath)) := by
  decide!

/-- C7 (Update never stores an out-of-range value), failing input: on the empty trie
`Update("y", -5)` returns `nil` and stores `-5` in the slot of `"y"`, and
`Update("y", ValueLimit)` returns `nil`, after which `Get("y")` returns `ValueLimit`. -/
theorem update_absent_key_unchecked :
    (do
      let (t, e) ← Update New [121] (-5)
      let n ← rd t.Array 120
      return (e, n.Value)) = .ok (none, -5) ∧
    getAfter [.update [121] ValueLimit] [121] = .ok (some (ValueLimit, none)) := by
  decide!

/-- C8 (Scenario C), counterexample: the last call `Update("x", ValueLimit-100)` returns
`nil`, not `ErrInvalidValue`, and `Get("x")` is then `ValueLimit - 92`, not 8. -/
theorem scenarioC_last_update_accepted :
    getAfter [.insert [120] 5, .update [120] 3, .update [121] 7,
      .update [120] (ValueLimit - 100)] [120] = .ok (some (ValueLimit - 92, none)) := by
  decide!

/-- C8 (Scenario C) as the code runs it: after `Insert("x", 5)` and `Update("x", 3)`,
`Get("x") = 8`; after `Update("y", 7)`, `Get("y") = 7`; `Update("x", ValueLimit-100)`
returns `nil` and `Get("x") = ValueLimit - 92`; the delta that is rejected on the value 8
is `ValueLimit - 8`: `Update("x", ValueLimit-8)` returns `ErrInvalidValue` and `Get("x")`
is still 8. -/
theorem scenarioC :
    getAfter [.insert [120] 5, .update [120] 3] [120] = .ok (some (8, none)) ∧
    getAfter [.insert [120] 5, .update [120] 3, .update [121] 7] [121] = .ok (some (7, none)) ∧
    getAfter [.insert [120] 5, .update [120] 3, .update [121] 7,
      .update [120] (ValueLimit - 100)] [120] = .ok (some (ValueLimit - 92, none)) ∧
    (do
      let (t, _) ← run [.insert [120] 5, .update [120] 3, .update [121] 7] New
      let (t, e) ← Update t [120] (ValueLimit - 8)
      return (e, ← Get t [120])) = .ok (some .ErrInvalidValue, (8, none)) := by
  decide!

/-- C9 (key recovery), failing input: after `Insert("\x01a", 5)`, `Jump("\x01a", 0)`
succeeds with id 96 and `Key(96)` returns `"a"`, not `"\x01a"`: the root slot `{-2, 0}`
is its own child for the byte 0x01, and `Key` stops at the root without that byte. -/
theorem key_of_jump_drops_root_alias :
    (do
      let (t, _) ← Insert New [1, 97] 5
      let (id, e) ← Jump t [1, 97] 0
      return (id, e, ← Key t id)) = .ok (96, none, ([97], none)) := by
  decide!

/-- C10 (ordered enumeration), failing input: on the empty trie `PrefixPredict("", 0)`
does not return a list: `next` indexes `Array` out of range. -/
theorem prefixPredict_faults_on_empty_trie :
    PrefixPredict New [] 0 = .error .indexOutOfRange := by
  decide!

/-! ## Paths of `Jump`, `Key` and `get` -/

theorem rd_ok_iff {α : Type} {a : List α} {i : Int} {v : α} :
    rd a i = .ok v ↔ 0 ≤ i ∧ a[i.toNat]? = some v := by
  unfold rd
  split
  · constructor
    · intro h; cases h
    · intro h; omega
  · split
    · rename_i w hw
      constructor
      · intro h; cases h; exact ⟨by omega, hw⟩
      · intro h; rw [hw] at h; cases h.2; rfl
    · rename_i hw
      constructor
      · intro h; cases h
      · intro h; rw [hw] at h; cases h.2

theorem jumpLoop_cons_iff (t : prefixTree) (rest : List byte) (b : byte) (frm d0 id : Int) :
    jumpLoop t (b :: rest) frm d0 = .ok (id, none) ↔
      ∃ mid, Step t frm b mid ∧ jumpLoop t rest mid mid = .ok (id, none) := by
  simp only [jumpLoop, bind, Except.bind, pure, Except.pure]
  constructor
  · intro h
    cases h1 : rd t.Array frm with
    | error e => rw [h1] at h; cases h
    | ok n =>
      rw [h1] at h
      by_cases hv : n.Value ≥ 0
      · simp [hv] at h
      · simp only [hv, if_false] at h
        cases h2 : rd t.Array (Int.xor n.base (int b)) with
        | error e => rw [h2] at h; cases h
        | ok m =>
          rw [h2] at h
          by_cases hc : m.Check = frm
          · simp only [hc, ne_eq, not_true_eq_false, if_false] at h
            exact ⟨_, ⟨n, m, h1, by omega, rfl, h2, hc⟩, h⟩
          · simp [hc] at h
  · rintro ⟨mid, ⟨n, m, h1, hv, hmid, h2, hc⟩, h⟩
    subst hmid
    have hv2 : ¬ n.Value ≥ 0 := by omega
    simp only [h1, hv2, if_false, h2, hc, ne_eq, not_true_eq_false]
    exact h


theorem jumpLoop_self_iff (t : prefixTree) (ks : List byte) (frm id : Int) :
    jumpLoop t ks frm frm = .ok (id, none) ↔ Path t frm ks id := by
  induction ks generalizing frm with
  | nil =>
    simp only [jumpLoop, Path]
    constructor
    · intro h; cases h; rfl
    · intro h; rw [h]
  | cons b rest ih =>
    rw [jumpLoop_cons_iff]
    simp only [Path]
    constructor
    · rintro ⟨mid, hs, h⟩; exact ⟨mid, hs, (ih mid).1 h⟩
    · rintro ⟨mid, hs, h⟩; exact ⟨mid, hs, (ih mid).2 h⟩

theorem Jump_zero_iff (t : prefixTree) (ks : List byte) (id : Int) :
    Jump t ks 0 = .ok (id, none) ↔ Path t 0 ks id :=
  jumpLoop_self_iff t ks 0 id

theorem Path_append (t : prefixTree) (a b : List byte) (frm dst : Int) :
    Path t frm (a ++ b) dst ↔ ∃ mid, Path t frm a mid ∧ Path t mid b dst := by
  induction a generalizing frm with
  | nil => simp [Path]
  | cons c a ih =>
    show (∃ mid, Step t frm c mid ∧ Path t mid (a ++ b) dst) ↔
      ∃ mid, (∃ m1, Step t frm c m1 ∧ Path t m1 a mid) ∧ Path t mid b dst
    simp only [ih]
    constructor
    · rintro ⟨m1, hs, m2, h1, h2⟩; exact ⟨m2, ⟨m1, hs, h1⟩, h2⟩
    · rintro ⟨m2, ⟨m1, hs, h1⟩, h2⟩; exact ⟨m1, hs, m2, h1, h2⟩

theorem Path_snoc (t : prefixTree) (a : List byte) (b : byte) (frm dst : Int) :
    Path t frm (a ++ [b]) dst ↔ ∃ mid, Path t frm a mid ∧ Step t mid b dst := by
  rw [Path_append]
  simp [Path]

theorem base_nonneg {n : node} (h : n.Value < 0) : 0 ≤ n.base := by
  unfold node.base; omega

theorem xor_ofNat (a b : Nat) : Int.xor (a : Int) (b : Int) = ((a ^^^ b : Nat) : Int) := rfl

theorem toByte_int (b : byte) : toByte (int b) = b := by
  apply Fin.ext
  have := b.isLt
  show ((Int.ofNat b.val) % 256).toNat = b.val
  rw [Int.ofNat_eq_coe]
  omega

theorem toByte_xor_cancel {B : Int} (hB : 0 ≤ B) (b : byte) :
    toByte (Int.xor B (Int.xor B (int b))) = b := by
  obtain ⟨k, rfl⟩ := Int.eq_ofNat_of_zero_le hB
  have h : Int.xor (k : Int) (Int.xor (k : Int) (int b)) = int b := by
    simp only [int, Int.ofNat_eq_coe, xor_ofNat, Nat.xor_cancel_left]
  rw [h, toByte_int]

theorem xor_byte_inj {B : Int} (hB : 0 ≤ B) {c d : byte}
    (h : Int.xor B (int c) = Int.xor B (int d)) : c = d := by
  have := congrArg (fun x => toByte (Int.xor B x)) h
  simpa [toByte_xor_cancel hB] using this


theorem Step_nonneg {t : prefixTree} {frm dst : Int} {b : byte} (h : Step t frm b dst) :
    0 ≤ frm ∧ 0 ≤ dst := by
  obtain ⟨n, m, hn, _, _, hm, _⟩ := h
  exact ⟨(rd_ok_iff.1 hn).1, (rd_ok_iff.1 hm).1⟩

theorem head?_append_singleton_of_ne_nil {ks : List byte} (b : byte) (h : ks ≠ []) :
    (ks ++ [b]).head? = ks.head? := by
  cases ks with
  | nil => exact absurd rfl h
  | cons a as => rfl

theorem Path_ne_zero {t : prefixTree} {r : node} (h0 : rd t.Array 0 = .ok r) (hc : r.Check = 0) :
    ∀ (ks : List byte) (x : Int), ks ≠ [] →
      (∀ b, ks.head? = some b → Int.xor r.base (int b) ≠ 0) → Path t 0 ks x → x ≠ 0 := by
  intro ks
  induction ks using List.reverseRecOn with
  | nil => intro x h; exact absurd rfl h
  | append_singleton ks b ih =>
    intro x _ hfirst hp hx0
    obtain ⟨mid, hp, n, m, hn, hv, hx, hm, hcm⟩ := (Path_snoc t ks b 0 x).1 hp
    subst hx0
    rw [h0] at hm
    cases hm
    rw [hc] at hcm
    subst hcm
    by_cases hks : ks = []
    · subst hks
      rw [h0] at hn
      cases hn
      exact hfirst b rfl hx.symm
    · refine ih 0 hks ?_ hp rfl
      intro c hc2
      exact hfirst c (by rw [head?_append_singleton_of_ne_nil b hks]; exact hc2)

theorem keyLoop_of_path {t : prefixTree} {r : node} (h0 : rd t.Array 0 = .ok r)
    (hc : r.Check = 0) :
    ∀ (ks : List byte) (id : Int) (acc : List byte) (fuel : Nat),
      (∀ b, ks.head? = some b → Int.xor r.base (int b) ≠ 0) → (∀ b ∈ ks, b ≠ 0) →
      Path t 0 ks id → ks.length < fuel →
      keyLoop t fuel id acc = .ok (0, acc ++ ks.reverse, none) := by
  intro ks
  induction ks using List.reverseRecOn with
  | nil =>
    intro id acc fuel _ _ hp hf
    cases hp
    cases fuel with
    | zero => simp at hf
    | succ fuel => simp [keyLoop]
  | append_singleton ks b ih =>
    intro id acc fuel hfirst hz hp hf
    have hid : id ≠ 0 := Path_ne_zero h0 hc _ id (by simp) hfirst hp
    obtain ⟨mid, hp2, n, m, hn, hv, hx, hm, hcm⟩ := (Path_snoc t ks b 0 id).1 hp
    have hid0 : 0 ≤ id := (rd_ok_iff.1 hm).1
    have hmid0 : 0 ≤ mid := (rd_ok_iff.1 hn).1
    cases fuel with
    | zero => simp at hf
    | succ fuel =>
      have hpos : id > 0 := by omega
      have hb : b ≠ 0 := hz b (by simp)
      have hchar : toByte (Int.xor n.base id) = b := by
        rw [hx]; exact toByte_xor_cancel (base_nonneg hv) b
      have hnot : ¬ mid < 0 := by omega
      simp only [keyLoop, hpos, if_true, bind, Except.bind, hm, hcm, hnot, if_false, hn, hchar,
        ne_eq, hb, not_false_eq_true]
      rw [ih mid (acc ++ [b]) fuel ?_ ?_ hp2 ?_]
      · simp [pure, Except.pure]
      · intro c hc2
        by_cases hks : ks = []
        · subst hks; simp at hc2
        · exact hfirst c (by rw [head?_append_singleton_of_ne_nil b hks]; exact hc2)
      · intro c hc2; exact hz c (by simp [hc2])
      · simp at hf; omega


theorem Path_inj {t : prefixTree} {r : node} (h0 : rd t.Array 0 = .ok r) (hc : r.Check = 0) :
    ∀ (a b : List byte) (x : Int),
      (∀ c, a.head? = some c → Int.xor r.base (int c) ≠ 0) →
      (∀ c, b.head? = some c → Int.xor r.base (int c) ≠ 0) →
      Path t 0 a x → Path t 0 b x → a = b := by
  intro a
  induction a using List.reverseRecOn with
  | nil =>
    intro b x _ hb hpa hpb
    cases hpa
    by_contra hne
    exact Path_ne_zero h0 hc b 0 (fun h => hne h.symm) hb hpb rfl
  | append_singleton a c ih =>
    intro b x ha hb hpa hpb
    have hx : x ≠ 0 := Path_ne_zero h0 hc _ x (by simp) ha hpa
    rcases List.eq_nil_or_concat b with hnil | ⟨b', d, hbd⟩
    · subst hnil
      cases hpb
      exact absurd rfl hx
    · rw [List.concat_eq_append] at hbd
      subst hbd
      obtain ⟨m1, hp1, n1, k1, hn1, hv1, hx1, hk1, hc1⟩ := (Path_snoc t a c 0 x).1 hpa
      obtain ⟨m2, hp2, n2, k2, hn2, hv2, hx2, hk2, hc2⟩ := (Path_snoc t b' d 0 x).1 hpb
      rw [hk1] at hk2
      cases hk2
      rw [hc1] at hc2
      subst hc2
      rw [hn1] at hn2
      cases hn2
      have hab : a = b' := by
        refine ih b' m1 ?_ ?_ hp1 hp2
        · intro e he
          by_cases hks : a = []
          · subst hks; simp at he
          · exact ha e (by rw [head?_append_singleton_of_ne_nil c hks]; exact he)
        · intro e he
          by_cases hks : b' = []
          · subst hks; simp at he
          · exact hb e (by rw [head?_append_singleton_of_ne_nil d hks]; exact he)
      have hcd : c = d := xor_byte_inj (base_nonneg hv1) (hx1.symm.trans hx2)
      rw [hab, hcd]

theorem Path_valid {t : prefixTree} :
    ∀ (ks : List byte) (frm x : Int), (∃ n, rd t.Array frm = .ok n) → Path t frm ks x →
      ∃ n, rd t.Array x = .ok n := by
  intro ks
  induction ks with
  | nil => intro frm x h hp; cases hp; exact h
  | cons b rest ih =>
    intro frm x _ hp
    obtain ⟨mid, ⟨_, m, _, _, _, hm, _⟩, hp2⟩ := hp
    exact ih mid x ⟨m, hm⟩ hp2

theorem rd_lt_length {α : Type} {a : List α} {i : Int} {v : α} (h : rd a i = .ok v) :
    0 ≤ i ∧ i.toNat < a.length := by
  obtain ⟨h1, h2⟩ := rd_ok_iff.1 h
  exact ⟨h1, (List.getElem?_eq_some_iff.1 h2).1⟩

theorem Path_length_lt {t : prefixTree} {r : node} (h0 : rd t.Array 0 = .ok r)
    (hc : r.Check = 0) (k : List byte) (id : Int)
    (hfirst : ∀ c, k.head? = some c → Int.xor r.base (int c) ≠ 0) (hp : Path t 0 k id) :
    k.length < t.Array.length := by
  have hex : ∀ i : Fin (k.length + 1), ∃ x : Int, Path t 0 (k.take i) x ∧ 0 ≤ x ∧
      x.toNat < t.Array.length := by
    intro i
    have hk : Path t 0 (k.take i ++ k.drop i) id := by rw [List.take_append_drop]; exact hp
    obtain ⟨mid, h1, _⟩ := (Path_append t _ _ 0 id).1 hk
    obtain ⟨n, hn⟩ := Path_valid _ 0 mid ⟨r, h0⟩ h1
    exact ⟨mid, h1, rd_lt_length hn⟩
  choose f hf using hex
  let g : Fin (k.length + 1) → Fin t.Array.length := fun i => ⟨(f i).toNat, (hf i).2.2⟩
  have hfirst_take : ∀ i : Fin (k.length + 1), ∀ c, (k.take i).head? = some c →
      Int.xor r.base (int c) ≠ 0 := by
    intro i c hc2
    apply hfirst c
    cases k with
    | nil => simp at hc2
    | cons a as =>
      cases hi : i.val with
      | zero => rw [hi] at hc2; simp at hc2
      | succ j => rw [hi] at hc2; simpa using hc2
  have hinj : Function.Injective g := by
    intro i j hij
    have h1 : (f i).toNat = (f j).toNat := by
      have := congrArg Fin.val hij
      simpa [g] using this
    have h2 : f i = f j := by
      have hi := (hf i).2.1
      have hj := (hf j).2.1
      omega
    have h3 : k.take i = k.take j :=
      Path_inj h0 hc _ _ (f i) (hfirst_take i) (hfirst_take j) (hf i).1 (h2 ▸ (hf j).1)
    have h4 := congrArg List.length h3
    simp only [List.length_take] at h4
    apply Fin.ext
    have := i.isLt
    have := j.isLt
    omega
  have := Fintype.card_le_of_injective g hinj
  simp only [Fintype.card_fin] at this
  omega


theorem Get_ok_iff (t : prefixTree) (k : List byte) (p : Int) :
    Get t k = .ok (p, none) ↔ ∃ id, Path t 0 k id ∧ Value t id = .ok (p, none) := by
  simp only [Get, bind, Except.bind, pure, Except.pure]
  constructor
  · intro h
    cases hJ : Jump t k 0 with
    | error e => rw [hJ] at h; cases h
    | ok res =>
      obtain ⟨dst, err⟩ := res
      rw [hJ] at h
      cases err with
      | some e => simp at h
      | none => exact ⟨dst, (Jump_zero_iff t k dst).1 hJ, by simpa using h⟩
  · rintro ⟨id, hp, hv⟩
    rw [(Jump_zero_iff t k id).2 hp]
    simpa using hv

/-- `Key` inverts `Jump` on the keys that `Get` finds: in every trie state whose root slot
is its own parent (`Array[0].Check = 0`), for every key `k` for which `Get(k)` returns a
value, that is not empty, has no byte 0 and whose first byte does not lead from the root
to slot 0, `Jump(k, 0)` succeeds with some id and `Key(id)` returns `(k, nil)`.  The
statement is about the state alone: it does not say which keys `Insert` makes `Get`
find. -/
theorem key_recovery (t : prefixTree) (r : node) (k : List byte) (v : Int)
    (h0 : rd t.Array 0 = .ok r) (hc : r.Check = 0)
    (hne : k ≠ []) (hz : ∀ b ∈ k, b ≠ 0)
    (hfirst : ∀ b, k.head? = some b → Int.xor r.base (int b) ≠ 0)
    (hget : Get t k = .ok (v, none)) :
    ∃ id, Jump t k 0 = .ok (id, none) ∧ Key t id = .ok (k, none) := by
  obtain ⟨id, hp, _⟩ := (Get_ok_iff t k v).1 hget
  refine ⟨id, (Jump_zero_iff t k id).2 hp, ?_⟩
  have hlen := Path_length_lt h0 hc k id hfirst hp
  have hk := keyLoop_of_path h0 hc k id [] (t.Array.length + 1) hfirst hz hp (by omega)
  have hlen0 : k.length ≠ 0 := by
    intro h; exact hne (List.length_eq_zero.1 h)
  simp [Key, hk, bind, Except.bind, pure, Except.pure, hlen0]


theorem wr_of_rd {α : Type} {a : List α} {i : Int} {v : α} (f : α → α) (h : rd a i = .ok v) :
    wr a i f = .ok (a.set i.toNat (f v)) := by
  obtain ⟨h1, h2⟩ := rd_ok_iff.1 h
  have : ¬ i < 0 := by omega
  simp [wr, this, h2]

theorem rd_set_same {α : Type} {a : List α} {i : Int} {v w : α} (h : rd a i = .ok v) :
    rd (a.set i.toNat w) i = .ok w := by
  obtain ⟨h1, h2⟩ := rd_lt_length h
  apply rd_ok_iff.2
  refine ⟨h1, ?_⟩
  rw [List.getElem?_set_self (by simpa using h2)]

theorem rd_set_other {α : Type} {a : List α} {i j : Int} (w : α) (hi : 0 ≤ i) (hij : j ≠ i) :
    rd (a.set i.toNat w) j = rd a j := by
  unfold rd
  by_cases hj : j < 0
  · simp [hj]
  · have : i.toNat ≠ j.toNat := by omega
    simp only [hj, if_false]
    rw [List.getElem?_set_ne this]

theorem Int_xor_zero {B : Int} (hB : 0 ≤ B) : Int.xor B (int 0) = B := by
  obtain ⟨k, rfl⟩ := Int.eq_ofNat_of_zero_le hB
  show Int.xor (k : Int) ((0 : Nat) : Int) = _
  rw [xor_ofNat, Nat.xor_zero]

theorem follow_existing {t : prefixTree} {frm : Int} {b : byte} {n m : node}
    (hn : rd t.Array frm = .ok n) (hv : n.Value < 0)
    (hm : rd t.Array (Int.xor n.base (int b)) = .ok m) (hc : m.Check = frm) :
    follow t frm b = .ok (t, Int.xor n.base (int b)) := by
  have hb : ¬ n.base < 0 := by have := base_nonneg hv; omega
  have hf : 0 ≤ frm := (rd_ok_iff.1 hn).1
  have hc2 : ¬ frm < 0 := by omega
  simp [follow, bind, Except.bind, pure, Except.pure, hn, hb, hm, hc2, hc]

theorem getLoop_of_path {t : prefixTree} :
    ∀ (ks : List byte) (frm dst : Int), Path t frm ks dst → getLoop ks t frm = .ok (t, dst) := by
  intro ks
  induction ks with
  | nil => intro frm dst h; cases h; rfl
  | cons b rest ih =>
    intro frm dst h
    obtain ⟨mid, ⟨n, m, hn, hv, hmid, hm, hc⟩, hp⟩ := h
    subst hmid
    have hnv : ¬ (n.Value ≥ 0 ∧ n.Value ≠ ValueLimit) := by omega
    simp only [getLoop, bind, Except.bind, pure, Except.pure, hn, hnv, if_false,
      follow_existing hn hv hm hc]
    exact ih _ _ hp


theorem setValue_of_rd {t : prefixTree} {h : Int} {nh : node} (v : Int)
    (hh : rd t.Array h = .ok nh) :
    setValue t h v = .ok { t with Array := t.Array.set h.toNat { nh with Value := v } } := by
  simp [setValue, wr_of_rd _ hh, bind, Except.bind, pure, Except.pure]

theorem Value_ok_iff (t : prefixTree) (id p : Int) :
    Value t id = .ok (p, none) ↔
      ∃ n, rd t.Array id = .ok n ∧
        ((0 ≤ n.Value ∧ p = n.Value) ∨
          (n.Value < 0 ∧ ∃ m, rd t.Array n.base = .ok m ∧ m.Check = id ∧ 0 ≤ m.Value ∧
            p = m.Value)) := by
  simp only [Value, bind, Except.bind, pure, Except.pure]
  cases hn : rd t.Array id with
  | error e => simp
  | ok n =>
    by_cases hv : n.Value ≥ 0
    · simp only [hv, if_true]
      constructor
      · intro h; cases h; exact ⟨n, rfl, Or.inl ⟨hv, rfl⟩⟩
      · rintro ⟨n2, h2, h3⟩
        cases h2
        rcases h3 with ⟨_, h4⟩ | ⟨h4, _⟩
        · rw [h4]
        · omega
    · simp only [hv, if_false]
      cases hm : rd t.Array n.base with
      | error e =>
        simp only []
        constructor
        · intro h; cases h
        · rintro ⟨n2, h2, h3⟩
          cases h2
          rcases h3 with ⟨h4, _⟩ | ⟨_, m, h5, _⟩
          · omega
          · rw [hm] at h5; cases h5
      | ok m =>
        simp only []
        by_cases hc : m.Check = id ∧ m.Value ≥ 0
        · simp only [hc, and_self, if_true]
          constructor
          · intro h; cases h
            exact ⟨n, rfl, Or.inr ⟨by omega, m, hm, hc.1, hc.2, rfl⟩⟩
          · rintro ⟨n2, h2, h3⟩
            cases h2
            rcases h3 with ⟨h4, _⟩ | ⟨_, m2, h5, _, _, h6⟩
            · omega
            · rw [hm] at h5; cases h5; rw [h6]
        · simp only [hc, if_false]
          constructor
          · intro h; cases h
          · rintro ⟨n2, h2, h3⟩
            cases h2
            rcases h3 with ⟨h4, _⟩ | ⟨_, m2, h5, h6, h7, _⟩
            · omega
            · rw [hm] at h5; cases h5; exact absurd ⟨h6, h7⟩ hc


/-- The slot that holds the value of a stored key: the node `id` reached by `Jump` when
it is terminal, else its child for the label 0. -/
theorem holder_of_stored {t : prefixTree} {k : List byte} {p : Int}
    (hget : Get t k = .ok (p, none)) :
    ∃ id h nh, Path t 0 k id ∧ get t k 0 0 = .ok (t, h) ∧ rd t.Array h = .ok nh ∧
      nh.Value = p ∧ 0 ≤ p ∧
      (h = id ∨ ∃ n, rd t.Array id = .ok n ∧ n.Value < 0 ∧ h = n.base ∧ nh.Check = id) := by
  obtain ⟨id, hp, hv⟩ := (Get_ok_iff t k p).1 hget
  obtain ⟨n, hn, hcase⟩ := (Value_ok_iff t id p).1 hv
  have hloop := getLoop_of_path k 0 id hp
  rcases hcase with ⟨h1, h2⟩ | ⟨h1, m, hm, hc, h3, h4⟩
  · refine ⟨id, id, n, hp, ?_, hn, h2.symm, by omega, Or.inl rfl⟩
    have : ¬ n.Value < 0 := by omega
    simp [get, hloop, bind, Except.bind, pure, Except.pure, hn, this]
  · refine ⟨id, n.base, m, hp, ?_, hm, h4.symm, by omega, Or.inr ⟨n, hn, h1, rfl, hc⟩⟩
    have hm2 : rd t.Array (Int.xor n.base (int 0)) = .ok m := by
      rw [Int_xor_zero (base_nonneg h1)]; exact hm
    have hf := follow_existing hn h1 hm2 hc
    rw [Int_xor_zero (base_nonneg h1)] at hf
    simp [get, hloop, bind, Except.bind, pure, Except.pure, hn, h1, hf]

theorem Path_setValue {t : prefixTree} {h : Int} {nh : node} (v : Int)
    (hh : rd t.Array h = .ok nh) (hnh : 0 ≤ nh.Value) :
    ∀ (ks : List byte) (frm dst : Int), Path t frm ks dst →
      Path { t with Array := t.Array.set h.toNat { nh with Value := v } } frm ks dst := by
  have hh0 : 0 ≤ h := (rd_ok_iff.1 hh).1
  intro ks
  induction ks with
  | nil => intro frm dst hp; exact hp
  | cons b rest ih =>
    intro frm dst hp
    obtain ⟨mid, ⟨n, m, hn, hv, hmid, hm, hc⟩, hp2⟩ := hp
    refine ⟨mid, ?_, ih mid dst hp2⟩
    have hfrm : frm ≠ h := by
      intro heq; rw [heq, hh] at hn; cases hn; omega
    by_cases hmh : mid = h
    · refine ⟨n, { nh with Value := v }, ?_, hv, hmid, ?_, ?_⟩
      · show rd (t.Array.set h.toNat _) frm = _
        rw [rd_set_other _ hh0 hfrm]; exact hn
      · show rd (t.Array.set h.toNat _) mid = _
        rw [hmh]; exact rd_set_same hh
      · rw [hmh, hh] at hm; cases hm; exact hc
    · refine ⟨n, m, ?_, hv, hmid, ?_, hc⟩
      · show rd (t.Array.set h.toNat _) frm = _
        rw [rd_set_other _ hh0 hfrm]; exact hn
      · show rd (t.Array.set h.toNat _) mid = _
        rw [rd_set_other _ hh0 hmh]; exact hm

/-- Overwriting the value slot of a stored key with a non-negative value makes `Get`
return that value. -/
theorem Get_after_store {t : prefixTree} {k : List byte} {id h : Int} {nh : node} (v : Int)
    (hv : 0 ≤ v) (hp : Path t 0 k id) (hh : rd t.Array h = .ok nh) (hnh : 0 ≤ nh.Value)
    (hcase : h = id ∨ ∃ n, rd t.Array id = .ok n ∧ n.Value < 0 ∧ h = n.base ∧ nh.Check = id) :
    Get { t with Array := t.Array.set h.toNat { nh with Value := v } } k = .ok (v, none) := by
  have hh0 : 0 ≤ h := (rd_ok_iff.1 hh).1
  apply (Get_ok_iff _ k v).2
  refine ⟨id, Path_setValue v hh hnh k 0 id hp, ?_⟩
  apply (Value_ok_iff _ id v).2
  rcases hcase with heq | ⟨n, hn, hn1, hhb, hc⟩
  · subst heq
    exact ⟨{ nh with Value := v }, rd_set_same hh, Or.inl ⟨hv, rfl⟩⟩
  · have hne : id ≠ h := by
      intro heq; rw [heq, hh] at hn; cases hn; omega
    refine ⟨n, ?_, Or.inr ⟨hn1, { nh with Value := v }, ?_, hc, hv, rfl⟩⟩
    · show rd (t.Array.set h.toNat _) id = _
      rw [rd_set_other _ hh0 hne]; exact hn
    · show rd (t.Array.set h.toNat _) n.base = _
      rw [← hhb]; exact rd_set_same hh

theorem wrap64_of_range {x : Int} (h1 : -2 ^ 63 ≤ x) (h2 : x < 2 ^ 63) : wrap64 x = x := by
  unfold wrap64
  norm_num at h1 h2 ⊢
  omega

/-- C6 (Update on a stored key): in every trie state, for every key `k` stored with a
value `p < ValueLimit` (`Get(k) = (p, nil)`) and every 64-bit `delta`: if
`0 <= p + delta < ValueLimit` then `Update(k, delta)` returns `nil` and `Get(k)` then
returns `p + delta`; otherwise `Update` returns `ErrInvalidValue` and the state is the
one before the call. -/
theorem update_stored (t : prefixTree) (k : List byte) (p delta : Int)
    (hget : Get t k = .ok (p, none)) (hp : p < ValueLimit)
    (hd : -2 ^ 63 ≤ delta ∧ delta < 2 ^ 63) :
    (0 ≤ p + delta ∧ p + delta < ValueLimit →
      ∃ t', Update t k delta = .ok (t', none) ∧ Get t' k = .ok (p + delta, none)) ∧
    (¬ (0 ≤ p + delta ∧ p + delta < ValueLimit) →
      Update t k delta = .ok (t, some .ErrInvalidValue)) := by
  obtain ⟨id, h, nh, hpath, hg, hh, hval, hp0, hcase⟩ := holder_of_stored hget
  have hne : ¬ nh.Value = ValueLimit := by omega
  have hVL : ValueLimit = 2 ^ 63 - 1 := rfl
  constructor
  · intro hr
    have hw : wrap64 (nh.Value + delta) = p + delta := by
      rw [hval]; apply wrap64_of_range <;> omega
    have hok : ¬ (p + delta < 0 ∨ p + delta ≥ ValueLimit) := by omega
    refine ⟨_, ?_, Get_after_store (p + delta) hr.1 hpath hh (by omega) hcase⟩
    simp [Update, hg, bind, Except.bind, pure, Except.pure, hh, hne, hw, hok,
      setValue_of_rd _ hh]
  · intro hr
    have hbad : wrap64 (nh.Value + delta) < 0 ∨ wrap64 (nh.Value + delta) ≥ ValueLimit := by
      rw [hval]
      unfold wrap64
      rw [hVL] at hp hr ⊢
      norm_num at hp hr hd ⊢
      omega
    simp [Update, hg, bind, Except.bind, pure, Except.pure, hh, hne, hbad]

/-- Witness for `update_stored`: the trie after `Insert("x", 5)`, the key `"x"`, `delta = 3`. -/
theorem update_stored_witness :
    Get (trieOf [.insert [120] 5]) [120] = .ok (5, none) ∧
    ((0 : Int) ≤ 5 + 3 ∧ (5 : Int) + 3 < ValueLimit →
      ∃ t', Update (trieOf [.insert [120] 5]) [120] 3 = .ok (t', none) ∧
        Get t' [120] = .ok (5 + 3, none)) :=
  ⟨by decide!,
    (update_stored (trieOf [.insert [120] 5]) [120] 5 3 (by decide!) (by decide!)
      (by decide!)).1⟩

/-- Witness for `key_recovery`: the trie after `Insert("a", 5)` and the key `"a"`. -/
theorem key_recovery_witness :
    Get (trieOf [.insert [97] 5]) [97] = .ok (5, none) ∧
    ∃ id, Jump (trieOf [.insert [97] 5]) [97] 0 = .ok (id, none) ∧
      Key (trieOf [.insert [97] 5]) id = .ok ([97], none) :=
  ⟨by decide!,
    key_recovery (trieOf [.insert [97] 5]) ⟨-2, 0⟩ [97] 5 (by decide!) (by decide!)
      (by decide!) (by decide!) (by intro b hb; cases hb; decide!) (by decide!)⟩

/-! ## `Delete`: released slots and the keys that stay -/

theorem bind_ok_iff {ε α β : Type} (x : Except ε α) (f : α → Except ε β) (b : β) :
    (x >>= f) = .ok b ↔ ∃ a, x = .ok a ∧ f a = .ok b := by
  cases x with
  | error e => simp [bind, Except.bind]
  | ok a => simp [bind, Except.bind]

theorem pure_ok_iff {ε α : Type} (a b : α) : (pure a : Except ε α) = .ok b ↔ a = b := by
  simp [pure, Except.pure]

/-- The guard of `Insert`: an out-of-range value is answered with `ErrInvalidValue` and
the trie state is returned as it was. -/
theorem Insert_out_of_range (t : prefixTree) (key : List byte) (value : Int)
    (h : value < 0 ∨ value ≥ ValueLimit) :
    Insert t key value = .ok (t, some .ErrInvalidValue) := by
  unfold Insert
  rw [if_pos h]

/-- The guard of `Insert`, converse: a call of `Insert` with an in-range value that
returns, returns `nil`. -/
theorem Insert_in_range_nil (t t' : prefixTree) (key : List byte) (value : Int)
    (e : Option Error) (h : 0 ≤ value ∧ value < ValueLimit)
    (hr : Insert t key value = .ok (t', e)) : e = none := by
  unfold Insert at hr
  rw [if_neg (by omega)] at hr
  obtain ⟨⟨t1, p⟩, _, hr⟩ := (bind_ok_iff _ _ _).mp hr
  obtain ⟨t2, _, hr⟩ := (bind_ok_iff _ _ _).mp hr
  have := (pure_ok_iff _ _).mp hr
  simp only [Prod.mk.injEq] at this
  exact this.2.symm

theorem Frame.refl (s : prefixTree) : Frame s s := ⟨rfl, rfl, rfl, rfl, rfl⟩

theorem Frame.trans {a b c : prefixTree} (h1 : Frame a b) (h2 : Frame b c) : Frame a c :=
  ⟨h2.array.trans h1.array, h2.ninfos.trans h1.ninfos, h2.reject.trans h1.reject,
    h2.maxTrial.trans h1.maxTrial, h2.ne.trans h1.ne⟩

theorem wr_ok_iff {α : Type} {a a' : List α} {i : Int} {f : α → α} :
    wr a i f = .ok a' ↔ ∃ v, rd a i = .ok v ∧ a' = a.set i.toNat (f v) := by
  unfold wr rd
  by_cases hi : i < 0
  · simp [hi]
  · simp only [hi, if_false]
    cases h : a[i.toNat]? with
    | none => simp
    | some v =>
      simp only [Except.ok.injEq]
      constructor
      · intro h2; exact ⟨v, rfl, h2.symm⟩
      · rintro ⟨w, h2, h3⟩; cases h2; exact h3.symm

theorem setBlock_frame {s s' : prefixTree} {bi : Int} {f : block → block}
    (h : setBlock s bi f = .ok s') (hf : ∀ b, (f b).Num = b.Num ∧ (f b).Ehead = b.Ehead) :
    Frame s s' := by
  simp only [setBlock, bind_ok_iff, pure_ok_iff] at h
  obtain ⟨bs, hbs, rfl⟩ := h
  obtain ⟨v, hv, rfl⟩ := wr_ok_iff.1 hbs
  refine ⟨rfl, rfl, rfl, rfl, ?_⟩
  show List.map _ (s.Blocks.set bi.toNat (f v)) = _
  rw [List.map_set]
  obtain ⟨h0, h1⟩ := rd_ok_iff.1 hv
  have := hf v
  rw [this.1, this.2]
  apply List.ext_getElem?
  intro j
  by_cases hj : bi.toNat = j
  · subst hj
    rw [List.getElem?_set_self (by simpa using (List.getElem?_eq_some_iff.1 h1).1)]
    simp [h1]
  · rw [List.getElem?_set_ne hj]

theorem setHead_frame (s : prefixTree) (h : Head) (v : Int) : Frame s (setHead s h v) := by
  cases h <;> exact ⟨rfl, rfl, rfl, rfl, rfl⟩

theorem popBlock_frame {s s' : prefixTree} {bi : Int} {hd : Head} {last : Bool}
    (h : popBlock s bi hd last = .ok s') : Frame s s' := by
  unfold popBlock at h
  split at h
  · simp only [pure_ok_iff] at h
    subst h
    exact setHead_frame _ _ _
  · simp only [bind_ok_iff] at h
    obtain ⟨b1, _, s1, h1, b2, _, s2, h2, b3, _, h3⟩ := h
    have f1 := setBlock_frame h1 (fun b => ⟨rfl, rfl⟩)
    have f2 := setBlock_frame h2 (fun b => ⟨rfl, rfl⟩)
    split at h3
    · simp only [pure_ok_iff] at h3
      subst h3
      exact (f1.trans f2).trans (setHead_frame _ _ _)
    · simp only [pure_ok_iff] at h3
      subst h3
      exact f1.trans f2

theorem pushBlock_frame {s s' : prefixTree} {bi : Int} {hd : Head} {empty : Bool}
    (h : pushBlock s bi hd empty = .ok s') : Frame s s' := by
  unfold pushBlock at h
  simp only [bind_ok_iff] at h
  obtain ⟨_, _, h⟩ := h
  split at h
  · exact (setHead_frame s hd bi).trans (setBlock_frame h (fun b => ⟨rfl, rfl⟩))
  · simp only [bind_ok_iff] at h
    obtain ⟨hb, _, s1, h1, s2, h2, hb2, _, _, _, s3, h3, h4⟩ := h
    have f1 := setBlock_frame h1 (fun b => ⟨rfl, rfl⟩)
    have f2 := setBlock_frame h2 (fun b => ⟨rfl, rfl⟩)
    have f3 := setBlock_frame h3 (fun b => ⟨rfl, rfl⟩)
    have f4 := setBlock_frame h4 (fun b => ⟨rfl, rfl⟩)
    exact (((f1.trans f2).trans (setHead_frame _ _ _)).trans f3).trans f4

theorem transferBlock_frame {s s' : prefixTree} {bi : Int} {hin hout : Head}
    (h : transferBlock s bi hin hout = .ok s') : Frame s s' := by
  unfold transferBlock at h
  simp only [bind_ok_iff] at h
  obtain ⟨_, _, s1, h1, _, _, h2⟩ := h
  exact (popBlock_frame h1).trans (pushBlock_frame h2)

theorem rd_wr {α : Type} {a a' : List α} {i : Int} {f : α → α} (h : wr a i f = .ok a')
    (x : Int) : rd a' x = if x = i then (rd a x).map f else rd a x := by
  obtain ⟨v, hv, rfl⟩ := wr_ok_iff.1 h
  by_cases hx : x = i
  · subst hx
    rw [if_pos rfl, rd_set_same hv, hv]
    rfl
  · rw [if_neg hx, rd_set_other _ (rd_ok_iff.1 hv).1 hx]

theorem wr_length {α : Type} {a a' : List α} {i : Int} {f : α → α} (h : wr a i f = .ok a') :
    a'.length = a.length := by
  obtain ⟨v, _, rfl⟩ := wr_ok_iff.1 h
  simp

theorem setNode_spec {s s' : prefixTree} {i : Int} {n : node} (h : setNode s i n = .ok s') :
    ∃ a', wr s.Array i (fun _ => n) = .ok a' ∧ s' = { s with Array := a' } := by
  simp only [setNode, bind_ok_iff, pure_ok_iff] at h
  obtain ⟨a', h1, h2⟩ := h
  exact ⟨a', h1, h2.symm⟩

theorem setCheck_spec {s s' : prefixTree} {i v : Int} (h : setCheck s i v = .ok s') :
    ∃ a', wr s.Array i (fun n => { n with Check := v }) = .ok a' ∧
      s' = { s with Array := a' } := by
  simp only [setCheck, bind_ok_iff, pure_ok_iff] at h
  obtain ⟨a', h1, h2⟩ := h
  exact ⟨a', h1, h2.symm⟩

theorem setValue_spec {s s' : prefixTree} {i v : Int} (h : setValue s i v = .ok s') :
    ∃ a', wr s.Array i (fun n => { n with Value := v }) = .ok a' ∧
      s' = { s with Array := a' } := by
  simp only [setValue, bind_ok_iff, pure_ok_iff] at h
  obtain ⟨a', h1, h2⟩ := h
  exact ⟨a', h1, h2.symm⟩

theorem rd_map_ne {l l' : List block}
    (h : l'.map (fun b => (b.Num, b.Ehead)) = l.map (fun b => (b.Num, b.Ehead)))
    {i : Int} {x : block} (hx : rd l' i = .ok x) :
    ∃ y, rd l i = .ok y ∧ y.Num = x.Num ∧ y.Ehead = x.Ehead := by
  obtain ⟨h0, h1⟩ := rd_ok_iff.1 hx
  have h2 := congrArg (fun l => l[i.toNat]?) h
  simp only [List.getElem?_map, h1, Option.map_some'] at h2
  cases hy : l[i.toNat]? with
  | none => rw [hy] at h2; simp at h2
  | some y =>
    rw [hy] at h2
    simp only [Option.map_some', Option.some.injEq, Prod.mk.injEq] at h2
    exact ⟨y, rd_ok_iff.2 ⟨h0, hy⟩, h2.1.symm, h2.2.symm⟩

theorem pushEnodeFirst_spec {s s' : prefixTree} {e bi : Int} {b : block}
    (hb : rd s.Blocks bi = .ok b) (h : pushEnodeFirst s e bi = .ok s') :
    (∃ a', wr s.Array e (fun _ => ⟨-e, -e⟩) = .ok a' ∧ s'.Array = a') ∧
    s'.Ninfos = s.Ninfos ∧ s'.Reject = s.Reject ∧
    s'.Blocks.map (fun b => (b.Num, b.Ehead)) =
      (s.Blocks.set bi.toNat { b with Ehead := e }).map (fun b => (b.Num, b.Ehead)) := by
  unfold pushEnodeFirst at h
  simp only [bind_ok_iff] at h
  obtain ⟨s1, h1, s2, h2, h3⟩ := h
  have hs1 : s1 = { s with Blocks := s.Blocks.set bi.toNat { b with Ehead := e } } := by
    simp only [setBlock, bind_ok_iff, pure_ok_iff] at h1
    obtain ⟨bs, hbs, rfl⟩ := h1
    obtain ⟨v, hv, rfl⟩ := wr_ok_iff.1 hbs
    rw [hb] at hv; cases hv; rfl
  obtain ⟨a', ha', hs2⟩ := setNode_spec h2
  have f3 : Frame s2 s' := by
    split at h3
    · exact transferBlock_frame h3
    · simp only [pure_ok_iff] at h3; subst h3; exact Frame.refl _
  subst hs1 hs2
  exact ⟨⟨a', ha', f3.array⟩, f3.ninfos, f3.reject, f3.ne⟩

theorem pushEnodeLink_spec {s s' : prefixTree} {e bi prev : Int}
    (h : pushEnodeLink s e bi prev = .ok s') :
    (∃ p a1 a2 a3, rd s.Array prev = .ok p ∧
      wr s.Array e (fun _ => ⟨-prev, - -p.Check⟩) = .ok a1 ∧
      wr a1 prev (fun n => { n with Check := -e }) = .ok a2 ∧
      wr a2 (-p.Check) (fun n => { n with Value := -e }) = .ok a3 ∧ s'.Array = a3) ∧
    s'.Ninfos = s.Ninfos ∧ s'.Reject = s.Reject ∧
    s'.Blocks.map (fun b => (b.Num, b.Ehead)) = s.Blocks.map (fun b => (b.Num, b.Ehead)) := by
  unfold pushEnodeLink at h
  simp only [bind_ok_iff] at h
  obtain ⟨p, hp, s1, h1, s2, h2, s3, h3, b2, _, s4, h4, h5⟩ := h
  obtain ⟨a1, ha1, hs1⟩ := setNode_spec h1
  obtain ⟨a2, ha2, hs2⟩ := setCheck_spec h2
  obtain ⟨a3, ha3, hs3⟩ := setValue_spec h3
  have f4 : Frame s3 s4 := by
    split at h4
    · split at h4
      · exact transferBlock_frame h4
      · simp only [pure_ok_iff] at h4; subst h4; exact Frame.refl _
    · simp only [pure_ok_iff] at h4; subst h4; exact Frame.refl _
  have f5 : Frame s4 s' := setBlock_frame h5 (fun b => ⟨rfl, rfl⟩)
  have f := f4.trans f5
  subst hs1 hs2 hs3
  exact ⟨⟨p, a1, a2, a3, hp, ha1, ha2, ha3, f.array⟩, f.ninfos, f.reject, f.ne⟩

theorem released_first {a a' : List node} {e : Int} (he : 0 < e) (hc : closedIn a)
    (h : wr a e (fun _ => ⟨-e, -e⟩) = .ok a') : Released a a' e := by
  have hrd := rd_wr h
  obtain ⟨v, hv, _⟩ := wr_ok_iff.1 h
  have hfree : freeIn a' e := ⟨⟨-e, -e⟩, by rw [hrd, if_pos rfl, hv]; rfl, by show -e < 0; omega⟩
  have hmono : ∀ x, freeIn a x → freeIn a' x := by
    rintro x ⟨n, hn, hlt⟩
    by_cases hx : x = e
    · rw [hx]; exact hfree
    · exact ⟨n, by rw [hrd, if_neg hx]; exact hn, hlt⟩
  refine ⟨?_, hfree, hmono, ?_⟩
  · intro x n hn hlt
    by_cases hx : x = e
    · subst hx
      rw [hrd, if_pos rfl, hv] at hn
      cases hn
      show freeIn a' (- -x)
      rw [neg_neg]; exact hfree
    · rw [hrd, if_neg hx] at hn
      exact hmono _ (hc x n hn hlt)
  · intro x hx _
    rw [hrd, if_neg hx]

theorem released_link {a a1 a2 a3 : List node} {e prev : Int} {p : node} (he : 0 < e)
    (hc : closedIn a) (hp : rd a prev = .ok p) (hpf : p.Check < 0)
    (h1 : wr a e (fun _ => ⟨-prev, - -p.Check⟩) = .ok a1)
    (h2 : wr a1 prev (fun n => { n with Check := -e }) = .ok a2)
    (h3 : wr a2 (-p.Check) (fun n => { n with Value := -e }) = .ok a3) : Released a a3 e := by
  have r1 := rd_wr h1
  have r2 := rd_wr h2
  have r3 := rd_wr h3
  obtain ⟨v, hv, _⟩ := wr_ok_iff.1 h1
  have hnext : freeIn a (-p.Check) := hc prev p hp hpf
  -- the check field after the three stores
  have key : ∀ x n, rd a x = .ok n → ∃ n', rd a3 x = .ok n' ∧
      n'.Check = (if x = prev then -e else if x = e then p.Check else n.Check) ∧
      (x ≠ e → x ≠ prev → x ≠ -p.Check → n' = n) := by
    intro x n hn
    have e1 : ∃ n1, rd a1 x = .ok n1 ∧ n1.Check = (if x = e then p.Check else n.Check) ∧
        (x ≠ e → n1 = n) := by
      by_cases hx : x = e
      · refine ⟨⟨-prev, - -p.Check⟩, by rw [r1, if_pos hx, hn]; rfl, ?_, fun h => absurd hx h⟩
        rw [if_pos hx]; show - -p.Check = _; rw [neg_neg]
      · exact ⟨n, by rw [r1, if_neg hx]; exact hn, by rw [if_neg hx], fun _ => rfl⟩
    obtain ⟨n1, hn1, hc1, hs1⟩ := e1
    have e2 : ∃ n2, rd a2 x = .ok n2 ∧
        n2.Check = (if x = prev then -e else n1.Check) ∧ (x ≠ prev → n2 = n1) := by
      by_cases hx : x = prev
      · exact ⟨{ n1 with Check := -e }, by rw [r2, if_pos hx, hn1]; rfl, by rw [if_pos hx],
          fun h => absurd hx h⟩
      · exact ⟨n1, by rw [r2, if_neg hx]; exact hn1, by rw [if_neg hx], fun _ => rfl⟩
    obtain ⟨n2, hn2, hc2, hs2⟩ := e2
    by_cases hx : x = -p.Check
    · refine ⟨{ n2 with Value := -e }, by rw [r3, if_pos hx, hn2]; rfl, ?_, fun _ _ h => absurd hx h⟩
      show n2.Check = _
      rw [hc2, hc1]
    · refine ⟨n2, by rw [r3, if_neg hx]; exact hn2, by rw [hc2, hc1], ?_⟩
      intro h1 h2 _
      rw [hs2 h2, hs1 h1]
  have hfree : freeIn a3 e := by
    obtain ⟨n', hn', hc', _⟩ := key e v hv
    refine ⟨n', hn', ?_⟩
    rw [hc']
    split
    · omega
    · rw [if_pos rfl]; exact hpf
  have hmono : ∀ x, freeIn a x → freeIn a3 x := by
    rintro x ⟨n, hn, hlt⟩
    obtain ⟨n', hn', hc', _⟩ := key x n hn
    refine ⟨n', hn', ?_⟩
    rw [hc']
    split
    · omega
    · split
      · exact hpf
      · exact hlt
  have inv : ∀ x n', rd a3 x = .ok n' → ∃ n, rd a x = .ok n := by
    intro x n' hn'
    cases hx : rd a x with
    | ok n => exact ⟨n, rfl⟩
    | error err =>
      exfalso
      have q1 : rd a1 x = .error err := by rw [r1, hx]; split <;> rfl
      have q2 : rd a2 x = .error err := by rw [r2, q1]; split <;> rfl
      have q3 : rd a3 x = .error err := by rw [r3, q2]; split <;> rfl
      rw [q3] at hn'; cases hn'
  refine ⟨?_, hfree, hmono, ?_⟩
  · intro x n' hn' hlt
    obtain ⟨n, hn⟩ := inv x n' hn'
    obtain ⟨n2, hn2, hc2, _⟩ := key x n hn
    rw [hn'] at hn2
    cases hn2
    rw [hc2] at hlt ⊢
    by_cases hx1 : x = prev
    · rw [if_pos hx1, neg_neg]; exact hfree
    · rw [if_neg hx1] at hlt ⊢
      by_cases hx2 : x = e
      · rw [if_pos hx2]; exact hmono _ hnext
      · rw [if_neg hx2] at hlt ⊢
        exact hmono _ (hc x n hn hlt)
  · intro x hx hnf
    cases hxa : rd a x with
    | error err =>
      have q1 : rd a1 x = .error err := by rw [r1, hxa]; split <;> rfl
      have q2 : rd a2 x = .error err := by rw [r2, q1]; split <;> rfl
      rw [r3, q2]; split <;> rfl
    | ok n =>
      obtain ⟨n', hn', _, hsame⟩ := key x n hxa
      have hx1 : x ≠ prev := by
        intro heq; apply hnf; rw [heq]; exact ⟨p, hp, hpf⟩
      have hx2 : x ≠ -p.Check := by
        intro heq; apply hnf; rw [heq]; exact hnext
      rw [hn', hsame hx hx1 hx2]

theorem blocks_after_push {bl0 bl : List block} {a a' : List node} {bi0 : Int} {b0 nb : block}
    (hb0 : rd bl0 bi0 = .ok b0)
    (hne : bl.map (fun b => (b.Num, b.Ehead)) =
      (bl0.set bi0.toNat nb).map (fun b => (b.Num, b.Ehead)))
    (hmono : ∀ x, freeIn a x → freeIn a' x)
    (hfr : ∀ bi b, rd bl0 bi = .ok b → b.Num ≠ 0 → freeIn a b.Ehead)
    (hem : nb.Num ≠ 0 → freeIn a' nb.Ehead) :
    ∀ bi bb, rd bl bi = .ok bb → bb.Num ≠ 0 → freeIn a' bb.Ehead := by
  intro bi bb hbb hnum
  obtain ⟨y, hy, hy1, hy2⟩ := rd_map_ne hne hbb
  by_cases hbi : bi = bi0
  · subst hbi
    rw [rd_set_same hb0] at hy
    cases hy
    rw [← hy2]
    apply hem
    rw [hy1]; exact hnum
  · rw [rd_set_other nb (rd_ok_iff.1 hb0).1 hbi] at hy
    rw [← hy2]
    exact hmono _ (hfr bi y hy (by rw [hy1]; exact hnum))

theorem setBlock_eq {s s' : prefixTree} {bi : Int} {f : block → block} {b0 : block}
    (hb0 : rd s.Blocks bi = .ok b0) (h : setBlock s bi f = .ok s') :
    s' = { s with Blocks := s.Blocks.set bi.toNat (f b0) } := by
  simp only [setBlock, bind_ok_iff, pure_ok_iff] at h
  obtain ⟨bs, hbs, rfl⟩ := h
  obtain ⟨v, hv, rfl⟩ := wr_ok_iff.1 hbs
  rw [hb0] at hv; cases hv; rfl

theorem pushEnode_spec {s s' : prefixTree} {e : Int} (hfr : FR s) (he : 0 < e)
    (h : pushEnode s e = .ok s') :
    FR s' ∧ Released s.Array s'.Array e ∧ (∀ x, x ≠ e → rd s'.Ninfos x = rd s.Ninfos x) := by
  unfold pushEnode at h
  simp only [bind_ok_iff, pure_ok_iff] at h
  obtain ⟨b0, hb0, s1, h1, b, hb, s2, h2, b3, _, r, _, s3, h3, ns, hns, hs'⟩ := h
  have hs1 := setBlock_eq hb0 h1
  have hbeq : b = { b0 with Num := b0.Num + 1 } := by
    rw [hs1] at hb
    have := rd_set_same (w := ({ b0 with Num := b0.Num + 1 } : block)) hb0
    rw [show rd ({ s with Blocks := s.Blocks.set (e >>> 8).toNat _ } : prefixTree).Blocks (e >>> 8)
      = rd (s.Blocks.set (e >>> 8).toNat _) (e >>> 8) from rfl, this] at hb
    cases hb; rfl
  have f3 : Frame s2 s3 := by
    split at h3
    · exact setBlock_frame h3 (fun b => ⟨rfl, rfl⟩)
    · simp only [pure_ok_iff] at h3; subst h3; exact Frame.refl _
  have hA : s'.Array = s2.Array := by rw [← hs']; exact f3.array
  have hB : s'.Blocks.map (fun b => (b.Num, b.Ehead)) =
      s2.Blocks.map (fun b => (b.Num, b.Ehead)) := by rw [← hs']; exact f3.ne
  have hnin : s2.Ninfos = s.Ninfos → ∀ (x : Int), x ≠ e → rd s'.Ninfos x = rd s.Ninfos x := by
    intro hn2 x hx
    rw [← hs']
    show rd ns x = _
    rw [rd_wr hns, if_neg hx, f3.ninfos, hn2]
  have hs1A : s1.Array = s.Array := by rw [hs1]
  have hs1N : s1.Ninfos = s.Ninfos := by rw [hs1]
  have hs1B : s1.Blocks = s.Blocks.set (e >>> 8).toNat { b0 with Num := b0.Num + 1 } := by rw [hs1]
  have hb1 : rd s1.Blocks (e >>> 8) = .ok b := hb
  split at h2
  · -- the block had no empty slot
    obtain ⟨⟨a', ha', harr⟩, hnin2, _, hne⟩ := pushEnodeFirst_spec hb1 h2
    rw [hs1A] at ha'
    have hrel : Released s.Array a' e := released_first he hfr.1 ha'
    have harr3 : s'.Array = a' := by rw [hA, harr]
    rw [hs1B, List.set_set] at hne
    refine ⟨⟨?_, ?_⟩, ?_, ?_⟩
    · rw [harr3]; exact hrel.closed
    · rw [harr3]
      exact blocks_after_push hb0 (hB.trans hne) hrel.mono hfr.2 (fun _ => hrel.free)
    · rw [harr3]; exact hrel
    · exact hnin (by rw [hnin2, hs1N])
  · -- the slot is linked after `Ehead`
    rename_i hnum1
    obtain ⟨⟨p, a1, a2, a3, hp, hw1, hw2, hw3, harr⟩, hnin2, _, hne⟩ := pushEnodeLink_spec h2
    have hb0num : b0.Num ≠ 0 := by
      intro h0; apply hnum1; rw [hbeq]; show b0.Num + 1 = 1; omega
    have hbe : b.Ehead = b0.Ehead := by rw [hbeq]
    rw [hbe] at hp hw1 hw2
    rw [hs1A] at hp hw1
    have hpf : p.Check < 0 := by
      obtain ⟨p', hp', hpf⟩ := hfr.2 _ b0 hb0 hb0num
      rw [hp] at hp'; cases hp'; exact hpf
    have hrel : Released s.Array a3 e := released_link he hfr.1 hp hpf hw1 hw2 hw3
    have harr3 : s'.Array = a3 := by rw [hA, harr]
    rw [hs1B] at hne
    refine ⟨⟨?_, ?_⟩, ?_, ?_⟩
    · rw [harr3]; exact hrel.closed
    · rw [harr3]
      exact blocks_after_push hb0 (hB.trans hne) hrel.mono hfr.2
        (fun _ => hrel.mono _ ⟨p, hp, hpf⟩)
    · rw [harr3]; exact hrel
    · exact hnin (by rw [hnin2, hs1N])

theorem writeLoc_frame {s s' : prefixTree} {c : Loc} {v : byte} (h : writeLoc s c v = .ok s') :
    s'.Array = s.Array ∧ s'.Blocks = s.Blocks := by
  cases c <;>
  · simp only [writeLoc, bind_ok_iff, pure_ok_iff] at h
    obtain ⟨ns, _, rfl⟩ := h
    exact ⟨rfl, rfl⟩

theorem popSibling_frame {s s' : prefixTree} {frm base : Int} {label : byte}
    (h : popSibling s frm base label = .ok s') :
    s'.Array = s.Array ∧ s'.Blocks = s.Blocks := by
  unfold popSibling at h
  simp only [bind_ok_iff] at h
  obtain ⟨_, _, c, _, v, _, x, _, h⟩ := h
  exact writeLoc_frame h

theorem Step_functional {t : prefixTree} {frm x y : Int} {b : byte} (hx : Step t frm b x)
    (hy : Step t frm b y) : x = y := by
  obtain ⟨n, _, hn, _, hx, _, _⟩ := hx
  obtain ⟨n2, _, hn2, _, hy, _, _⟩ := hy
  rw [hn] at hn2; cases hn2
  rw [hx, hy]

theorem Path_functional {t : prefixTree} :
    ∀ (ks : List byte) (frm x y : Int), Path t frm ks x → Path t frm ks y → x = y := by
  intro ks
  induction ks with
  | nil => intro frm x y hx hy; cases hx; cases hy; rfl
  | cons b rest ih =>
    intro frm x y hx hy
    obtain ⟨m1, hs1, hp1⟩ := hx
    obtain ⟨m2, hs2, hp2⟩ := hy
    have := Step_functional hs1 hs2
    subst this
    exact ih _ _ _ hp1 hp2

theorem toByte_xor_cancel_right {B : Int} (hB : 0 ≤ B) (b : byte) :
    toByte (Int.xor (Int.xor B (int b)) B) = b := by
  obtain ⟨k, rfl⟩ := Int.eq_ofNat_of_zero_le hB
  have h : Int.xor (Int.xor (k : Int) (int b)) (k : Int) = int b := by
    simp only [int, Int.ofNat_eq_coe, xor_ofNat]
    rw [Nat.xor_comm k, Nat.xor_assoc, Nat.xor_self, Nat.xor_zero]
  rw [h, toByte_int]

theorem head?_take_of_first {kp : List byte} {P : byte → Prop}
    (hfirst : ∀ c, kp.head? = some c → P c) (i : Nat) :
    ∀ c, (kp.take i).head? = some c → P c := by
  intro c hc2
  apply hfirst c
  cases kp with
  | nil => simp at hc2
  | cons a as =>
    cases i with
    | zero => simp at hc2
    | succ j => simpa using hc2

theorem Path_occupied {t : prefixTree} {r : node} (h0 : rd t.Array 0 = .ok r) (hc : r.Check = 0)
    (q : List byte) (x : Int) (hp : Path t 0 q x) : ∃ n, rd t.Array x = .ok n ∧ 0 ≤ n.Check := by
  rcases List.eq_nil_or_concat q with hnil | ⟨q', b, hq⟩
  · subst hnil; cases hp; exact ⟨r, h0, by omega⟩
  · rw [List.concat_eq_append] at hq
    subst hq
    obtain ⟨mid, _, n, m, hn, _, _, hm, hcm⟩ := (Path_snoc t q' b 0 x).1 hp
    exact ⟨m, hm, by rw [hcm]; exact (rd_ok_iff.1 hn).1⟩

theorem not_free_of_occupied {a : List node} {x : Int} {n : node} (h : rd a x = .ok n)
    (hn : 0 ≤ n.Check) : ¬ freeIn a x := by
  rintro ⟨n2, h2, h3⟩
  rw [h] at h2; cases h2; omega

theorem not_RelSet {t : prefixTree} {r : node} (h0 : rd t.Array 0 = .ok r) (hc : r.Check = 0)
    {kp : List byte} (hfirst : ∀ c, kp.head? = some c → Int.xor r.base (int c) ≠ 0)
    {i0 j : Nat} {x : Int} (hi0 : i0 ≤ j) (hp : Path t 0 (kp.take i0) x) : ¬ RelSet t kp j x := by
  rintro ⟨i, hji, hik, hpi⟩
  have := Path_inj h0 hc _ _ x (head?_take_of_first hfirst i0) (head?_take_of_first hfirst i) hp hpi
  have h2 := congrArg List.length this
  simp only [List.length_take] at h2
  omega

theorem take_pred_append {kp : List byte} {j : Nat} (hj0 : j ≠ 0) (hj : j ≤ kp.length) :
    ∃ b, kp[j - 1]? = some b ∧ kp.take j = kp.take (j - 1) ++ [b] := by
  have hlt : j - 1 < kp.length := by omega
  refine ⟨kp[j - 1], List.getElem?_eq_getElem hlt, ?_⟩
  have : j = (j - 1) + 1 := by omega
  conv_lhs => rw [this]
  rw [List.take_succ, List.getElem?_eq_getElem hlt]
  rfl

theorem deleteLoop_spec {t t' : prefixTree} {r : node} (h0 : rd t.Array 0 = .ok r)
    (hc : r.Check = 0) {kp : List byte}
    (hfirst : ∀ c, kp.head? = some c → Int.xor r.base (int c) ≠ 0) :
    ∀ (fuel j : Nat) (s : prefixTree) (dst : Int), j ≤ kp.length → Path t 0 (kp.take j) dst →
      Inv t s kp j → deleteLoop fuel s dst = .ok t' → ∃ j', j' ≤ j - 1 ∧ InvA t t' kp j' := by
  intro fuel
  induction fuel with
  | zero => intro j s dst _ _ _ h; simp [deleteLoop] at h
  | succ fuel ih =>
    intro j s dst hj hp hinv h
    unfold deleteLoop at h
    by_cases hpos : dst > 0
    · rw [if_pos hpos] at h
      have hj0 : j ≠ 0 := by
        intro hj0; subst hj0; simp only [List.take_zero] at hp; cases hp; omega
      obtain ⟨b, hb, htake⟩ := take_pred_append hj0 hj
      rw [htake] at hp
      obtain ⟨mid, hpm, hstep⟩ := (Path_snoc t _ b 0 dst).1 hp
      have hstep' := hstep
      obtain ⟨n, m, hn, hv, hdst, hm, hcm⟩ := hstep
      have hmid0 : 0 ≤ mid := (rd_ok_iff.1 hn).1
      -- `dst` and `mid` are not released yet and are occupied in `t`
      have hp' : Path t 0 (kp.take j) dst := by rw [htake]; exact hp
      have hnr_dst : ¬ RelSet t kp j dst := not_RelSet h0 hc hfirst (le_refl j) hp'
      have hnr_mid : ¬ RelSet t kp j mid := not_RelSet h0 hc hfirst (by omega) hpm
      have hocc_dst : ¬ freeIn t.Array dst := not_free_of_occupied hm (by omega)
      have hocc_mid : ¬ freeIn t.Array mid := by
        obtain ⟨n2, hn2, hn3⟩ := Path_occupied h0 hc _ mid hpm
        exact not_free_of_occupied hn2 hn3
      have hsd : rd s.Array dst = .ok m := by rw [hinv.same dst hocc_dst hnr_dst]; exact hm
      have hsm : rd s.Array mid = .ok n := by rw [hinv.same mid hocc_mid hnr_mid]; exact hn
      have hlabel : toByte (Int.xor dst n.base) = b := by
        rw [hdst]; exact toByte_xor_cancel_right (base_nonneg hv) b
      have hrel_dst : RelSet t kp (j - 1) dst := ⟨j, by omega, hj, hp'⟩
      have hsub : ∀ x, RelSet t kp j x → RelSet t kp (j - 1) x := by
        rintro x ⟨i, h1, h2, h3⟩; exact ⟨i, by omega, h2, h3⟩
      have hcases : ∀ x, RelSet t kp (j - 1) x → x = dst ∨ RelSet t kp j x := by
        rintro x ⟨i, h1, h2, h3⟩
        by_cases hij : i = j
        · left; subst hij; exact Path_functional _ _ _ _ h3 hp'
        · right; exact ⟨i, by omega, h2, h3⟩
      -- the array part of the invariant after `dst` was released from a state with the
      -- array of `s`
      have hafter : ∀ s2 : prefixTree, Released s.Array s2.Array dst →
          (∀ x, RelSet t kp (j - 1) x → freeIn s2.Array x) ∧
          (∀ x, ¬ freeIn t.Array x → ¬ RelSet t kp (j - 1) x → rd s2.Array x = rd t.Array x) := by
        intro s2 hrel
        constructor
        · intro x hx
          rcases hcases x hx with h1 | h1
          · rw [h1]; exact hrel.free
          · exact hrel.mono _ (hinv.free x h1)
        · intro x hx1 hx2
          have hx3 : ¬ RelSet t kp j x := fun h => hx2 (hsub x h)
          have hx4 : x ≠ dst := fun h => hx2 (h ▸ hrel_dst)
          have hx5 := hinv.same x hx1 hx3
          have hx6 : ¬ freeIn s.Array x := by
            rintro ⟨n2, h2, h3⟩; apply hx1; rw [hx5] at h2; exact ⟨n2, h2, h3⟩
          rw [hrel.same x hx4 hx6, hx5]
      simp only [bind_ok_iff, hsd, Except.ok.injEq, exists_eq_left', hcm, hsm, hlabel] at h
      obtain ⟨x, hx, y, hy, h⟩ := h
      rw [hinv.ninfos dst hnr_dst] at hx
      rw [hinv.ninfos mid hnr_mid] at hy
      split at h
      · -- `dst` has a sibling: unlink and release it, stop
        simp only [bind_ok_iff] at h
        obtain ⟨s1, h1, h2⟩ := h
        obtain ⟨ha1, hb1⟩ := popSibling_frame h1
        have hfr1 : FR s1 := by
          have := hinv.fr
          unfold FR at this ⊢
          rw [ha1, hb1]; exact this
        obtain ⟨_, hrel, _⟩ := pushEnode_spec hfr1 hpos h2
        rw [ha1] at hrel
        obtain ⟨hf, hs⟩ := hafter t' hrel
        refine ⟨j - 1, le_refl _, ⟨hf, hs, ?_⟩⟩
        intro i hi1 hi2
        by_cases hij : i = j + 1
        · subst hij; exact hinv.econd1 hi2
        · exact hinv.econd i (by omega) hi2
      · -- `dst` is the only child: release it and go on with its parent
        rename_i hcond
        simp only [bind_ok_iff] at h
        obtain ⟨s2, h2, h3⟩ := h
        obtain ⟨hfr2, hrel, hnin⟩ := pushEnode_spec hinv.fr hpos h2
        obtain ⟨hf, hs⟩ := hafter s2 hrel
        have hxs : x.Sibling = 0 := by
          by_contra hne; exact hcond (Or.inl hne)
        have hyc : y.Child = b := by
          by_contra hne; exact hcond (Or.inr hne)
        have hE : Econd t kp j := ⟨mid, dst, y, x, b, hpm, hstep', hb, hx, hxs, hy, hyc⟩
        have hinv2 : Inv t s2 kp (j - 1) := by
          refine ⟨⟨hf, hs, ?_⟩, hfr2, fun x hx => hrel.mono _ (hinv.mono x hx), ?_, ?_⟩
          · intro i hi1 hi2
            by_cases hij : i = j + 1
            · subst hij; exact hinv.econd1 hi2
            · exact hinv.econd i (by omega) hi2
          · intro z hz
            have hz1 : z ≠ dst := fun h => hz (h ▸ hrel_dst)
            have hz2 : ¬ RelSet t kp j z := fun h => hz (hsub z h)
            rw [hnin z hz1, hinv.ninfos z hz2]
          · intro _
            have : j - 1 + 1 = j := by omega
            rw [this]; exact hE
        obtain ⟨j', hj', hA⟩ := ih (j - 1) s2 mid (by omega) hpm hinv2 h3
        exact ⟨j', by omega, hA⟩
    · rw [if_neg hpos] at h
      simp only [pure_ok_iff] at h
      subst h
      have hd0 : dst = 0 := by
        obtain ⟨n, hn, _⟩ := Path_occupied h0 hc _ dst hp
        have := (rd_ok_iff.1 hn).1
        omega
      have hj0 : j = 0 := by
        by_contra hj0
        have hne : kp.take j ≠ [] := by
          intro h
          have := congrArg List.length h
          simp only [List.length_take, List.length_nil] at this
          omega
        exact Path_ne_zero h0 hc _ dst hne (head?_take_of_first hfirst j) hp hd0
      subst hj0
      exact ⟨0, le_refl _, hinv.toInvA⟩

theorem mem_childLabels_of_step {t : prefixTree} (hcc : ChainComplete t) {x z : Int} {b : byte}
    (hs : Step t x b z) (hz : z ≠ 0) : b ∈ childLabels t x := by
  obtain ⟨n, m, hn, hv, hz2, hm, hcm⟩ := hs
  obtain ⟨hz0, hzget⟩ := rd_ok_iff.1 hm
  have hmem : (z.toNat, m) ∈ t.Array.enum := List.mk_mem_enum_iff_getElem?.2 hzget
  have hzz : ((z.toNat : Nat) : Int) = z := Int.toNat_of_nonneg hz0
  have := hcc (z.toNat, m) hmem (by show z.toNat ≠ 0; omega)
  unfold childListed at this
  simp only [hzz, hcm, hn] at this
  have hb : toByte (Int.xor z n.base) = b := by
    rw [hz2]; exact toByte_xor_cancel_right (base_nonneg hv) b
  rw [hb, ← hz2] at this
  simpa [hv] using this

theorem childLabels_only {t : prefixTree} {x y : Int} {b : byte} {ix iy : ninfo}
    (hs : Step t x b y) (hx : rd t.Ninfos x = .ok ix) (hxc : ix.Child = b)
    (hy : rd t.Ninfos y = .ok iy) (hys : iy.Sibling = 0) : childLabels t x = [b] := by
  obtain ⟨n, m, hn, hv, hz2, hm, hcm⟩ := hs
  have hch : chainFrom t n.base 256 0 = [] := by
    show chainFrom t n.base (255 + 1) 0 = []
    simp [chainFrom]
  unfold childLabels
  rw [hn, hx]
  simp only [hxc, ← hz2, hy, hys, hch]

theorem Path_take {t : prefixTree} {kp : List byte} {h : Int} (hp : Path t 0 kp h) (l : Nat) :
    ∃ y, Path t 0 (kp.take l) y := by
  have hk : Path t 0 (kp.take l ++ kp.drop l) h := by rw [List.take_append_drop]; exact hp
  obtain ⟨mid, h1, _⟩ := (Path_append t _ _ 0 h).1 hk
  exact ⟨mid, h1⟩

theorem take_succ_eq {kp : List byte} {l : Nat} (hl : l < kp.length) :
    kp.take (l + 1) = kp.take l ++ [kp[l]] := by
  rw [List.take_succ, List.getElem?_eq_getElem hl]
  rfl

/-- A stored key whose path meets a released node is the deleted key. -/
theorem released_same_key {t : prefixTree} {r : node} (h0 : rd t.Array 0 = .ok r)
    (hc : r.Check = 0) (hcc : ChainComplete t) {kp kq : List byte}
    (hfq : ∀ c, kq.head? = some c → Int.xor r.base (int c) ≠ 0)
    {h h' : Int} {nh nh' : node} (hp : Path t 0 kp h) (hh : rd t.Array h = .ok nh)
    (hv : 0 ≤ nh.Value) (hq : Path t 0 kq h') (hh' : rd t.Array h' = .ok nh')
    (hv' : 0 ≤ nh'.Value) {j : Nat} (hE : ∀ i, j + 1 < i → i ≤ kp.length → Econd t kp i) :
    ∀ (d i l : Nat), kp.length - i = d → j < i → i ≤ kp.length → l ≤ kq.length →
      kp.take i = kq.take l → kp = kq := by
  intro d
  induction d with
  | zero =>
    intro i l hd _ hi hl heq
    have hik : i = kp.length := by omega
    subst hik
    rw [List.take_length] at heq
    by_cases hlk : l = kq.length
    · subst hlk; rw [List.take_length] at heq; exact heq
    · exfalso
      have hl2 : l < kq.length := by omega
      obtain ⟨z, hz⟩ := Path_take hq (l + 1)
      rw [take_succ_eq hl2, ← heq] at hz
      obtain ⟨mid, hm, n, _, hn, hnv, _⟩ := (Path_snoc t _ _ 0 z).1 hz
      have := Path_functional _ _ _ _ hm hp
      subst this
      rw [hh] at hn; cases hn; omega
  | succ d ih =>
    intro i l hd hji hi hl heq
    have hlen := congrArg List.length heq
    simp only [List.length_take] at hlen
    have hil : i = l := by omega
    subst hil
    have hi2 : i < kp.length := by omega
    obtain ⟨x, y, ix, iy, b, hpx, hs, hb, hy, hys, hx, hxc⟩ := hE (i + 1) (by omega) (by omega)
    simp only [Nat.add_sub_cancel] at hpx hb
    have hs' := hs
    obtain ⟨n, _, hn, hnv, _⟩ := hs
    by_cases hlk : i = kq.length
    · exfalso
      have heq2 : kp.take i = kq := by rw [heq, hlk, List.take_length]
      rw [heq2] at hpx
      have := Path_functional _ _ _ _ hpx hq
      subst this
      rw [hh'] at hn; cases hn; omega
    · have hl2 : i < kq.length := by omega
      obtain ⟨z, hz⟩ := Path_take hq (i + 1)
      have hz' := hz
      rw [take_succ_eq hl2, ← heq] at hz
      obtain ⟨mid, hm, hsz⟩ := (Path_snoc t _ _ 0 z).1 hz
      have := Path_functional _ _ _ _ hm hpx
      subst this
      have hz0 : z ≠ 0 := by
        refine Path_ne_zero h0 hc _ z ?_ (head?_take_of_first hfq (i + 1)) hz'
        intro hnil
        have := congrArg List.length hnil
        simp only [List.length_take, List.length_nil] at this
        omega
      have hmem := mem_childLabels_of_step hcc hsz hz0
      rw [childLabels_only hs' hx hxc hy hys] at hmem
      have hbb : kq[i] = b := by simpa using hmem
      have hkb : kp[i] = b := by
        rw [List.getElem?_eq_getElem hi2] at hb
        exact Option.some.inj hb
      apply ih (i + 1) (i + 1) (by omega) (by omega) (by omega) (by omega)
      rw [take_succ_eq hi2, take_succ_eq hl2, heq, hbb, hkb]

theorem isFree_iff {s : prefixTree} {x : Int} : isFree s x = true ↔ freeIn s.Array x := by
  unfold isFree freeIn
  cases h : rd s.Array x with
  | error e => simp
  | ok n => simp

theorem mem_of_rd {α : Type} {a : List α} {i : Int} {v : α} (h : rd a i = .ok v) : v ∈ a :=
  List.getElem?_mem (rd_ok_iff.1 h).2

theorem FR_of_RingLinked {t : prefixTree} (h : RingLinked t) : FR t :=
  ⟨fun _ n hn hlt => isFree_iff.1 (h.1 n (mem_of_rd hn) hlt),
    fun _ b hb hnum => isFree_iff.1 (h.2 b (mem_of_rd hb) hnum)⟩

/-- The path to the slot that holds the value of a stored key: the key itself, or the
key followed by the terminal label 0. -/
theorem stored_ext {t : prefixTree} {k : List byte} {v : Int} (hget : Get t k = .ok (v, none)) :
    ∃ kp id h nh n, (kp = k ∨ kp = k ++ [0]) ∧ Path t 0 k id ∧ Path t 0 kp h ∧
      rd t.Array id = .ok n ∧ rd t.Array h = .ok nh ∧ nh.Value = v ∧ 0 ≤ v ∧
      ((kp = k ∧ h = id) ∨ (kp = k ++ [0] ∧ n.Value < 0 ∧ h = n.base ∧ nh.Check = id)) := by
  obtain ⟨id, h, nh, hp, _, hh, hv, hv0, hcase⟩ := holder_of_stored hget
  rcases hcase with heq | ⟨n, hn, hnv, hhb, hc⟩
  · subst heq
    exact ⟨k, h, h, nh, nh, Or.inl rfl, hp, hp, hh, hh, hv, hv0, Or.inl ⟨rfl, rfl⟩⟩
  · refine ⟨k ++ [0], id, h, nh, n, Or.inr rfl, hp, ?_, hn, hh, hv, hv0,
      Or.inr ⟨rfl, hnv, hhb, hc⟩⟩
    refine (Path_snoc t k 0 0 h).2 ⟨id, hp, n, nh, hn, hnv, ?_, hh, hc⟩
    rw [Int_xor_zero (base_nonneg hnv)]; exact hhb

theorem Delete_loop {t t' : prefixTree} {k kp : List byte} {id h : Int} {n nh : node}
    (hp : Path t 0 k id) (hn : rd t.Array id = .ok n) (hh : rd t.Array h = .ok nh)
    (hv : 0 ≤ nh.Value)
    (hcase : (kp = k ∧ h = id) ∨ (kp = k ++ [0] ∧ n.Value < 0 ∧ h = n.base ∧ nh.Check = id))
    (hdel : Delete t k = .ok (t', none)) : deleteLoop (t.Array.length + 1) t h = .ok t' := by
  unfold Delete at hdel
  simp only [bind_ok_iff, (Jump_zero_iff t k id).2 hp, Except.ok.injEq, exists_eq_left',
    Option.isSome_none, Bool.false_eq_true, if_false, hn, pure_ok_iff, Prod.mk.injEq,
    and_true] at hdel
  obtain ⟨_, _, dst, hdst, s, hs, rfl⟩ := hdel
  rcases hcase with ⟨_, heq⟩ | ⟨_, hnv, hhb, hc⟩
  · subst heq
    have hnn : nh = n := by rw [hh] at hn; exact Except.ok.inj hn
    have : ¬ n.Value < 0 := by rw [← hnn]; omega
    simp only [this, if_false, pure_ok_iff] at hdst
    subst hdst; exact hs
  · subst hhb
    simp only [hnv, if_true, bind_ok_iff, hh, Except.ok.injEq, exists_eq_left', hc,
      pure_ok_iff] at hdst
    subst hdst; exact hs

theorem Path_congr {t t' : prefixTree} :
    ∀ (ks : List byte) (frm x : Int), Path t frm ks x →
      (∀ l y, Path t frm (ks.take l) y → rd t'.Array y = rd t.Array y) → Path t' frm ks x := by
  intro ks
  induction ks with
  | nil => intro frm x hp _; exact hp
  | cons b rest ih =>
    intro frm x hp hun
    obtain ⟨mid, hs, hp2⟩ := hp
    have hs' := hs
    obtain ⟨n, m, hn, hv, hmid, hm, hc⟩ := hs
    have u0 : rd t'.Array frm = rd t.Array frm := hun 0 frm rfl
    have u1 : rd t'.Array mid = rd t.Array mid := hun 1 mid ⟨mid, hs', rfl⟩
    refine ⟨mid, ⟨n, m, by rw [u0]; exact hn, hv, hmid, by rw [u1]; exact hm, hc⟩, ?_⟩
    refine ih mid x hp2 ?_
    intro l y hy
    exact hun (l + 1) y ⟨mid, hs', hy⟩

theorem jump_after {t t' : prefixTree} :
    ∀ (ks : List byte) (frm id d : Int), Path t frm ks id →
      rd t'.Array frm = rd t.Array frm →
      (∀ l y, 0 < l → Path t frm (ks.take l) y →
        rd t'.Array y = rd t.Array y ∨ freeIn t'.Array y) →
      (∃ f, jumpLoop t' ks frm d = .ok (f, some .ErrNoPath)) ∨
        (Path t' frm ks id ∧ rd t'.Array id = rd t.Array id) := by
  intro ks
  induction ks with
  | nil => intro frm id d hp hu _; cases hp; exact Or.inr ⟨rfl, hu⟩
  | cons b rest ih =>
    intro frm id d hp hu hall
    obtain ⟨mid, hs, hp2⟩ := hp
    have hs' := hs
    obtain ⟨n, m, hn, hv, hmid, hm, hc⟩ := hs
    have hfrm : 0 ≤ frm := (rd_ok_iff.1 hn).1
    have hnv : ¬ n.Value ≥ 0 := by omega
    rcases hall 1 mid (by omega) ⟨mid, hs', rfl⟩ with hsame | ⟨m', hm', hfree⟩
    · have hrec := ih mid id mid hp2 hsame (fun l y _ hy => hall (l + 1) y (by omega) ⟨mid, hs', hy⟩)
      rcases hrec with ⟨f, hf⟩ | ⟨hp3, hid⟩
      · left
        refine ⟨f, ?_⟩
        subst hmid
        simp only [jumpLoop, bind, Except.bind, hu, hn, hnv, if_false, hsame, hm, hc, ne_eq,
          not_true_eq_false]
        exact hf
      · right
        exact ⟨⟨mid, ⟨n, m, by rw [hu]; exact hn, hv, hmid, by rw [hsame]; exact hm, hc⟩, hp3⟩, hid⟩
    · left
      refine ⟨frm, ?_⟩
      subst hmid
      have hne : m'.Check ≠ frm := by omega
      simp [jumpLoop, bind, Except.bind, pure, Except.pure, hu, hn, hnv, hm', hne]

theorem head?_ext_of_first {k kp : List byte} {P : byte → Prop} (hk : k ≠ [])
    (hkp : kp = k ∨ kp = k ++ [0]) (hfirst : ∀ c, k.head? = some c → P c) :
    ∀ c, kp.head? = some c → P c := by
  intro c hc
  apply hfirst
  rcases hkp with h | h
  · rw [← h]; exact hc
  · rw [h, head?_append_singleton_of_ne_nil 0 hk] at hc; exact hc

theorem ext_ne {k k' kp kq : List byte} (hkz : ∀ b ∈ k, b ≠ 0) (hkz' : ∀ b ∈ k', b ≠ 0)
    (hne : k' ≠ k) (hkp : kp = k ∨ kp = k ++ [0]) (hkq : kq = k' ∨ kq = k' ++ [0]) :
    kp ≠ kq := by
  intro heq
  rcases hkp with h1 | h1 <;> rcases hkq with h2 | h2
  · exact hne (by rw [← h1, ← h2, heq])
  · rw [h1, h2] at heq
    exact hkz 0 (by rw [heq]; simp) rfl
  · rw [h1, h2] at heq
    exact hkz' 0 (by rw [← heq]; simp) rfl
  · rw [h1, h2] at heq
    exact hne (List.append_cancel_right heq).symm

theorem take_min_length (k : List byte) (l : Nat) : k.take l = k.take (min l k.length) := by
  by_cases h : l ≤ k.length
  · rw [Nat.min_eq_left h]
  · rw [Nat.min_eq_right (by omega), List.take_length, List.take_of_length_le (by omega)]

theorem take_of_ext {k kp : List byte} (hkp : kp = k ∨ kp = k ++ [0]) (l : Nat) :
    k.take l = kp.take (min l k.length) := by
  rcases hkp with h | h
  · rw [h]; exact take_min_length k l
  · rw [h, List.take_append_of_le_length (Nat.min_le_right _ _)]; exact take_min_length k l

/-- `Delete` on a trie state with intact rings and chains: in every trie state whose root
slot is its own parent, whose empty slots are linked to empty slots (`RingLinked`) and
whose child slots are listed in the chains of their parents (`ChainComplete`), for all
keys `k` and `k'` for which `Get` returns a value, that differ, are not empty, have no
byte 0 and whose first byte does not lead from the root to slot 0: when `Delete(k)`
returns `nil`, `Get(k)` afterwards returns an error, `ErrNoPath` or `ErrNoValue`, and
`Get(k')` still returns its value.  `RingLinked` is not an invariant of the code: it fails
once block 0 has no empty slot left (last section of this file). -/
theorem delete_restores_absence (t t' : prefixTree) (r : node) (k k' : List byte) (v v' : Int)
    (h0 : rd t.Array 0 = .ok r) (hc : r.Check = 0)
    (hring : RingLinked t) (hchain : ChainComplete t)
    (hk : k ≠ []) (hkz : ∀ b ∈ k, b ≠ 0)
    (hkf : ∀ b, k.head? = some b → Int.xor r.base (int b) ≠ 0)
    (hk' : k' ≠ []) (hkz' : ∀ b ∈ k', b ≠ 0)
    (hkf' : ∀ b, k'.head? = some b → Int.xor r.base (int b) ≠ 0)
    (hne : k' ≠ k)
    (hget : Get t k = .ok (v, none)) (hget' : Get t k' = .ok (v', none))
    (hdel : Delete t k = .ok (t', none)) :
    (Get t' k = .ok (0, some .ErrNoPath) ∨ Get t' k = .ok (0, some .ErrNoValue)) ∧
    Get t' k' = .ok (v', none) := by
  obtain ⟨kp, id, h, nh, n, hkp, hpk, hpp, hn, hh, hval, hv0, hcase⟩ := stored_ext hget
  obtain ⟨kq, id', h', nh', n', hkq, hpk', hpq, hn', hh', hval', hv0', hcase'⟩ := stored_ext hget'
  have hfp := head?_ext_of_first hk hkp hkf
  have hfq := head?_ext_of_first hk' hkq hkf'
  have hloop := Delete_loop hpk hn hh (by omega) hcase hdel
  have hkplen : kp.length ≠ 0 := by
    rcases hkp with h1 | h1
    · rw [h1]; exact fun h => hk (List.length_eq_zero.1 h)
    · rw [h1]; simp
  -- the loop invariant holds before the loop
  have hinv0 : Inv t t kp kp.length := by
    refine ⟨⟨?_, fun _ _ _ => rfl, ?_⟩, FR_of_RingLinked hring, fun _ h => h, fun _ _ => rfl, ?_⟩
    · rintro x ⟨i, h1, h2, _⟩; omega
    · intro i h1 h2; omega
    · intro h1; omega
  obtain ⟨j, hj, hA⟩ := deleteLoop_spec h0 hc hfp (t.Array.length + 1) kp.length t h (le_refl _)
    (by rw [List.take_length]; exact hpp) hinv0 hloop
  have hjlt : j < kp.length := by omega
  have hrel_h : RelSet t kp j h := ⟨kp.length, hjlt, le_refl _, by rw [List.take_length]; exact hpp⟩
  have hfree_h : freeIn t'.Array h := hA.free h hrel_h
  -- released nodes are not the root
  have hrel_ne : ∀ x, RelSet t kp j x → x ≠ 0 := by
    rintro x ⟨i, h1, h2, h3⟩
    refine Path_ne_zero h0 hc _ x ?_ (head?_take_of_first hfp i) h3
    intro hnil
    have := congrArg List.length hnil
    simp only [List.length_take, List.length_nil] at this
    omega
  -- a node on a path of `t` is unchanged or released
  have hnode : ∀ (q : List byte) (y : Int), Path t 0 q y →
      (¬ RelSet t kp j y ∧ rd t'.Array y = rd t.Array y) ∨
        (RelSet t kp j y ∧ freeIn t'.Array y) := by
    intro q y hy
    obtain ⟨ny, hny, hny0⟩ := Path_occupied h0 hc q y hy
    by_cases hr : RelSet t kp j y
    · exact Or.inr ⟨hr, hA.free y hr⟩
    · exact Or.inl ⟨hr, hA.same y (not_free_of_occupied hny hny0) hr⟩
  constructor
  · -- the deleted key
    have hroot : rd t'.Array 0 = rd t.Array 0 := by
      rcases hnode [] 0 rfl with ⟨_, h1⟩ | ⟨h1, _⟩
      · exact h1
      · exact absurd rfl (hrel_ne 0 h1)
    have hall : ∀ l y, 0 < l → Path t 0 (k.take l) y →
        rd t'.Array y = rd t.Array y ∨ freeIn t'.Array y := by
      intro l y _ hy
      rcases hnode _ y hy with ⟨_, h1⟩ | ⟨_, h1⟩
      · exact Or.inl h1
      · exact Or.inr h1
    rcases jump_after k 0 id 0 hpk hroot hall with ⟨f, hf⟩ | ⟨hp3, hid⟩
    · left
      have hJ : Jump t' k 0 = .ok (f, some .ErrNoPath) := hf
      simp [Get, hJ, bind, Except.bind, pure, Except.pure]
    · right
      have hJ : Jump t' k 0 = .ok (id, none) := (Jump_zero_iff t' k id).2 hp3
      obtain ⟨m', hm', hm'f⟩ := hfree_h
      rcases hcase with ⟨_, heq⟩ | ⟨_, hnv, hhb, _⟩
      · exfalso
        subst heq
        obtain ⟨ny, hny, hny0⟩ := Path_occupied h0 hc k h hpk
        rw [hid, hny] at hm'
        cases hm'; omega
      · have hid0 : 0 ≤ id := (rd_ok_iff.1 hn).1
        have hnv2 : ¬ n.Value ≥ 0 := by omega
        have hcond : ¬ (m'.Check = id ∧ m'.Value ≥ 0) := by
          intro hcd; omega
        rw [hhb] at hm'
        simp [Get, hJ, Value, bind, Except.bind, pure, Except.pure, hid, hn, hnv2, hm', hcond]
  · -- another stored key
    have hunch : ∀ l y, Path t 0 (kq.take l) y → rd t'.Array y = rd t.Array y := by
      intro l y hy
      rcases hnode _ y hy with ⟨_, h1⟩ | ⟨⟨i, hi1, hi2, hi3⟩, _⟩
      · exact h1
      · exfalso
        have heq := Path_inj h0 hc _ _ y (head?_take_of_first hfp i) (head?_take_of_first hfq l)
          hi3 hy
        have heq2 : kp.take i = kq.take (min l kq.length) := by
          rw [heq]; exact take_min_length kq l
        exact ext_ne hkz hkz' hne hkp hkq
          (released_same_key h0 hc hchain hfq hpp hh (by omega) hpq hh' (by omega) hA.econd
            (kp.length - i) i (min l kq.length) rfl hi1 hi2 (Nat.min_le_right _ _) heq2)
    have hunch' : ∀ l y, Path t 0 (k'.take l) y → rd t'.Array y = rd t.Array y := by
      intro l y hy
      rw [take_of_ext hkq l] at hy
      exact hunch _ y hy
    have hid' : rd t'.Array id' = rd t.Array id' :=
      hunch' k'.length id' (by rw [List.take_length]; exact hpk')
    have hh2 : rd t'.Array h' = rd t.Array h' :=
      hunch kq.length h' (by rw [List.take_length]; exact hpq)
    apply (Get_ok_iff t' k' v').2
    refine ⟨id', Path_congr k' 0 id' hpk' hunch', ?_⟩
    apply (Value_ok_iff t' id' v').2
    rcases hcase' with ⟨_, heq⟩ | ⟨_, hnv, hhb, hcc⟩
    · subst heq
      exact ⟨nh', by rw [hh2]; exact hh', Or.inl ⟨by omega, hval'.symm⟩⟩
    · refine ⟨n', by rw [hid']; exact hn', Or.inr ⟨hnv, nh', ?_, hcc, by omega, hval'.symm⟩⟩
      rw [← hhb, hh2]; exact hh'

/-- Witness for `delete_restores_absence`: the trie after `Insert("a", 23)` and
`Insert("b", 19)`, the deleted key `"a"` and the other key `"b"`. -/
theorem delete_restores_absence_witness :
    (Get (trieOf [.insert [97] 23, .insert [98] 19, .delete [97]]) [97] =
        .ok (0, some .ErrNoPath) ∨
      Get (trieOf [.insert [97] 23, .insert [98] 19, .delete [97]]) [97] =
        .ok (0, some .ErrNoValue)) ∧
    Get (trieOf [.insert [97] 23, .insert [98] 19, .delete [97]]) [98] = .ok (19, none) :=
  delete_restores_absence (trieOf [.insert [97] 23, .insert [98] 19])
    (trieOf [.insert [97] 23, .insert [98] 19, .delete [97]]) ⟨-2, 0⟩ [97] [98] 23 19
    (by decide!) (by decide!) (by decide!) (by decide!)
    (by decide!) (by decide!) (by intro b hb; cases hb; decide!)
    (by decide!) (by decide!) (by intro b hb; cases hb; decide!)
    (by decide!) (by decide!) (by decide!) (by decide!)

/-! ## What `Status` counts -/

theorem rd_natCast {α : Type} (a : List α) (i : Nat) (v : α) (h : a[i]? = some v) :
    rd a (i : Int) = .ok v := by
  have h2 : ¬ ((i : Int) < 0) := by omega
  unfold rd
  rw [if_neg h2, Int.toNat_ofNat, h]

theorem statusLoop_counts (t : prefixTree) :
    ∀ (k i : Nat) (keys nodes : Int), i + k ≤ t.Array.length →
      statusLoop t k (i : Int) (keys, nodes) =
        .ok (keys + (((t.Array.drop i).take k).countP
              (fun n => decide (n.Check ≥ 0 ∧ n.Value ≥ 0)) : Nat),
            nodes + (((t.Array.drop i).take k).countP (fun n => decide (n.Check ≥ 0)) : Nat)) := by
  intro k
  induction k with
  | zero => intro i keys nodes _; simp [statusLoop]
  | succ k ih =>
    intro i keys nodes h
    have hi : i < t.Array.length := by omega
    have hrd : rd t.Array (i : Int) = .ok t.Array[i] :=
      rd_natCast _ _ _ (List.getElem?_eq_getElem hi)
    have hdrop : (t.Array.drop i).take (k + 1) = t.Array[i] :: (t.Array.drop (i + 1)).take k := by
      rw [List.drop_eq_getElem_cons hi, List.take_succ_cons]
    have hnext : ((i : Int) + 1) = ((i + 1 : Nat) : Int) := by push_cast; rfl
    simp only [statusLoop, bind, Except.bind, hrd]
    rw [hnext, hdrop]
    by_cases hc : t.Array[i].Check ≥ 0
    · by_cases hv : t.Array[i].Value ≥ 0
      · simp only [hc, hv, if_true]
        rw [ih (i + 1) _ _ (by omega)]
        simp only [List.countP_cons, hc, hv, and_self, decide_True, if_true]
        push_cast
        congr 2 <;> ring
      · simp only [hc, hv, if_true, if_false]
        rw [ih (i + 1) _ _ (by omega)]
        simp only [List.countP_cons, hc, hv, and_false, decide_True, decide_False, if_true]
        push_cast
        congr 2
        ring
    · simp only [hc, if_false]
      rw [ih (i + 1) _ _ (by omega)]
      simp only [List.countP_cons, hc, false_and, decide_False]
      simp

/-- When the slots `i < Size` exist, `Status` returns: its nodes component is the
number of slots `i < Size` with `Check >= 0` and its keys component the number of those
that also have `Value >= 0`. -/
theorem Status_eq (t : prefixTree) (h : t.Size.toNat ≤ t.Array.length) :
    Status t = .ok ((valueSlots t : Int), (occupiedSlots t : Int), t.Size, t.Capacity) := by
  have hle : 0 + t.Size.toNat ≤ t.Array.length := by omega
  have := statusLoop_counts t t.Size.toNat 0 0 0 hle
  simp only [Nat.cast_zero, List.drop_zero, zero_add] at this
  simp only [Status, bind, Except.bind, pure, Except.pure, this]
  rfl

/-! ## The fresh trie -/

theorem New_root : rd New.Array 0 = .ok ⟨-2, 0⟩ := by decide!

theorem New_value_root : Value New 0 = .ok (0, some .ErrNoValue) := by decide!

theorem rd_New (i : Nat) (h : i < 256) : rd New.Array (i : Int) = .ok (newSlot i) := by
  have h3 : ((List.range 256).map newSlot)[i]? = some (newSlot i) := by
    rw [List.getElem?_map, List.getElem?_range h]; rfl
  show rd ((List.range 256).map newSlot) (i : Int) = _
  exact rd_natCast _ _ _ h3

theorem xor_one_byte : ∀ b : byte, b ≠ 1 → (1 ^^^ b.val) ≠ 0 ∧ (1 ^^^ b.val) < 256 := by
  decide!

theorem New_no_child :
    ∀ b : byte, b ≠ 1 → ∃ m, rd New.Array (Int.xor 1 (int b)) = .ok m ∧ m.Check < 0 := by
  intro b hb
  obtain ⟨h1, h2⟩ := xor_one_byte b hb
  refine ⟨newSlot (1 ^^^ b.val), rd_New _ h2, ?_⟩
  unfold newSlot
  rw [if_neg h1]
  show (if 1 ^^^ b.val = 255 then (-1 : Int) else -(((1 ^^^ b.val : Nat) : Int) + 1)) < 0
  split <;> omega

theorem ringFrom_New :
    ∀ (k e : Nat), 1 ≤ e → e ≤ 255 → 256 ≤ e + k →
      ringFrom New 1 k (e : Int) = (List.range (256 - e)).map (fun i => ((i + e : Nat) : Int)) := by
  intro k
  induction k with
  | zero => intro e _ h2 h3; omega
  | succ k ih =>
    intro e h1 h2 h3
    have hrd := rd_New e (by omega)
    by_cases he : e = 255
    · subst he
      simp only [ringFrom, hrd, newSlot]
      simp
      rfl
    · have hne : e ≠ 0 := by omega
      have hcheck : -(newSlot e).Check = ((e + 1 : Nat) : Int) := by
        simp only [newSlot, if_neg hne, if_neg he]
        push_cast; ring
      have hstop : ¬ (((e + 1 : Nat) : Int) = 1) := by omega
      have hlen : 256 - e = (256 - (e + 1)) + 1 := by omega
      rw [hlen, List.range_succ_eq_map, List.map_cons, List.map_map]
      simp only [ringFrom, hrd, hcheck, hstop, if_false]
      rw [ih (e + 1) (by omega) (by omega) (by omega)]
      simp only [Nat.zero_add, List.cons.injEq, true_and]
      apply List.map_congr_left
      intro i _
      simp only [Function.comp]
      have hie : i + (e + 1) = i.succ + e := by omega
      rw [hie]

theorem New_status : Status New = .ok (0, 1, 256, 256) := by
  have h : New.Size.toNat ≤ New.Array.length ∧ valueSlots New = 0 ∧ occupiedSlots New = 1 := by
    decide!
  rw [Status_eq New h.1, h.2.1, h.2.2]
  rfl

theorem jumpLoop_step {t : prefixTree} {frm dst : Int} {b : byte} {n m : node}
    (hn : rd t.Array frm = .ok n) (hv : n.Value < 0) (hd : Int.xor n.base (int b) = dst)
    (hm : rd t.Array dst = .ok m) (rest : List byte) (d0 : Int) :
    jumpLoop t (b :: rest) frm d0 =
      if m.Check ≠ frm then .ok (frm, some .ErrNoPath) else jumpLoop t rest dst dst := by
  subst hd
  have hv2 : ¬ n.Value ≥ 0 := by omega
  simp only [jumpLoop, bind, Except.bind, pure, Except.pure, hn, hm, hv2, if_false]

theorem New_jump (k : List byte) :
    Jump New k 0 = .ok (0, some .ErrNoPath) ∨ Jump New k 0 = .ok (0, none) := by
  unfold Jump
  induction k with
  | nil => right; rfl
  | cons b rest ih =>
    by_cases hb : b = 1
    · subst hb
      rw [@jumpLoop_step New 0 0 1 ⟨-2, 0⟩ ⟨-2, 0⟩ New_root (by decide) rfl New_root rest 0,
        if_neg (by decide)]
      exact ih
    · left
      obtain ⟨m, hm, hc⟩ := New_no_child b hb
      rw [@jumpLoop_step New 0 _ b ⟨-2, 0⟩ m New_root (by decide) rfl hm rest 0,
        if_pos (by omega)]

/-- C13 (New returns an empty trie): the fields of `New()` are Capacity 256, Size 256,
Ordered true, MaxTrial 1; `Status` reports 0 keys (and 1 node, the root); and `Get` of
every byte sequence returns `ErrNoPath` or `ErrNoValue`. -/
theorem New_is_empty :
    New.Capacity = 256 ∧ New.Size = 256 ∧ New.Ordered = true ∧ New.MaxTrial = 1 ∧
    Status New = .ok (0, 1, 256, 256) ∧
    ∀ k : List byte,
      Get New k = .ok (0, some .ErrNoPath) ∨ Get New k = .ok (0, some .ErrNoValue) := by
  refine ⟨rfl, rfl, rfl, rfl, New_status, ?_⟩
  intro k
  rcases New_jump k with h | h
  · left
    simp [Get, h, bind, Except.bind, pure, Except.pure]
  · right
    simp [Get, h, bind, Except.bind, pure, Except.pure, New_value_root]


/-! ## Queries, accounting and structural invariants -/

/-- A query with a 0 byte: with `"ab"` and `"a"` inserted, the query `"a\x00"` makes
`PrefixMatch` list two ids, the node of `"a"` and its terminal 0-child, and `Key` gives
`"a"` for both: the one inserted prefix is listed twice. -/
theorem prefixMatch_lists_key_twice :
    errorsOf [.insert [97, 98] 1, .insert [97] 2] = .ok [none, none] ∧
    PrefixMatch (trieOf [.insert [97, 98] 1, .insert [97] 2]) [97, 0] 0 = .ok [96, 354] ∧
    keysOf (trieOf [.insert [97, 98] 1, .insert [97] 2]) [96, 354] =
      .ok [([97], none), ([97], none)] := by
  decide!

/-- C12 (status accounting), failing input: after the first two inserts of Scenario D,
`Insert("\x00", 0)` and `Insert("\x01", 1)`, both returning `nil`, `Status` reports one
key for two distinct inserted keys, and `Get("\x00")` returns 1 instead of 0. -/
theorem status_counts_one_key_for_two :
    errorsOf (scenarioD.take 2) = .ok [none, none] ∧
    Status (trieOf (scenarioD.take 2)) = .ok (1, 2, 256, 256) ∧
    Get (trieOf (scenarioD.take 2)) [0] = .ok (1, none) := by
  have h : errorsOf (scenarioD.take 2) = .ok [none, none] ∧
      Get (trieOf (scenarioD.take 2)) [0] = .ok (1, none) ∧
      (trieOf (scenarioD.take 2)).Size.toNat ≤ (trieOf (scenarioD.take 2)).Array.length ∧
      valueSlots (trieOf (scenarioD.take 2)) = 1 ∧
      occupiedSlots (trieOf (scenarioD.take 2)) = 2 ∧
      (trieOf (scenarioD.take 2)).Size = 256 ∧ (trieOf (scenarioD.take 2)).Capacity = 256 := by
    decide!
  refine ⟨h.1, ?_, h.2.1⟩
  rw [Status_eq _ h.2.2.1, h.2.2.2.1, h.2.2.2.2.1, h.2.2.2.2.2.1, h.2.2.2.2.2.2]
  rfl

/-- C14 (Jump composes), failing input: `Jump` of the empty path returns the id 0 from
every node, so with `"ab"` inserted `Jump("ab", 0)` reaches the node 256, but
`Jump("ab" ++ "", 0)` and `Jump("", 256)` differ. -/
theorem jump_of_empty_path_is_root :
    (∀ (t : prefixTree) (frm : Int), Jump t [] frm = .ok (0, none)) ∧
    Jump (trieOf [.insert [97, 98] 23]) [97, 98] 0 = .ok (256, none) ∧
    Jump (trieOf [.insert [97, 98] 23]) ([97, 98] ++ []) 0 = .ok (256, none) ∧
    Jump (trieOf [.insert [97, 98] 23]) [] 256 = .ok (0, none) :=
  ⟨fun _ _ => rfl, by decide!⟩

/-- C15 (child-chain consistency), failing input: after `Insert("a", 1)` and
`Delete("a")`, both returning `nil`, the root is occupied with base 1 and its chain
still lists the label `a`, whose slot `1 XOR 97` has been released. -/
theorem root_chain_lists_released_slot :
    errorsOf [.insert [97] 1, .delete [97]] = .ok [none, none] ∧
    rd (trieOf [.insert [97] 1, .delete [97]]).Array 0 = .ok ⟨-2, 0⟩ ∧
    childLabels (trieOf [.insert [97] 1, .delete [97]]) 0 = [97] ∧
    isFree (trieOf [.insert [97] 1, .delete [97]]) (Int.xor 1 97) = true := by
  decide!

/-- C16 (free-ring invariant), failing input: in the state returned by `New()` block 0
has the 255 empty slots 1..255, which are the ring met from its `Ehead` 1, and `Num`
256. -/
theorem block0_ring_shorter_than_num :
    emptySlots New 0 = (List.range 255).map (fun i => ((i + 1 : Nat) : Int)) ∧
    ringFrom New 1 256 1 = (List.range 255).map (fun i => ((i + 1 : Nat) : Int)) ∧
    (rd New.Blocks 0).map (fun b => (b.Num, b.Ehead)) = .ok (256, 1) :=
  ⟨by decide!, ringFrom_New 256 1 (le_refl _) (by omega) (by omega), by decide!⟩

/-- C17 (ordered sibling chains), failing input: after `Insert("a\x00a", 1)`,
`Insert("a", 1)`, `Insert("a\x00a", 1)`, all returning `nil`, the chain of the occupied
internal node 256 reads 0, 97, 97, ...: it is not strictly ascending. -/
theorem chain_not_ascending_after_inserts :
    errorsOf [.insert [97, 0, 97] 1, .insert [97] 1, .insert [97, 0, 97] 1] =
      .ok [none, none, none] ∧
    rd (trieOf [.insert [97, 0, 97] 1, .insert [97] 1, .insert [97, 0, 97] 1]).Array 256 =
      .ok ⟨-259, 96⟩ ∧
    (childLabels (trieOf [.insert [97, 0, 97] 1, .insert [97] 1, .insert [97, 0, 97] 1])
      256).take 3 = [0, 97, 97] ∧
    ascending (childLabels
      (trieOf [.insert [97, 0, 97] 1, .insert [97] 1, .insert [97, 0, 97] 1]) 256) = false := by
  decide!

/-- C19 (Capacity a power of 256), counterexample: after the one call
`Insert("ab", 1)`, which returns `nil`, `Capacity` is 512, and 512 is no power of 256. -/
theorem capacity_512_after_insert :
    errorsOf [.insert [97, 98] 1] = .ok [none] ∧
    (trieOf [.insert [97, 98] 1]).Capacity = 512 ∧
    ¬ ∃ k : Nat, (trieOf [.insert [97, 98] 1]).Capacity = 256 ^ k := by
  have h : errorsOf [.insert [97, 98] 1] = .ok [none] ∧
      (trieOf [.insert [97, 98] 1]).Capacity = 512 := by decide!
  refine ⟨h.1, h.2, ?_⟩
  rw [h.2]
  rintro ⟨k, hk⟩
  match k, hk with
  | 0, hk => norm_num at hk
  | 1, hk => norm_num at hk
  | k + 2, hk =>
    have h1 : (256 : Int) ^ 2 ≤ 256 ^ (k + 2) :=
      pow_le_pow_right₀ (by norm_num) (by omega)
    norm_num at h1
    omega

/-- C20 (traversal is index-safe), failing input: after `Insert("a", 1)` and
`Delete("a")`, both returning `nil`, `PrefixPredict("", 1)` returns the released slot 96
and `PrefixPredict("", 0)` indexes `Array` out of range. -/
theorem prefixPredict_faults_after_delete :
    errorsOf [.insert [97] 1, .delete [97]] = .ok [none, none] ∧
    rd (trieOf [.insert [97] 1, .delete [97]]).Array 96 = .ok ⟨-1, -2⟩ ∧
    PrefixPredict (trieOf [.insert [97] 1, .delete [97]]) [] 1 = .ok [96] ∧
    PrefixPredict (trieOf [.insert [97] 1, .delete [97]]) [] 0 = .error .indexOutOfRange := by
  decide!

/-! ## `Jump` along paths and `PrefixMatch` -/

/-- The three outcomes of the first iteration of the loop of `Jump`. -/
theorem jumpLoop_head_cases (t : prefixTree) (frm : Int) (b : byte) :
    (∃ dst, Step t frm b dst ∧
      ∀ (x : List byte) (d : Int), jumpLoop t (b :: x) frm d = jumpLoop t x dst dst) ∨
    (∀ (x : List byte) (d : Int), jumpLoop t (b :: x) frm d = .ok (frm, some .ErrNoPath)) ∨
    (∃ e, ∀ (x : List byte) (d : Int), jumpLoop t (b :: x) frm d = .error e) := by
  cases hn : rd t.Array frm with
  | error e =>
    right; right
    exact ⟨e, fun x d => by simp only [jumpLoop, bind, Except.bind, hn]⟩
  | ok n =>
    by_cases hv : n.Value ≥ 0
    · right; left
      intro x d
      simp only [jumpLoop, bind, Except.bind, pure, Except.pure, hn, hv, if_true]
    · cases hm : rd t.Array (Int.xor n.base (int b)) with
      | error e =>
        right; right
        exact ⟨e, fun x d => by
          simp only [jumpLoop, bind, Except.bind, pure, Except.pure, hn, hv, if_false, hm]⟩
      | ok m =>
        by_cases hcm : m.Check ≠ frm
        · right; left
          intro x d
          rw [jumpLoop_step hn (by omega) rfl hm, if_pos hcm]
        · left
          refine ⟨_, ⟨n, m, hn, by omega, rfl, hm, by simpa using hcm⟩, ?_⟩
          intro x d
          rw [jumpLoop_step hn (by omega) rfl hm, if_neg hcm]

theorem jumpLoop_of_step {t : prefixTree} {frm dst : Int} {b : byte} (h : Step t frm b dst)
    (x : List byte) (d : Int) : jumpLoop t (b :: x) frm d = jumpLoop t x dst dst := by
  obtain ⟨n, m, hn, hv, hd, hm, hc⟩ := h
  rw [jumpLoop_step hn hv hd.symm hm, if_neg (by simpa using hc)]

/-- Along an existing path the loop of `Jump` goes on from the node reached. -/
theorem jumpLoop_append_path {t : prefixTree} :
    ∀ (pre : List byte) (frm0 frm d0 d1 : Int) (b : byte) (q : List byte),
      Path t frm0 pre frm →
      jumpLoop t (pre ++ b :: q) frm0 d0 = jumpLoop t (b :: q) frm d1 := by
  intro pre
  induction pre with
  | nil =>
    intro frm0 frm d0 d1 b q hp
    cases hp
    simp only [List.nil_append, jumpLoop]
  | cons c pre ih =>
    intro frm0 frm d0 d1 b q hp
    obtain ⟨mid, hs, hp2⟩ := hp
    rw [List.cons_append, jumpLoop_of_step hs]
    exact ih mid frm mid d1 b q hp2

/-- `Jump` composes along non-empty paths. -/
theorem Jump_append (t : prefixTree) (p q : List byte) (frm mid : Int) (hp : p ≠ [])
    (hq : q ≠ []) (h : Jump t p frm = .ok (mid, none)) :
    Jump t (p ++ q) frm = Jump t q mid := by
  unfold Jump at *
  cases p with
  | nil => exact absurd rfl hp
  | cons c p =>
    cases q with
    | nil => exact absurd rfl hq
    | cons b q =>
      obtain ⟨m1, hs, h2⟩ := (jumpLoop_cons_iff t p c frm 0 mid).1 h
      have hpath : Path t frm (c :: p) mid := ⟨m1, hs, (jumpLoop_self_iff t p m1 mid).1 h2⟩
      exact jumpLoop_append_path (c :: p) frm mid 0 0 b q hpath

theorem Key_of_path {t : prefixTree} {r : node} (h0 : rd t.Array 0 = .ok r) (hc : r.Check = 0)
    {k : List byte} {id : Int} (hne : k ≠ []) (hz : ∀ b ∈ k, b ≠ 0)
    (hfirst : ∀ b, k.head? = some b → Int.xor r.base (int b) ≠ 0) (hp : Path t 0 k id) :
    Key t id = .ok (k, none) := by
  have hlen := Path_length_lt h0 hc k id hfirst hp
  have hk := keyLoop_of_path h0 hc k id [] (t.Array.length + 1) hfirst hz hp (by omega)
  have hlen0 : k.length ≠ 0 := by
    intro h; exact hne (List.length_eq_zero.1 h)
  simp [Key, hk, bind, Except.bind, pure, Except.pure, hlen0]

theorem Get_of_path {t : prefixTree} {k : List byte} {id : Int} (hp : Path t 0 k id) :
    Get t k = Value t id := by
  have hJ := (Jump_zero_iff t k id).2 hp
  simp [Get, hJ, bind, Except.bind, pure, Except.pure]

theorem inits_tail_cons (b : byte) (rest : List byte) :
    (b :: rest).inits.tail = [b] :: (rest.inits.tail).map (fun x => b :: x) := by
  rw [List.inits_cons]
  cases rest with
  | nil => rfl
  | cons c rest => simp [List.inits_cons]

theorem Get_no_step {t : prefixTree} {pre : List byte} {frm : Int} {b : byte}
    (hp : Path t 0 pre frm)
    (hno : ∀ (x : List byte) (d : Int), jumpLoop t (b :: x) frm d = .ok (frm, some .ErrNoPath))
    (x : List byte) : hasValue (Get t (pre ++ b :: x)) = false := by
  have : Jump t (pre ++ b :: x) 0 = .ok (frm, some .ErrNoPath) := by
    unfold Jump
    rw [jumpLoop_append_path pre 0 frm 0 0 b x hp]
    exact hno x 0
  simp [Get, this, bind, Except.bind, pure, Except.pure, hasValue]

theorem prefixMatchLoop_stop {t : prefixTree} {b : byte} {frm d : Int} {e : Error}
    (h : Jump t [b] frm = .ok (d, some e)) (rest : List byte) (num : Int) (ids : List Int) :
    prefixMatchLoop t (b :: rest) frm num ids = .ok ids := by
  simp [prefixMatchLoop, h, bind, Except.bind, pure, Except.pure]

theorem prefixMatchLoop_value {t : prefixTree} {b : byte} {frm dst v : Int}
    (h : Jump t [b] frm = .ok (dst, none)) (hv : Value t dst = .ok (v, none))
    (rest : List byte) {num : Int} (hnum : num - 1 ≠ 0) (ids : List Int) :
    prefixMatchLoop t (b :: rest) frm num ids =
      prefixMatchLoop t rest dst (num - 1) (ids ++ [dst]) := by
  simp [prefixMatchLoop, h, hv, bind, Except.bind, pure, Except.pure, hnum]

theorem prefixMatchLoop_no_value {t : prefixTree} {b : byte} {frm dst v : Int} {e : Error}
    (h : Jump t [b] frm = .ok (dst, none)) (hv : Value t dst = .ok (v, some e))
    (rest : List byte) (num : Int) (ids : List Int) :
    prefixMatchLoop t (b :: rest) frm num ids = prefixMatchLoop t rest dst num ids := by
  simp [prefixMatchLoop, h, hv, bind, Except.bind, pure, Except.pure]

theorem keysOf_cons {t : prefixTree} {id : Int} {ids : List Int} {k : List byte × Option Error}
    {ks : List (List byte × Option Error)} (h1 : Key t id = .ok k) (h2 : keysOf t ids = .ok ks) :
    keysOf t (id :: ids) = .ok (k :: ks) := by
  unfold keysOf at *
  rw [List.mapM_cons, h1, h2]
  rfl

theorem prefixMatchLoop_spec {t : prefixTree} {r : node} (h0 : rd t.Array 0 = .ok r)
    (hc : r.Check = 0) :
    ∀ (rest pre : List byte) (frm num : Int) (ids : List Int),
      (∀ b ∈ pre ++ rest, b ≠ 0) →
      (∀ b, (pre ++ rest).head? = some b → Int.xor r.base (int b) ≠ 0) →
      (∀ p ∈ (pre ++ rest).inits, returns (Get t p) = true) →
      Path t 0 pre frm → num ≤ 0 →
      ∃ ids2, prefixMatchLoop t rest frm num ids = .ok (ids ++ ids2) ∧
        keysOf t ids2 = .ok ((((rest.inits.tail).map (fun x => pre ++ x)).filter
          (fun p => hasValue (Get t p))).map (fun p => (p, none))) := by
  intro rest
  induction rest with
  | nil =>
    intro pre frm num ids _ _ _ _ _
    exact ⟨[], by simp [prefixMatchLoop], rfl⟩
  | cons b rest ih =>
    intro pre frm num ids hz hfirst hsafe hp hnum
    have hassoc : pre ++ b :: rest = (pre ++ [b]) ++ rest := by simp
    have hmem : pre ++ [b] ∈ (pre ++ b :: rest).inits := by
      rw [List.mem_inits, hassoc]; exact List.prefix_append _ _
    have hs1 := hsafe _ hmem
    have hlist : ((b :: rest).inits.tail).map (fun x => pre ++ x) =
        (pre ++ [b]) :: (rest.inits.tail).map (fun x => (pre ++ [b]) ++ x) := by
      rw [inits_tail_cons, List.map_cons, List.map_map]
      congr 1
      apply List.map_congr_left
      intro x _
      simp
    rw [hlist]
    rcases jumpLoop_head_cases t frm b with ⟨dst, hstep, hj⟩ | hj | ⟨e, hj⟩
    · have hJ : Jump t [b] frm = .ok (dst, none) := by
        unfold Jump; rw [hj]; rfl
      have hp1 : Path t 0 (pre ++ [b]) dst := (Path_snoc t pre b 0 dst).2 ⟨frm, hp, hstep⟩
      have hG := Get_of_path hp1
      have hz1 : ∀ c ∈ pre ++ [b], c ≠ 0 := by
        intro c hc1; apply hz; rw [hassoc]; exact List.mem_append_left _ hc1
      have hf1 : ∀ c, (pre ++ [b]).head? = some c → Int.xor r.base (int c) ≠ 0 := by
        intro c hc1; apply hfirst
        rw [hassoc, List.head?_append_of_ne_nil _ (by simp)]; exact hc1
      cases hV : Value t dst with
      | error e => rw [hG, hV] at hs1; simp [returns] at hs1
      | ok res =>
        obtain ⟨v, verr⟩ := res
        cases verr with
        | none =>
          have hnum1 : num - 1 ≠ 0 := by omega
          obtain ⟨ids2, hl, hk⟩ := ih (pre ++ [b]) dst (num - 1) (ids ++ [dst])
            (by rw [← hassoc]; exact hz) (by rw [← hassoc]; exact hfirst)
            (by rw [← hassoc]; exact hsafe) hp1 (by omega)
          refine ⟨dst :: ids2, ?_, ?_⟩
          · rw [prefixMatchLoop_value hJ hV rest hnum1, hl]; simp
          · have hkey := Key_of_path h0 hc (by simp) hz1 hf1 hp1
            have hst : hasValue (Get t (pre ++ [b])) = true := by rw [hG, hV]; rfl
            rw [List.filter_cons, if_pos hst, List.map_cons]
            exact keysOf_cons hkey hk
        | some e =>
          obtain ⟨ids2, hl, hk⟩ := ih (pre ++ [b]) dst num ids
            (by rw [← hassoc]; exact hz) (by rw [← hassoc]; exact hfirst)
            (by rw [← hassoc]; exact hsafe) hp1 hnum
          refine ⟨ids2, ?_, ?_⟩
          · rw [prefixMatchLoop_no_value hJ hV rest, hl]
          · have hst : ¬ hasValue (Get t (pre ++ [b])) = true := by rw [hG, hV]; simp [hasValue]
            rw [List.filter_cons, if_neg hst]
            exact hk
    · have hJ : Jump t [b] frm = .ok (frm, some .ErrNoPath) := by
        unfold Jump; exact hj [] 0
      refine ⟨[], by rw [prefixMatchLoop_stop hJ]; simp, ?_⟩
      have hnone : ∀ x : List byte, hasValue (Get t (pre ++ b :: x)) = false :=
        fun x => Get_no_step hp hj x
      have hfil : ((pre ++ [b]) :: (rest.inits.tail).map (fun x => (pre ++ [b]) ++ x)).filter
          (fun p => hasValue (Get t p)) = [] := by
        rw [List.filter_eq_nil_iff]
        intro p hp2
        rcases List.mem_cons.1 hp2 with h | h
        · rw [h]; have := hnone []; simpa using this
        · obtain ⟨x, _, hx⟩ := List.mem_map.1 h
          rw [← hx]; have := hnone x; simpa using this
      rw [hfil]
      rfl
    · exfalso
      have : Jump t (pre ++ [b]) 0 = .error e := by
        unfold Jump
        rw [jumpLoop_append_path pre 0 frm 0 0 b [] hp]
        exact hj [] 0
      simp [Get, this, bind, Except.bind, returns] at hs1

/-- `PrefixMatch` agrees with `Get`: in every trie state whose root slot is its own
parent, for every query `k` without a 0 byte whose first byte does not lead from the
root to slot 0, and on whose prefixes `Get` does not fault, `PrefixMatch(k, 0)` returns
ids whose keys by `Key` are exactly the non-empty prefixes of `k` for which `Get` returns
a value, each once, by increasing length.  The statement is about the state alone: it
does not say which keys `Insert` makes `Get` find. -/
theorem prefix_match (t : prefixTree) (r : node) (k : List byte)
    (h0 : rd t.Array 0 = .ok r) (hc : r.Check = 0)
    (hz : ∀ b ∈ k, b ≠ 0)
    (hfirst : ∀ b, k.head? = some b → Int.xor r.base (int b) ≠ 0)
    (hsafe : ∀ p ∈ k.inits, returns (Get t p) = true) :
    ∃ ids, PrefixMatch t k 0 = .ok ids ∧
      keysOf t ids = .ok ((storedPrefixes t k).map (fun p => (p, none))) := by
  obtain ⟨ids, h1, h2⟩ := prefixMatchLoop_spec h0 hc k [] 0 0 [] (by simpa using hz)
    (by simpa using hfirst) (by simpa using hsafe) rfl (le_refl _)
  refine ⟨ids, by simpa [PrefixMatch] using h1, ?_⟩
  rw [h2]
  simp [storedPrefixes]

theorem prefix_match_witness :
    storedPrefixes (trieOf [.insert [97, 98] 23, .insert [97, 98, 99] 19,
      .insert [97, 98, 99, 100] 37]) [97, 98, 99, 100] =
      [[97, 98], [97, 98, 99], [97, 98, 99, 100]] ∧
    ∃ ids, PrefixMatch (trieOf [.insert [97, 98] 23, .insert [97, 98, 99] 19,
      .insert [97, 98, 99, 100] 37]) [97, 98, 99, 100] 0 = .ok ids ∧
      keysOf (trieOf [.insert [97, 98] 23, .insert [97, 98, 99] 19,
      .insert [97, 98, 99, 100] 37]) ids =
        .ok ((storedPrefixes (trieOf [.insert [97, 98] 23, .insert [97, 98, 99] 19,
      .insert [97, 98, 99, 100] 37]) [97, 98, 99, 100]).map (fun p => (p, none))) := by
  have h : storedPrefixes (trieOf [.insert [97, 98] 23, .insert [97, 98, 99] 19,
      .insert [97, 98, 99, 100] 37]) [97, 98, 99, 100] =
        [[97, 98], [97, 98, 99], [97, 98, 99, 100]] ∧
      rd (trieOf [.insert [97, 98] 23, .insert [97, 98, 99] 19,
      .insert [97, 98, 99, 100] 37]).Array 0 = .ok ⟨-2, 0⟩ ∧
      ∀ p ∈ ([97, 98, 99, 100] : List byte).inits,
        returns (Get (trieOf [.insert [97, 98] 23, .insert [97, 98, 99] 19,
      .insert [97, 98, 99, 100] 37]) p) = true := by
    decide!
  exact ⟨h.1, prefix_match _ ⟨-2, 0⟩ [97, 98, 99, 100] h.2.1 rfl (by decide!)
    (by intro b hb; cases hb; decide!) h.2.2⟩

/-- With the root slot as `New()` leaves it, the keys `"\x01"` and `"\x00"` share one
value slot: whatever `Get("\x01")` returns is also what `Get("\x00")` returns, so the
expectation of Scenario D for these two keys cannot be met. -/
theorem Get_zero_of_Get_one (t : prefixTree) (b : Int) (h0 : rd t.Array 0 = .ok ⟨-2, 0⟩)
    (h : Get t [1] = .ok (b, none)) : Get t [0] = .ok (b, none) := by
  obtain ⟨id, hp, hv⟩ := (Get_ok_iff t [1] b).1 h
  obtain ⟨mid, ⟨n, m, hn, _, hd, _, _⟩, hid⟩ := hp
  cases hid
  rw [h0] at hn; cases hn
  have hid0 : id = 0 := hd
  subst hid0
  obtain ⟨n, hn, hcase⟩ := (Value_ok_iff t 0 b).1 hv
  rw [h0] at hn; cases hn
  rcases hcase with ⟨hneg, _⟩ | ⟨_, m, hm, hmc, hmv, hb⟩
  · exact absurd hneg (by decide)
  · have hm1 : rd t.Array 1 = .ok m := hm
    refine (Get_ok_iff t [0] b).2 ⟨1, ⟨1, ⟨⟨-2, 0⟩, m, h0, by decide, rfl, hm1, hmc⟩, rfl⟩, ?_⟩
    exact (Value_ok_iff t 1 b).2 ⟨m, hm1, Or.inl ⟨hmv, hb⟩⟩


/-! ## `Size` and `Capacity` -/

theorem Grows.same (s : prefixTree) : Grows s s := fun h => ⟨h, le_refl _⟩

theorem Grows.comp {a b c : prefixTree} (h1 : Grows a b) (h2 : Grows b c) : Grows a c :=
  fun h => ⟨(h2 (h1 h).1).1, le_trans (h1 h).2 (h2 (h1 h).1).2⟩

theorem Grows.of_dims {s s2 : prefixTree} (h : dims s2 = dims s) : Grows s s2 := by
  simp only [dims, Prod.mk.injEq] at h
  obtain ⟨h1, h2, h3, h4⟩ := h
  intro hi
  unfold CapInv SizeInv at *
  rw [h1, h2, h3, h4]
  exact ⟨hi, le_refl _⟩

theorem setValue_dims {s s2 : prefixTree} {i v : Int} (h : setValue s i v = .ok s2) :
    dims s2 = dims s := by
  obtain ⟨a, h1, rfl⟩ := setValue_spec h
  simp [dims, wr_length h1]

theorem setCheck_dims {s s2 : prefixTree} {i v : Int} (h : setCheck s i v = .ok s2) :
    dims s2 = dims s := by
  obtain ⟨a, h1, rfl⟩ := setCheck_spec h
  simp [dims, wr_length h1]

theorem setNode_dims {s s2 : prefixTree} {i : Int} {n : node} (h : setNode s i n = .ok s2) :
    dims s2 = dims s := by
  obtain ⟨a, h1, rfl⟩ := setNode_spec h
  simp [dims, wr_length h1]

theorem setBlock_dims {s s2 : prefixTree} {bi : Int} {f : block → block}
    (h : setBlock s bi f = .ok s2) : dims s2 = dims s := by
  simp only [setBlock, bind_ok_iff, pure_ok_iff] at h
  obtain ⟨bs, _, rfl⟩ := h
  rfl

theorem setHead_dims (s : prefixTree) (h : Head) (v : Int) : dims (setHead s h v) = dims s := by
  cases h <;> rfl

theorem writeLoc_dims {s s2 : prefixTree} {c : Loc} {v : byte}
    (h : writeLoc s c v = .ok s2) : dims s2 = dims s := by
  cases c <;>
  · simp only [writeLoc, bind_ok_iff, pure_ok_iff] at h
    obtain ⟨ns, h1, rfl⟩ := h
    simp [dims, wr_length h1]

theorem popBlock_dims {s s2 : prefixTree} {bi : Int} {hd : Head} {last : Bool}
    (h : popBlock s bi hd last = .ok s2) : dims s2 = dims s := by
  unfold popBlock at h
  split at h
  · simp only [pure_ok_iff] at h
    subst h
    exact setHead_dims _ _ _
  · simp only [bind_ok_iff] at h
    obtain ⟨b1, _, s1, h1, b2, _, s3, h2, b3, _, h3⟩ := h
    have f1 := setBlock_dims h1
    have f2 := setBlock_dims h2
    split at h3
    · simp only [pure_ok_iff] at h3
      subst h3
      rw [setHead_dims, f2, f1]
    · simp only [pure_ok_iff] at h3
      subst h3
      rw [f2, f1]

theorem pushBlock_dims {s s2 : prefixTree} {bi : Int} {hd : Head} {empty : Bool}
    (h : pushBlock s bi hd empty = .ok s2) : dims s2 = dims s := by
  unfold pushBlock at h
  simp only [bind_ok_iff] at h
  obtain ⟨_, _, h⟩ := h
  split at h
  · rw [setBlock_dims h, setHead_dims]
  · simp only [bind_ok_iff] at h
    obtain ⟨hb, _, s1, h1, s3, h2, hb2, _, _, _, s4, h3, h4⟩ := h
    rw [setBlock_dims h4, setBlock_dims h3, setHead_dims, setBlock_dims h2, setBlock_dims h1]

theorem transferBlock_dims {s s2 : prefixTree} {bi : Int} {hin hout : Head}
    (h : transferBlock s bi hin hout = .ok s2) : dims s2 = dims s := by
  unfold transferBlock at h
  simp only [bind_ok_iff] at h
  obtain ⟨_, _, s1, h1, _, _, h2⟩ := h
  rw [pushBlock_dims h2, popBlock_dims h1]

theorem grow_length {α : Type} (old : List α) (cap : Int) (zero : α) :
    (grow old cap zero).length = cap.toNat := by
  simp only [grow, List.length_append, List.length_take, List.length_replicate]
  omega

theorem writeBlock_length {a a2 : List node} {size : Int} (h : writeBlock a size = .ok a2) :
    a2.length = a.length := by
  unfold writeBlock at h
  split at h
  · cases h
  · rename_i hc
    simp only [Except.ok.injEq] at h
    subst h
    simp only [List.length_append, List.length_take, List.length_map, List.length_range,
      List.length_drop]
    omega

/-- The block added by `addBlock`: the state before the new block is initialised. -/
theorem addBlock_dims {t t2 : prefixTree} {bi : Int} (h : addBlock t = .ok (t2, bi)) :
    dims t2 =
      if t.Size = t.Capacity then
        (t.Size + 256, t.Capacity * 2, (t.Capacity * 2).toNat, (t.Capacity * 2).toNat)
      else (t.Size + 256, t.Capacity, t.Array.length, t.Ninfos.length) := by
  unfold addBlock at h
  by_cases hsc : t.Size = t.Capacity
  · simp only [if_pos hsc, bind_ok_iff, pure_ok_iff] at h
    obtain ⟨s1, h1, s2, h2, a, h3, s3, h4, h5⟩ := h
    have e1 := setBlock_dims h1
    have e2 := setBlock_dims h2
    have e3 := writeBlock_length h3
    have e4 := pushBlock_dims h4
    simp only [Prod.mk.injEq] at h5
    obtain ⟨h5, _⟩ := h5
    subst h5
    rw [if_pos hsc]
    simp only [dims, Prod.mk.injEq] at e1 e2 e4 ⊢
    simp only [grow_length] at e1
    obtain ⟨a1, a2, a3, a4⟩ := e1
    obtain ⟨b1, b2, b3, b4⟩ := e2
    obtain ⟨c1, c2, c3, c4⟩ := e4
    refine ⟨?_, ?_, ?_, ?_⟩
    · rw [c1, b1, a1]
    · rw [c2, b2, a2]
    · rw [c3, e3, b3, a3]
    · rw [c4, b4, a4]
  · simp only [if_neg hsc, bind_ok_iff, pure_ok_iff] at h
    obtain ⟨s1, h1, s2, h2, a, h3, s3, h4, h5⟩ := h
    have e1 := setBlock_dims h1
    have e2 := setBlock_dims h2
    have e3 := writeBlock_length h3
    have e4 := pushBlock_dims h4
    simp only [Prod.mk.injEq] at h5
    obtain ⟨h5, _⟩ := h5
    subst h5
    rw [if_neg hsc]
    simp only [dims, Prod.mk.injEq] at e1 e2 e4 ⊢
    obtain ⟨a1, a2, a3, a4⟩ := e1
    obtain ⟨b1, b2, b3, b4⟩ := e2
    obtain ⟨c1, c2, c3, c4⟩ := e4
    refine ⟨?_, ?_, ?_, ?_⟩
    · rw [c1, b1, a1]
    · rw [c2, b2, a2]
    · rw [c3, e3, b3, a3]
    · rw [c4, b4, a4]

theorem addBlock_grows {t t2 : prefixTree} {bi : Int} (h : addBlock t = .ok (t2, bi)) :
    Grows t t2 := by
  have hd := addBlock_dims h
  intro ⟨⟨h1, h2, h3, h4⟩, k, hk⟩
  have hpos : (0 : Int) < 2 ^ k := by positivity
  simp only [dims] at hd
  by_cases hsc : t.Size = t.Capacity
  · rw [if_pos hsc] at hd
    simp only [Prod.mk.injEq] at hd
    obtain ⟨d1, d2, d3, d4⟩ := hd
    refine ⟨⟨⟨?_, ?_, ?_, ?_⟩, k + 1, ?_⟩, ?_⟩
    · rw [d1]; omega
    · rw [d1, d2]; omega
    · rw [d3, d2]; omega
    · rw [d4, d2]; omega
    · rw [d2, hk, pow_succ]; ring
    · rw [d2]; omega
  · rw [if_neg hsc] at hd
    simp only [Prod.mk.injEq] at hd
    obtain ⟨d1, d2, d3, d4⟩ := hd
    refine ⟨⟨⟨?_, ?_, ?_, ?_⟩, k, ?_⟩, ?_⟩
    · rw [d1]; omega
    · rw [d1, d2]
      have hcm : t.Capacity % 256 = 0 := by rw [hk]; omega
      omega
    · rw [d3, d2]; exact h3
    · rw [d4, d2]; exact h4
    · rw [d2, hk]
    · rw [d2]

theorem ite_pure_dims {c : Prop} [Decidable c] {x : Except Fault prefixTree}
    {s s2 : prefixTree} (h : (if c then x else pure s) = .ok s2)
    (hx : x = .ok s2 → dims s2 = dims s) : dims s2 = dims s := by
  split at h
  · exact hx h
  · rw [pure_ok_iff] at h; rw [h]

theorem findPlace_grows {t t2 : prefixTree} {e : Int} (h : findPlace t = .ok (t2, e)) :
    Grows t t2 := by
  unfold findPlace at h
  by_cases hC : t.BheadC ≠ 0
  · rw [if_pos hC] at h
    simp only [bind_ok_iff, pure_ok_iff, Prod.mk.injEq] at h
    obtain ⟨b, _, rfl, _⟩ := h
    exact Grows.same _
  · rw [if_neg hC] at h
    by_cases hO : t.BheadO ≠ 0
    · simp only [bind_ok_iff, pure_ok_iff, Prod.mk.injEq, if_pos hO] at h
      obtain ⟨_, _, b, _, rfl, _⟩ := h
      exact Grows.same _
    · simp only [bind_ok_iff, pure_ok_iff, Prod.mk.injEq, if_neg hO] at h
      obtain ⟨_, _, _, _, ⟨t1, bi⟩, h1, rfl, _⟩ := h
      exact addBlock_grows h1

theorem popEnodeUnlink_dims {t t2 : prefixTree} {e bi : Int}
    (h : popEnodeUnlink t e bi = .ok t2) : dims t2 = dims t := by
  unfold popEnodeUnlink at h
  simp only [bind_ok_iff] at h
  obtain ⟨n1, _, s1, h1, n2, _, s2, h2, n3, _, b1, _, s3, h3, b2, _, h4⟩ := h
  have e1 := setCheck_dims h1
  have e2 := setValue_dims h2
  have e3 := ite_pure_dims h3 setBlock_dims
  have e4 := ite_pure_dims h4 transferBlock_dims
  rw [e4, e3, e2, e1]

theorem popEnode_grows {t t2 : prefixTree} {base frm e : Int} {label : byte}
    (h : popEnode t base label frm = .ok (t2, e)) : Grows t t2 := by
  unfold popEnode at h
  simp only [bind_ok_iff, pure_ok_iff] at h
  obtain ⟨⟨s0, e0⟩, h0, _, _, _, _, s1, h1, b, _, s2, h2, s3, h3, s4, h4, s5, h5, h6⟩ := h
  simp only [Prod.mk.injEq] at h6
  obtain ⟨rfl, _⟩ := h6
  have g0 : Grows t s0 := by
    split at h0
    · exact findPlace_grows h0
    · rw [pure_ok_iff] at h0
      simp only [Prod.mk.injEq] at h0
      rw [← h0.1]; exact Grows.same _
  have e1 := setBlock_dims h1
  have e2 : dims s2 = dims s1 := by
    split at h2
    · exact ite_pure_dims h2 transferBlock_dims
    · exact popEnodeUnlink_dims h2
  have e3 := setValue_dims h3
  have e4 := setCheck_dims h4
  have e5 := ite_pure_dims h5 setValue_dims
  exact g0.comp (Grows.of_dims (by rw [e5, e4, e3, e2, e1]))

theorem pushEnodeFirst_dims {t t2 : prefixTree} {e bi : Int}
    (h : pushEnodeFirst t e bi = .ok t2) : dims t2 = dims t := by
  unfold pushEnodeFirst at h
  simp only [bind_ok_iff] at h
  obtain ⟨s1, h1, s2, h2, h3⟩ := h
  rw [ite_pure_dims h3 transferBlock_dims, setNode_dims h2, setBlock_dims h1]

theorem pushEnodeLink_dims {t t2 : prefixTree} {e bi prev : Int}
    (h : pushEnodeLink t e bi prev = .ok t2) : dims t2 = dims t := by
  unfold pushEnodeLink at h
  simp only [bind_ok_iff] at h
  obtain ⟨p, _, s1, h1, s2, h2, s3, h3, b, _, s4, h4, h5⟩ := h
  have e4 : dims s4 = dims s3 := by
    split at h4
    · exact ite_pure_dims h4 transferBlock_dims
    · rw [pure_ok_iff] at h4; rw [h4]
  rw [setBlock_dims h5, e4, setValue_dims h3, setCheck_dims h2, setNode_dims h1]

theorem pushEnode_dims {t t2 : prefixTree} {e : Int} (h : pushEnode t e = .ok t2) :
    dims t2 = dims t := by
  unfold pushEnode at h
  simp only [bind_ok_iff, pure_ok_iff] at h
  obtain ⟨_, _, s1, h1, b, _, s2, h2, b2, _, r, _, s3, h3, ns, h4, rfl⟩ := h
  have e2 : dims s2 = dims s1 := by
    split at h2
    · exact pushEnodeFirst_dims h2
    · exact pushEnodeLink_dims h2
  have e3 := ite_pure_dims h3 setBlock_dims
  have e4 := wr_length h4
  simp only [dims, Prod.mk.injEq] at e2 e3 ⊢
  have e1 := setBlock_dims h1
  simp only [dims, Prod.mk.injEq] at e1
  refine ⟨?_, ?_, ?_, ?_⟩
  · rw [e3.1, e2.1, e1.1]
  · rw [e3.2.1, e2.2.1, e1.2.1]
  · rw [e3.2.2.1, e2.2.2.1, e1.2.2.1]
  · rw [e4, e3.2.2.2, e2.2.2.2, e1.2.2.2]

theorem pushSibling_dims {t t2 : prefixTree} {frm base : Int} {label : byte} {hasChild : Bool}
    (h : pushSibling t frm base label hasChild = .ok t2) : dims t2 = dims t := by
  unfold pushSibling at h
  simp only [bind_ok_iff] at h
  obtain ⟨v, _, c, _, v2, _, s1, h1, h2⟩ := h
  rw [writeLoc_dims h2, writeLoc_dims h1]

theorem popSibling_dims {t t2 : prefixTree} {frm base : Int} {label : byte}
    (h : popSibling t frm base label = .ok t2) : dims t2 = dims t := by
  unfold popSibling at h
  simp only [bind_ok_iff] at h
  obtain ⟨_, _, c, _, v, _, x, _, h1⟩ := h
  exact writeLoc_dims h1

theorem findPlacesBlocks_dims (child : List byte) (bz : Int) :
    ∀ (fuel : Nat) (t : prefixTree) (bi : Int) (t2 : prefixTree) (r : Option Int),
      findPlacesBlocks child bz fuel t bi = .ok (t2, r) → dims t2 = dims t := by
  intro fuel
  induction fuel with
  | zero => intro t bi t2 r h; cases h
  | succ fuel ih =>
    intro t bi t2 r h
    unfold findPlacesBlocks at h
    simp only [bind_ok_iff] at h
    obtain ⟨b, _, found, _, h⟩ := h
    cases found with
    | some e =>
      simp only [bind_ok_iff, pure_ok_iff, Prod.mk.injEq] at h
      obtain ⟨s1, h1, rfl, _⟩ := h
      exact setBlock_dims h1
    | none =>
      simp only [bind_ok_iff] at h
      obtain ⟨s1, h1, b1, _, rj, _, s2, h2, s3, h3, b3, _, s4, h4, h5⟩ := h
      have e1 := setBlock_dims h1
      have e2 : dims s2 = dims s1 := by
        split at h2
        · simp only [bind_ok_iff, pure_ok_iff] at h2
          obtain ⟨rs, _, rfl⟩ := h2
          rfl
        · rw [pure_ok_iff] at h2; rw [h2]
      have e3 := setBlock_dims h3
      have e4 := ite_pure_dims h4 transferBlock_dims
      split at h5
      · simp only [pure_ok_iff, Prod.mk.injEq] at h5
        rw [← h5.1, e4, e3, e2, e1]
      · rw [ih _ _ _ _ h5, e4, e3, e2, e1]

theorem findPlaces_grows {t t2 : prefixTree} {child : List byte} {e : Int}
    (h : findPlaces t child = .ok (t2, e)) : Grows t t2 := by
  unfold findPlaces at h
  simp only [bind_ok_iff] at h
  obtain ⟨⟨s1, found⟩, h1, h⟩ := h
  have e1 : dims s1 = dims t := by
    split at h1
    · simp only [bind_ok_iff] at h1
      obtain ⟨b, _, h1⟩ := h1
      exact findPlacesBlocks_dims _ _ _ _ _ _ _ h1
    · simp only [pure_ok_iff, Prod.mk.injEq] at h1
      rw [← h1.1]
  cases found with
  | some e0 =>
    simp only [pure_ok_iff, Prod.mk.injEq] at h
    rw [← h.1]
    exact Grows.of_dims e1
  | none =>
    simp only [bind_ok_iff, pure_ok_iff, Prod.mk.injEq] at h
    obtain ⟨⟨s2, bi⟩, h2, rfl, _⟩ := h
    exact (Grows.of_dims e1).comp (addBlock_grows h2)

theorem fixChecks_dims (nb dst : Int) :
    ∀ (fuel : Nat) (t : prefixTree) (c : byte) (t2 : prefixTree),
      fixChecks nb dst fuel t c = .ok t2 → dims t2 = dims t := by
  intro fuel
  induction fuel with
  | zero => intro t c t2 h; cases h
  | succ fuel ih =>
    intro t c t2 h
    unfold fixChecks at h
    split at h
    · simp only [bind_ok_iff] at h
      obtain ⟨s1, h1, x, _, h2⟩ := h
      rw [ih _ _ _ h2, setCheck_dims h1]
    · rw [pure_ok_iff] at h; rw [h]

theorem resolveLoop_grows (flag : Bool) (base base_ to_pn frm : Int) (label_n : byte) :
    ∀ (cs : List byte) (t : prefixTree) (from_n : Int) (t2 : prefixTree) (f2 : Int),
      resolveLoop flag base base_ to_pn frm label_n cs t from_n = .ok (t2, f2) →
      Grows t t2 := by
  intro cs
  induction cs with
  | nil =>
    intro t from_n t2 f2 h
    simp only [resolveLoop, Except.ok.injEq, Prod.mk.injEq] at h
    rw [← h.1]; exact Grows.same _
  | cons c rest ih =>
    intro t from_n t2 f2 h
    unfold resolveLoop at h
    simp only [bind_ok_iff] at h
    obtain ⟨⟨s1, dst⟩, h1, s2, h2, h⟩ := h
    have g1 := popEnode_grows h1
    have g2 : Grows s1 s2 := Grows.of_dims (writeLoc_dims h2)
    split at h
    · exact (g1.comp g2).comp (ih _ _ _ _ h)
    · simp only [bind_ok_iff] at h
      obtain ⟨_, _, n_, _, s3, h3, n, _, s4, h4, s5, h5, h6⟩ := h
      have e3 := setValue_dims h3
      have e4 : dims s4 = dims s3 := by
        split at h4
        · simp only [bind_ok_iff] at h4
          obtain ⟨x, _, u1, k1, u2, k2, y, _, k3⟩ := h4
          rw [fixChecks_dims _ _ _ _ _ _ k3, setCheck_dims k2, writeLoc_dims k1]
        · rw [pure_ok_iff] at h4; rw [h4]
      have e5 : dims s5 = dims s4 := by
        split at h5
        · simp only [bind_ok_iff] at h5
          obtain ⟨u1, k1, u2, k2, u3, k3, k4⟩ := h5
          rw [setCheck_dims k4, setValue_dims k3, writeLoc_dims k2, pushSibling_dims k1]
        · exact pushEnode_dims h5
      exact ((g1.comp g2).comp (Grows.of_dims (by rw [e5, e4, e3]))).comp (ih _ _ _ _ h6)

theorem resolve_grows {t t2 : prefixTree} {from_n base_n dst : Int} {label_n : byte}
    (h : resolve t from_n base_n label_n = .ok (t2, dst)) : Grows t t2 := by
  unfold resolve at h
  simp only [bind_ok_iff] at h
  obtain ⟨_, _, _, _, _, _, _, _, flag, _, children, _, ⟨s1, base⟩, h1, c0, _, s2, h2, s3, h3,
    ⟨s4, f4⟩, h4, h5⟩ := h
  have g1 : Grows t s1 := by
    split at h1
    · exact findPlace_grows h1
    · exact findPlaces_grows h1
  have e2 : dims s2 = dims s1 := ite_pure_dims h2 writeLoc_dims
  have e3 := setValue_dims h3
  have g4 := resolveLoop_grows _ _ _ _ _ _ _ _ _ _ _ h4
  have e5 : t2 = s4 := by
    split at h5
    · simp [bind, Except.bind, pure, Except.pure] at h5; exact h5.1.symm
    · simp [bind, Except.bind, pure, Except.pure] at h5; exact h5.1.symm
  rw [e5]
  exact (g1.comp (Grows.of_dims (by rw [e3, e2]))).comp g4

theorem follow_grows {t t2 : prefixTree} {frm dst : Int} {label : byte}
    (h : follow t frm label = .ok (t2, dst)) : Grows t t2 := by
  unfold follow at h
  simp only [bind_ok_iff] at h
  obtain ⟨n, _, free, _, h⟩ := h
  split at h
  · simp only [bind_ok_iff, pure_ok_iff, Prod.mk.injEq] at h
    obtain ⟨hasChild, _, ⟨s1, d1⟩, h1, s2, h2, rfl, _⟩ := h
    exact (popEnode_grows h1).comp (Grows.of_dims (pushSibling_dims h2))
  · simp only [bind_ok_iff] at h
    obtain ⟨_, _, m, _, h⟩ := h
    split at h
    · exact resolve_grows h
    · simp only [pure_ok_iff, Prod.mk.injEq] at h
      rw [← h.1]; exact Grows.same _

theorem getLoop_grows :
    ∀ (ks : List byte) (t : prefixTree) (frm : Int) (t2 : prefixTree) (f2 : Int),
      getLoop ks t frm = .ok (t2, f2) → Grows t t2 := by
  intro ks
  induction ks with
  | nil =>
    intro t frm t2 f2 h
    simp only [getLoop, Except.ok.injEq, Prod.mk.injEq] at h
    rw [← h.1]; exact Grows.same _
  | cons b rest ih =>
    intro t frm t2 f2 h
    unfold getLoop at h
    simp only [bind_ok_iff] at h
    obtain ⟨n, _, s1, h1, ⟨s2, f⟩, h2, h3⟩ := h
    have g1 : Grows t s1 := by
      split at h1
      · simp only [bind_ok_iff] at h1
        obtain ⟨⟨u, d⟩, k1, k2⟩ := h1
        exact (follow_grows k1).comp (Grows.of_dims (setValue_dims k2))
      · rw [pure_ok_iff] at h1; rw [h1]; exact Grows.same _
    exact (g1.comp (follow_grows h2)).comp (ih _ _ _ _ h3)

theorem get_grows {t t2 : prefixTree} {key : List byte} {frm p : Int} {pos : Nat}
    (h : get t key frm pos = .ok (t2, p)) : Grows t t2 := by
  unfold get at h
  simp only [bind_ok_iff] at h
  obtain ⟨⟨s1, f⟩, h1, n, _, h2⟩ := h
  have g1 := getLoop_grows _ _ _ _ _ h1
  split at h2
  · exact g1.comp (follow_grows h2)
  · simp only [pure_ok_iff, Prod.mk.injEq] at h2
    rw [← h2.1]; exact g1

theorem Insert_grows {t t2 : prefixTree} {key : List byte} {value : Int} {e : Option Error}
    (h : Insert t key value = .ok (t2, e)) : Grows t t2 := by
  unfold Insert at h
  split at h
  · simp only [Except.ok.injEq, Prod.mk.injEq] at h
    rw [← h.1]; exact Grows.same _
  · simp only [bind_ok_iff, pure_ok_iff, Prod.mk.injEq] at h
    obtain ⟨⟨s1, p⟩, h1, s2, h2, rfl, _⟩ := h
    exact (get_grows h1).comp (Grows.of_dims (setValue_dims h2))

theorem Update_grows {t t2 : prefixTree} {key : List byte} {value : Int} {e : Option Error}
    (h : Update t key value = .ok (t2, e)) : Grows t t2 := by
  unfold Update at h
  simp only [bind_ok_iff] at h
  obtain ⟨⟨s1, p⟩, h1, n, _, h⟩ := h
  have g1 := get_grows h1
  split at h
  · simp only [bind_ok_iff, pure_ok_iff, Prod.mk.injEq] at h
    obtain ⟨s2, h2, rfl, _⟩ := h
    exact g1.comp (Grows.of_dims (setValue_dims h2))
  · split at h
    · simp [bind, Except.bind, pure, Except.pure] at h
      rw [← h.1]; exact g1
    · simp only [bind_ok_iff, pure_ok_iff, Prod.mk.injEq] at h
      obtain ⟨_, _, _, _, s2, h2, rfl, _⟩ := h
      exact g1.comp (Grows.of_dims (setValue_dims h2))

theorem deleteLoop_dims :
    ∀ (fuel : Nat) (t : prefixTree) (dst : Int) (t2 : prefixTree),
      deleteLoop fuel t dst = .ok t2 → dims t2 = dims t := by
  intro fuel
  induction fuel with
  | zero => intro t dst t2 h; cases h
  | succ fuel ih =>
    intro t dst t2 h
    unfold deleteLoop at h
    split at h
    · simp only [bind_ok_iff] at h
      obtain ⟨_, _, _, _, x, _, y, _, h⟩ := h
      split at h
      · simp only [bind_ok_iff] at h
        obtain ⟨s1, h1, h2⟩ := h
        rw [pushEnode_dims h2, popSibling_dims h1]
      · simp only [bind_ok_iff] at h
        obtain ⟨s1, h1, h2⟩ := h
        rw [ih _ _ _ h2, pushEnode_dims h1]
    · rw [pure_ok_iff] at h; rw [h]

theorem Delete_dims {t t2 : prefixTree} {key : List byte} {e : Option Error}
    (h : Delete t key = .ok (t2, e)) : dims t2 = dims t := by
  unfold Delete at h
  simp only [bind_ok_iff] at h
  obtain ⟨⟨dst, err⟩, _, h⟩ := h
  split at h
  · simp only [pure_ok_iff, Prod.mk.injEq] at h
    rw [← h.1]
  · simp only [bind_ok_iff, pure_ok_iff, Prod.mk.injEq] at h
    obtain ⟨_, _, n, _, d, _, s1, h1, rfl, _⟩ := h
    exact deleteLoop_dims _ _ _ _ h1

theorem apply_grows {t t2 : prefixTree} {op : Op} {e : Option Error}
    (h : op.apply t = .ok (t2, e)) : Grows t t2 := by
  cases op with
  | insert key value => exact Insert_grows h
  | update key value => exact Update_grows h
  | delete key => exact Grows.of_dims (Delete_dims h)

theorem New_capInv : CapInv New :=
  ⟨⟨by decide, by decide,
    by show (((List.range 256).map newSlot).length : Int) = 256
       rw [List.length_map, List.length_range]; rfl,
    by show ((List.replicate 256 ninfo.zero).length : Int) = 256
       rw [List.length_replicate]; rfl⟩, 0, by decide⟩

theorem Reachable_capInv {t : prefixTree} (h : Reachable t) : CapInv t := by
  induction h with
  | init => exact New_capInv
  | step op t t2 e _ hs ih => exact (apply_grows hs ih).1

theorem Reachable_run :
    ∀ (ops : List Op) (t t2 : prefixTree) (es : List (Option Error)),
      Reachable t → run ops t = .ok (t2, es) → Reachable t2 := by
  intro ops
  induction ops with
  | nil =>
    intro t t2 es hr h
    simp only [run, Except.ok.injEq, Prod.mk.injEq] at h
    rw [← h.1]; exact hr
  | cons op ops ih =>
    intro t t2 es hr h
    unfold run at h
    simp only [bind_ok_iff, pure_ok_iff, Prod.mk.injEq] at h
    obtain ⟨⟨s1, e⟩, h1, ⟨s2, es2⟩, h2, rfl, _⟩ := h
    exact ih _ _ _ (Reachable.step op t s1 e hr h1) h2

theorem Reachable_trieOf (ops : List Op) : Reachable (trieOf ops) := by
  unfold trieOf
  cases h : run ops New with
  | error e => exact Reachable.init
  | ok r =>
    obtain ⟨t, es⟩ := r
    exact Reachable_run ops New t es Reachable.init h

/-- C18 (Size/Capacity invariant): in every state reachable from `New()` by `Insert`,
`Update` and `Delete`, `Size` is a multiple of 256, `Size <= Capacity` and
`len(Array) = len(Ninfos) = Capacity`; no call decreases `Capacity`; and `addBlock` adds
256 to `Size` and doubles `Capacity` exactly when `Size == Capacity`. -/
theorem size_capacity_invariant (t : prefixTree) (h : Reachable t) :
    (t.Size % 256 = 0 ∧ t.Size ≤ t.Capacity ∧ (t.Array.length : Int) = t.Capacity ∧
      (t.Ninfos.length : Int) = t.Capacity) ∧
    (∀ (op : Op) (t2 : prefixTree) (e : Option Error),
      op.apply t = .ok (t2, e) → t.Capacity ≤ t2.Capacity) ∧
    (∀ (t2 : prefixTree) (bi : Int), addBlock t = .ok (t2, bi) →
      t2.Size = t.Size + 256 ∧
      t2.Capacity = if t.Size = t.Capacity then t.Capacity * 2 else t.Capacity) := by
  have hi := Reachable_capInv h
  refine ⟨hi.1, fun op t2 e hs => (apply_grows hs hi).2, ?_⟩
  intro t2 bi hs
  have hd := addBlock_dims hs
  simp only [dims] at hd
  split at hd
  · rename_i hsc
    simp only [Prod.mk.injEq] at hd
    rw [if_pos hsc]
    exact ⟨hd.1, hd.2.1⟩
  · rename_i hsc
    simp only [Prod.mk.injEq] at hd
    rw [if_neg hsc]
    exact ⟨hd.1, hd.2.1⟩

theorem size_capacity_invariant_witness :
    Reachable (trieOf [.insert [97, 98] 1]) ∧
    ((trieOf [.insert [97, 98] 1]).Size % 256 = 0 ∧
      (trieOf [.insert [97, 98] 1]).Size ≤ (trieOf [.insert [97, 98] 1]).Capacity ∧
      ((trieOf [.insert [97, 98] 1]).Array.length : Int) =
        (trieOf [.insert [97, 98] 1]).Capacity ∧
      ((trieOf [.insert [97, 98] 1]).Ninfos.length : Int) =
        (trieOf [.insert [97, 98] 1]).Capacity) :=
  ⟨Reachable_trieOf _,
    (size_capacity_invariant (trieOf [.insert [97, 98] 1]) (Reachable_trieOf _)).1⟩

/-- C19 (Capacity), amended: in every state reachable from `New()` by `Insert`, `Update`
and `Delete`, `Capacity` is 256 times a power of two. -/
theorem capacity_doubles (t : prefixTree) (h : Reachable t) :
    ∃ k : Nat, t.Capacity = 256 * 2 ^ k :=
  (Reachable_capInv h).2

theorem capacity_doubles_witness :
    Reachable (trieOf [.insert [97, 98] 1, .insert [98, 99] 2]) ∧
    ∃ k : Nat, (trieOf [.insert [97, 98] 1, .insert [98, 99] 2]).Capacity = 256 * 2 ^ k :=
  ⟨Reachable_trieOf _,
    capacity_doubles (trieOf [.insert [97, 98] 1, .insert [98, 99] 2]) (Reachable_trieOf _)⟩


/-! ## `Status` in reachable states -/

/-- In every state reachable from `New()` by `Insert`, `Update` and `Delete`, `Status`
returns, its nodes component is the number of slots `i < Size` with `Check >= 0` and its
keys component the number of those that also have `Value >= 0`. -/
theorem Status_counts (t : prefixTree) (h : Reachable t) :
    Status t = .ok ((valueSlots t : Int), (occupiedSlots t : Int), t.Size, t.Capacity) := by
  obtain ⟨⟨_, h2, h3, _⟩, _⟩ := Reachable_capInv h
  exact Status_eq t (by omega)

/-! ## Ordered sibling chains: `pushSibling` -/

theorem readLoc_ok_iff {t : prefixTree} {c : Loc} {v : byte} :
    readLoc t c = .ok v ↔
      match c with
      | .child i => ∃ x, rd t.Ninfos i = .ok x ∧ x.Child = v
      | .sibling i => ∃ x, rd t.Ninfos i = .ok x ∧ x.Sibling = v := by
  cases c <;>
  · rename_i i
    cases h : rd t.Ninfos i <;> simp [readLoc, h, bind, Except.bind, pure, Except.pure]

theorem readLoc_writeLoc_same {t t2 : prefixTree} {c : Loc} {v : byte}
    (h : writeLoc t c v = .ok t2) : readLoc t2 c = .ok v := by
  cases c <;>
  · rename_i i
    simp only [writeLoc, bind_ok_iff, pure_ok_iff] at h
    obtain ⟨ns, h1, rfl⟩ := h
    obtain ⟨x, hx, _⟩ := wr_ok_iff.1 h1
    have := rd_wr h1 i
    rw [if_pos rfl, hx] at this
    exact readLoc_ok_iff.2 ⟨_, this, rfl⟩

theorem readLoc_writeLoc_ne {t t2 : prefixTree} {c c2 : Loc} {v : byte}
    (h : writeLoc t c v = .ok t2) (hne : c2 ≠ c) : readLoc t2 c2 = readLoc t c2 := by
  cases c <;> cases c2 <;>
  · rename_i i j
    simp only [writeLoc, bind_ok_iff, pure_ok_iff] at h
    obtain ⟨ns, h1, rfl⟩ := h
    simp only [readLoc]
    have := rd_wr h1 j
    by_cases hji : j = i
    · subst hji
      first
        | exact absurd rfl hne
        | (rw [if_pos rfl] at this
           rw [this]
           cases rd t.Ninfos j <;> rfl)
    · rw [if_neg hji] at this
      rw [this]

theorem writeLoc_of_readLoc {t : prefixTree} {c : Loc} {u : byte} (v : byte)
    (h : readLoc t c = .ok u) : ∃ t2, writeLoc t c v = .ok t2 := by
  cases c <;>
  · obtain ⟨x, hx, _⟩ := readLoc_ok_iff.1 h
    simp only [writeLoc, bind_ok_iff, pure_ok_iff]
    exact ⟨_, ⟨_, wr_of_rd _ hx, rfl⟩⟩

theorem Linked_readable {t : prefixTree} {base : Int} {c : Loc} {ls : List byte}
    (h : Linked t base c ls) : ∃ v, readLoc t c = .ok v := by
  cases ls with
  | nil => exact ⟨0, h⟩
  | cons d rest => exact ⟨d, h.1⟩

theorem endLoc_cons (base : Int) (c : Loc) (d : byte) (ls : List byte) :
    endLoc base c (d :: ls) = endLoc base (.sibling (Int.xor base (int d))) ls := rfl

theorem Linked_split {t : prefixTree} {base : Int} :
    ∀ (pre : List byte) (c : Loc) (suf : List byte),
      Linked t base c (pre ++ suf) → Linked t base (endLoc base c pre) suf := by
  intro pre
  induction pre with
  | nil => intro c suf h; exact h
  | cons p pre ih =>
    intro c suf h
    rw [endLoc_cons]
    exact ih _ _ h.2

theorem sibling_loc_inj {base : Int} (hb : 0 ≤ base) {x y : byte}
    (h : Loc.sibling (Int.xor base (int x)) = Loc.sibling (Int.xor base (int y))) : x = y := by
  injection h with h
  exact xor_byte_inj hb h

/-- Where the walk ends: the start, or the `Sibling` of the last label walked over. -/
theorem endLoc_eq (base : Int) (c : Loc) (ls : List byte) :
    endLoc base c ls = c ∧ ls = [] ∨
      ∃ q, q ∈ ls ∧ endLoc base c ls = .sibling (Int.xor base (int q)) := by
  induction ls generalizing c with
  | nil => left; exact ⟨rfl, rfl⟩
  | cons d ls ih =>
    right
    rw [endLoc_cons]
    rcases ih (.sibling (Int.xor base (int d))) with ⟨h1, _⟩ | ⟨q, hq, h1⟩
    · exact ⟨d, List.mem_cons_self _ _, h1⟩
    · exact ⟨q, List.mem_cons_of_mem _ hq, h1⟩

theorem ascending_iff (l : List byte) : ascending l = true ↔ l.Chain' (· < ·) := by
  induction l with
  | nil => simp [ascending]
  | cons a l ih =>
    cases l with
    | nil => simp [ascending]
    | cons b l =>
      simp only [ascending, Bool.and_eq_true, decide_eq_true_eq, List.chain'_cons]
      rw [ih]

theorem ascending_pairwise {l : List byte} (h : ascending l = true) : l.Pairwise (· < ·) :=
  List.chain'_iff_pairwise.1 ((ascending_iff l).1 h)

theorem ascending_of_pairwise {l : List byte} (h : l.Pairwise (· < ·)) : ascending l = true :=
  (ascending_iff l).2 (List.chain'_iff_pairwise.2 h)

theorem Linked_frame {t t2 : prefixTree} {base : Int} {w1 w2 : Loc}
    (hfr : ∀ loc, loc ≠ w1 → loc ≠ w2 → readLoc t2 loc = readLoc t loc) :
    ∀ (ls : List byte) (c : Loc), c ≠ w1 → c ≠ w2 →
      (∀ x ∈ ls, Loc.sibling (Int.xor base (int x)) ≠ w1 ∧
        Loc.sibling (Int.xor base (int x)) ≠ w2) →
      Linked t base c ls → Linked t2 base c ls := by
  intro ls
  induction ls with
  | nil =>
    intro c h1 h2 _ h
    show readLoc t2 c = .ok 0
    rw [hfr c h1 h2]; exact h
  | cons d rest ih =>
    intro c h1 h2 hall h
    refine ⟨by rw [hfr c h1 h2]; exact h.1, ?_⟩
    have hd := hall d (List.mem_cons_self _ _)
    exact ih _ hd.1 hd.2 (fun x hx => hall x (List.mem_cons_of_mem _ hx)) h.2

theorem Linked_insert {t t2 : prefixTree} {base : Int} (hb : 0 ≤ base) {label : byte}
    {suf : List byte} {w2 : Loc}
    (hfr : ∀ loc, loc ≠ Loc.sibling (Int.xor base (int label)) → loc ≠ w2 →
      readLoc t2 loc = readLoc t loc)
    (hw2 : readLoc t2 w2 = .ok label)
    (hw1 : Linked t2 base (.sibling (Int.xor base (int label))) suf) :
    ∀ (pre : List byte) (c : Loc), w2 = endLoc base c pre → Linked t base c (pre ++ suf) →
      c ≠ Loc.sibling (Int.xor base (int label)) → label ∉ pre →
      (∀ x ∈ pre, c ≠ Loc.sibling (Int.xor base (int x))) → pre.Nodup →
      Linked t2 base c (pre ++ label :: suf) := by
  intro pre
  induction pre with
  | nil =>
    intro c hw _ _ _ _ _
    rw [hw] at hw2
    exact ⟨hw2, hw1⟩
  | cons p pre ih =>
    intro c hw h hc1 hlab hc hnd
    rw [endLoc_cons] at hw
    have hcw2 : c ≠ w2 := by
      rw [hw]
      rcases endLoc_eq base (.sibling (Int.xor base (int p))) pre with ⟨h1, _⟩ | ⟨q, hq, h1⟩
      · rw [h1]; exact hc p (List.mem_cons_self _ _)
      · rw [h1]; exact hc q (List.mem_cons_of_mem _ hq)
    refine ⟨by rw [hfr c hc1 hcw2]; exact h.1, ?_⟩
    have hp : p ≠ label := fun e => hlab (by rw [e]; exact List.mem_cons_self _ _)
    refine ih _ hw h.2 ?_ (fun e => hlab (List.mem_cons_of_mem _ e)) ?_ (List.nodup_cons.1 hnd).2
    · intro e; exact hp (sibling_loc_inj hb e)
    · intro x hx e
      have := sibling_loc_inj hb e
      exact (List.nodup_cons.1 hnd).1 (by rw [this]; exact hx)

theorem pushSiblingLoop_walk {t : prefixTree} {base : Int} {label : byte}
    (hord : t.Ordered = true) {suf : List byte} (hsuf : ∀ x ∈ suf, ¬ x < label) :
    ∀ (pre : List byte) (fuel : Nat) (c : Loc), Linked t base c (pre ++ suf) →
      (∀ x ∈ pre, x ≠ 0 ∧ x < label) → pre.length < fuel →
      pushSiblingLoop t base label fuel c = .ok (endLoc base c pre) := by
  intro pre
  induction pre with
  | nil =>
    intro fuel c h _ hf
    cases fuel with
    | zero => simp at hf
    | succ fuel =>
      cases suf with
      | nil =>
        have h0 : readLoc t c = .ok 0 := h
        simp [pushSiblingLoop, h0, bind, Except.bind, pure, Except.pure, endLoc]
      | cons d rest =>
        have h0 : readLoc t c = .ok d := h.1
        have := hsuf d (List.mem_cons_self _ _)
        simp [pushSiblingLoop, h0, bind, Except.bind, pure, Except.pure, endLoc, this]
  | cons p pre ih =>
    intro fuel c h hpre hf
    cases fuel with
    | zero => simp at hf
    | succ fuel =>
      have h0 : readLoc t c = .ok p := h.1
      obtain ⟨v, hv⟩ := Linked_readable h.2
      obtain ⟨x, hx, _⟩ := readLoc_ok_iff.1 hv
      have hp := hpre p (List.mem_cons_self _ _)
      have hrec := ih fuel _ h.2 (fun y hy => hpre y (List.mem_cons_of_mem _ hy))
        (by simp at hf; omega)
      simp only [pushSiblingLoop, h0, bind, Except.bind, hord, hp.1, hp.2, hx]
      rw [endLoc_cons, ← hrec]
      simp [hp.1]

theorem pushSibling_ok {t t1 t2 : prefixTree} {frm base : Int} {label : byte}
    {hasChild : Bool} {v v2 : byte} {c : Loc} (hv : readLoc t (.child frm) = .ok v)
    (hc : (if hasChild = true ∧
          (if t.Ordered then decide (label > v) else decide (v = 0)) = true then (do
        let _ ← rd t.Ninfos (Int.xor base (int v))
        pushSiblingLoop t base label 257 (.sibling (Int.xor base (int v))))
      else pure (Loc.child frm)) = .ok c)
    (hv2 : readLoc t c = .ok v2)
    (ht1 : writeLoc t (.sibling (Int.xor base (int label))) v2 = .ok t1)
    (ht2 : writeLoc t1 c label = .ok t2) :
    pushSibling t frm base label hasChild = .ok t2 := by
  unfold pushSibling
  exact (bind_ok_iff _ _ _).2 ⟨v, hv, (bind_ok_iff _ _ _).2 ⟨c, hc,
    (bind_ok_iff _ _ _).2 ⟨v2, hv2, (bind_ok_iff _ _ _).2 ⟨t1, ht1, ht2⟩⟩⟩⟩

theorem byte_nodup_length {l : List byte} (h : l.Nodup) : l.length ≤ 256 := by
  have := List.Nodup.length_le_card h
  rw [Fintype.card_fin] at this
  exact this

theorem byte_pos_of_lt {a b : byte} (h : a < b) : b ≠ 0 := by
  intro e
  rw [e] at h
  exact absurd h (by simp [Fin.lt_def])

/-- Plain insertion keeps a chain ordered: with `Ordered = true`, if the chain of `frm`
under `base` reads `pre ++ suf`, strictly ascending, with the labels of `pre` below and
those of `suf` above `label`, and the slot `base XOR label` exists, then `pushSibling`
returns and the chain reads `pre ++ label :: suf`, strictly ascending; `Array` is left as
it is. -/
theorem pushSibling_keeps_order (t : prefixTree) (frm base : Int) (label : byte)
    (pre suf : List byte) (hord : t.Ordered = true) (hb : 0 ≤ base)
    (hchain : Linked t base (.child frm) (pre ++ suf))
    (hasc : ascending (pre ++ suf) = true)
    (hpre : ∀ x ∈ pre, x < label) (hsuf : ∀ x ∈ suf, label < x)
    (hslot : ∃ x, rd t.Ninfos (Int.xor base (int label)) = .ok x) :
    ∃ t2, pushSibling t frm base label (decide (pre ++ suf ≠ [])) = .ok t2 ∧
      Linked t2 base (.child frm) (pre ++ label :: suf) ∧
      ascending (pre ++ label :: suf) = true ∧ t2.Array = t.Array := by
  have hpw := ascending_pairwise hasc
  obtain ⟨hpw1, hpw2, hpw3⟩ := List.pairwise_append.1 hpw
  have hnd : pre.Nodup := hpw1.imp (fun h => ne_of_lt h)
  have hlp : label ∉ pre := fun h => lt_irrefl _ (hpre _ h)
  have hls : label ∉ suf := fun h => lt_irrefl _ (hsuf _ h)
  -- the location found by the walk
  have hw2r := Linked_readable (Linked_split pre (.child frm) suf hchain)
  obtain ⟨v2, hv2⟩ := hw2r
  have hend := endLoc_eq base (.child frm) pre
  have hw21 : endLoc base (.child frm) pre ≠ .sibling (Int.xor base (int label)) := by
    rcases hend with ⟨h1, _⟩ | ⟨q, hq, h1⟩
    · rw [h1]; exact fun e => Loc.noConfusion e
    · rw [h1]; intro e; exact hlp (by rw [← sibling_loc_inj hb e]; exact hq)
  have hloc : ∃ v, readLoc t (.child frm) = .ok v ∧
      (if decide (pre ++ suf ≠ []) = true ∧
          (if t.Ordered then decide (label > v) else decide (v = 0)) = true then (do
        let _ ← rd t.Ninfos (Int.xor base (int v))
        pushSiblingLoop t base label 257 (.sibling (Int.xor base (int v))))
      else pure (Loc.child frm)) = .ok (endLoc base (.child frm) pre) := by
    cases pre with
    | nil =>
      cases suf with
      | nil => exact ⟨0, hchain, by simp [endLoc]; rfl⟩
      | cons d rest =>
        refine ⟨d, hchain.1, ?_⟩
        have : ¬ label > d := not_lt.2 (le_of_lt (hsuf d (List.mem_cons_self _ _)))
        simp [hord, this, endLoc]
        rfl
    | cons p pre =>
      refine ⟨p, hchain.1, ?_⟩
      have hp : label > p := hpre p (List.mem_cons_self _ _)
      obtain ⟨v, hv⟩ := Linked_readable hchain.2
      obtain ⟨x, hx, _⟩ := readLoc_ok_iff.1 hv
      have hlen : pre.length < 257 := by
        have := byte_nodup_length hnd
        simp at this; omega
      have hpp : ∀ y ∈ pre, y ≠ 0 ∧ y < label := by
        intro y hy
        refine ⟨byte_pos_of_lt ((List.pairwise_cons.1 hpw1).1 y hy), ?_⟩
        exact hpre y (List.mem_cons_of_mem _ hy)
      have hwalk := pushSiblingLoop_walk hord (fun y hy => not_lt.2 (le_of_lt (hsuf y hy)))
        pre 257 _ hchain.2 hpp hlen
      simp only [List.cons_append, ne_eq, reduceCtorEq, not_false_eq_true, decide_True,
        hord, if_true, hp, true_and, bind, Except.bind, hx, hwalk, endLoc_cons]
  obtain ⟨v, hv, hc⟩ := hloc
  obtain ⟨x, hx⟩ := hslot
  obtain ⟨t1, ht1⟩ := writeLoc_of_readLoc v2
    (readLoc_ok_iff.2 ⟨x, hx, rfl⟩ : readLoc t (.sibling (Int.xor base (int label))) = .ok x.Sibling)
  have hr1 : readLoc t1 (endLoc base (.child frm) pre) = .ok v2 := by
    rw [readLoc_writeLoc_ne ht1 hw21]; exact hv2
  obtain ⟨t2, ht2⟩ := writeLoc_of_readLoc label hr1
  refine ⟨t2, ?_, ?_, ?_, ?_⟩
  · exact pushSibling_ok hv hc hv2 ht1 ht2
  · have hfr : ∀ loc, loc ≠ Loc.sibling (Int.xor base (int label)) →
        loc ≠ endLoc base (.child frm) pre → readLoc t2 loc = readLoc t loc := by
      intro loc h1 h2
      rw [readLoc_writeLoc_ne ht2 h2, readLoc_writeLoc_ne ht1 h1]
    have hw1v : readLoc t2 (.sibling (Int.xor base (int label))) = .ok v2 := by
      rw [readLoc_writeLoc_ne ht2 (Ne.symm hw21)]
      exact readLoc_writeLoc_same ht1
    have hsufne : ∀ y ∈ suf, Loc.sibling (Int.xor base (int y)) ≠
          Loc.sibling (Int.xor base (int label)) ∧
        Loc.sibling (Int.xor base (int y)) ≠ endLoc base (.child frm) pre := by
      intro y hy
      constructor
      · intro e; exact hls (by rw [← sibling_loc_inj hb e]; exact hy)
      · rcases hend with ⟨h1, _⟩ | ⟨q, hq, h1⟩
        · rw [h1]; exact fun e => Loc.noConfusion e
        · rw [h1]; intro e
          have := sibling_loc_inj hb e
          exact lt_irrefl _ (this ▸ hpw3 q hq y hy)
    have hw1 : Linked t2 base (.sibling (Int.xor base (int label))) suf := by
      have hs := Linked_split pre (.child frm) suf hchain
      cases suf with
      | nil =>
        have h0 : readLoc t (endLoc base (.child frm) pre) = .ok 0 := hs
        rw [hv2] at h0
        show readLoc t2 _ = .ok 0
        rw [hw1v, h0]
      | cons d rest =>
        have h0 : readLoc t (endLoc base (.child frm) pre) = .ok d := hs.1
        rw [hv2] at h0
        refine ⟨by rw [hw1v, h0], ?_⟩
        have hd := hsufne d (List.mem_cons_self _ _)
        exact Linked_frame hfr rest _ hd.1 hd.2
          (fun y hy => hsufne y (List.mem_cons_of_mem _ hy)) hs.2
    exact Linked_insert hb hfr (readLoc_writeLoc_same ht2) hw1 pre (.child frm) rfl hchain
      (fun e => Loc.noConfusion e) hlp (fun y _ e => Loc.noConfusion e) hnd
  · apply ascending_of_pairwise
    rw [List.pairwise_append]
    refine ⟨hpw1, List.pairwise_cons.2 ⟨hsuf, hpw2⟩, ?_⟩
    intro a ha b hb2
    rcases List.mem_cons.1 hb2 with h | h
    · rw [h]; exact hpre a ha
    · exact hpw3 a ha b h
  · rw [(writeLoc_frame ht2).1, (writeLoc_frame ht1).1]

theorem pushSibling_keeps_order_example :
    ∃ t2, pushSibling (trieOf [.insert [98] 1, .insert [100] 2]) 0 1 99
        (decide (([98] : List byte) ++ [100] ≠ [])) = .ok t2 ∧
      Linked t2 1 (.child 0) ([98] ++ 99 :: [100]) ∧
      ascending (([98] : List byte) ++ 99 :: [100]) = true ∧
      t2.Array = (trieOf [.insert [98] 1, .insert [100] 2]).Array :=
  pushSibling_keeps_order (trieOf [.insert [98] 1, .insert [100] 2]) 0 1 99 [98] [100]
    (by decide!) (by decide) ⟨by decide!, by decide!,
      by show readLoc _ (Loc.sibling (Int.xor 1 (int 100))) = .ok 0
         decide!⟩ (by decide!)
    (by decide!) (by decide!) ⟨⟨0, 0⟩, by decide!⟩

/-! ## The root slot -/

/-- C21 (the root's base is fixed), failing input: after `Insert("ac", 1)`,
`Insert("cb", 2)` and `Delete("c")` the root slot still is `{-2, 0}`; the call
`Insert("ab", 6)` then releases the root slot: all four calls return `nil`, `Array[0]` is
`{-1, -98}` (an empty slot of the ring of block 0), and `Jump("\x01", 0)` returns the
id 1, not 0. -/
theorem root_released_after_delete_of_prefix :
    errorsOf [.insert [97, 99] 1, .insert [99, 98] 2, .delete [99], .insert [97, 98] 6] =
      .ok [none, none, none, none] ∧
    rd (trieOf [.insert [97, 99] 1, .insert [99, 98] 2, .delete [99]]).Array 0 =
      .ok ⟨-2, 0⟩ ∧
    rd (trieOf [.insert [97, 99] 1, .insert [99, 98] 2, .delete [99],
      .insert [97, 98] 6]).Array 0 = .ok ⟨-1, -98⟩ ∧
    Jump (trieOf [.insert [97, 99] 1, .insert [99, 98] 2, .delete [99],
      .insert [97, 98] 6]) [1] 0 = .ok (1, none) := by
  decide!

/-- A second way to move the root: after `Update("y", -2)`, which stores the base 1 in
the node of `y`, and the inserts of `"ya"`, `"yb"` and `"a"`, all returning `nil`,
`resolve` has given the root a new base: `Array[0]` is `{-354, 0}` and `Jump("\x01", 0)`
returns `ErrNoPath`. -/
theorem root_relocated_after_update :
    errorsOf [.update [121] (-2), .insert [121, 97] 1, .insert [121, 98] 1, .insert [97] 1] =
      .ok [none, none, none, none] ∧
    rd (trieOf [.update [121] (-2), .insert [121, 97] 1, .insert [121, 98] 1,
      .insert [97] 1]).Array 0 = .ok ⟨-354, 0⟩ ∧
    Jump (trieOf [.update [121] (-2), .insert [121, 97] 1, .insert [121, 98] 1,
      .insert [97] 1]) [1] 0 = .ok (0, some .ErrNoPath) := by
  decide!

/-- In every state whose root slot is `{-2, 0}`, as `New()` sets it, the child slot of
the root for the label `0x01` is slot 0 itself: `Jump("\x01", 0)` returns `(0, nil)` and
`follow(0, 0x01)` returns the root and leaves the state as it is. -/
theorem root_alias (t : prefixTree) (h0 : rd t.Array 0 = .ok ⟨-2, 0⟩) :
    Jump t [1] 0 = .ok (0, none) ∧ follow t 0 1 = .ok (t, 0) := by
  have hb : (⟨-2, 0⟩ : node).base = 1 := rfl
  have hx : Int.xor 1 (int 1) = 0 := rfl
  constructor
  · unfold Jump
    rw [@jumpLoop_step t 0 0 1 ⟨-2, 0⟩ ⟨-2, 0⟩ h0 (by decide) rfl h0 [] 0, if_neg (by decide)]
    rfl
  · simp only [follow, h0, bind, Except.bind, pure, Except.pure, hb, hx]
    simp

/-- The empty trie: `Jump("\x01", 0)` returns `(0, nil)` and `follow(0, 0x01)` returns
the root without allocating a node. -/
theorem root_alias_on_New :
    rd New.Array 0 = .ok ⟨-2, 0⟩ ∧ Jump New [1] 0 = .ok (0, none) ∧
      follow New 0 1 = .ok (New, 0) :=
  ⟨New_root, root_alias New New_root⟩


/-! ## `PrefixMatch` and the root alias -/

/-- C11 (prefix match), failing input: with only `"\x01a"` inserted, `PrefixMatch("a", 0)`
lists the id 96, whose key by `Key` is `"a"`: a key that was never inserted, while no
inserted key is a prefix of the query.  For the query `"\x01a"` the list is the same id,
so the inserted key is listed under the key `"a"`. -/
theorem prefixMatch_lists_key_never_inserted :
    errorsOf [.insert [1, 97] 5] = .ok [none] ∧
    PrefixMatch (trieOf [.insert [1, 97] 5]) [97] 0 = .ok [96] ∧
    PrefixMatch (trieOf [.insert [1, 97] 5]) [1, 97] 0 = .ok [96] ∧
    keysOf (trieOf [.insert [1, 97] 5]) [96] = .ok [([97], none)] := by
  decide!

/-! ## `Delete` when block 0 has no empty slot

`New()` gives block 0 the count `Num = 256` for a ring of 255 empty slots.  The calls of
`fullBlock0` take these 255 slots for 255 one-byte keys; the trie after the first 254 of
them is `downTo 2`, shown by following `Insert` call by call on the closed form
`downTo`. -/

theorem shr8_of_lt {e : Int} (h0 : 0 ≤ e) (h1 : e < 256) : e >>> 8 = 0 := by
  obtain ⟨n, rfl⟩ := Int.eq_ofNat_of_zero_le h0
  have hn : n < 256 := by omega
  show ((n >>> 8 : Nat) : Int) = 0
  rw [Nat.shiftRight_eq_div_pow, Nat.div_eq_of_lt (by simpa using hn)]
  rfl

theorem rd_singleton {α : Type} (b : α) : rd [b] 0 = .ok b := by
  simp [rd]

/-- `popEnode` for a given slot `e` of block 0 that is empty, is not the head of the ring
and is not the last empty slot counted by `Num`. -/
theorem popEnode_block0 (t : prefixTree) (label : byte) (frm e : Int) (ne np nq : node)
    (b : block)
    (he : Int.xor 1 (int label) = e) (he0 : 0 ≤ e) (he256 : e < 256)
    (hne : rd t.Array e = .ok ne)
    (hpe : -ne.Value ≠ e) (hqe : -ne.Check ≠ e)
    (hnp : rd t.Array (-ne.Value) = .ok np)
    (hnq : rd (t.Array.set (-ne.Value).toNat { np with Check := ne.Check }) (-ne.Check) = .ok nq)
    (hb : t.Blocks = [b]) (hnum : b.Num ≠ 1) (hhead : b.Ehead ≠ e) :
    popEnode t 1 label frm = .ok ({ t with
      Array := ((t.Array.set (-ne.Value).toNat { np with Check := ne.Check }).set
        (-ne.Check).toNat { nq with Value := ne.Value }).set e.toNat ⟨ValueLimit, frm⟩
      Blocks := [{ b with Num := b.Num - 1 }] }, e) := by
  have hbi : e >>> 8 = 0 := shr8_of_lt he0 he256
  have hp0 : 0 ≤ -ne.Value := (rd_ok_iff.1 hnp).1
  have hq0 : 0 ≤ -ne.Check := (rd_ok_iff.1 hnq).1
  have h1 : rd (t.Array.set (-ne.Value).toNat { np with Check := ne.Check }) e = .ok ne := by
    rw [rd_set_other _ hp0 (Ne.symm hpe)]; exact hne
  have h2 : rd ((t.Array.set (-ne.Value).toNat { np with Check := ne.Check }).set
      (-ne.Check).toNat { nq with Value := ne.Value }) e = .ok ne := by
    rw [rd_set_other _ hq0 (Ne.symm hqe)]; exact h1
  have hnum' : ¬ (b.Num - 1 = 0) := by omega
  have hhead' : ¬ (e = b.Ehead) := fun h => hhead h.symm
  simp [popEnode, popEnodeUnlink, he, hbi, hne, hb, rd_singleton, setBlock, setCheck, setValue,
    wr_of_rd _ hnp, wr_of_rd _ hnq, wr_of_rd _ h2, wr_of_rd _ (rd_singleton _), h1, h2, hnum', hhead', bind, Except.bind, pure, Except.pure]
  rw [wr_of_rd _ (rd_set_same (w := ⟨ValueLimit, ne.Check⟩) h2)]
  simp [List.set_set]

theorem xor_xor_byte (B : Int) (hB : 0 ≤ B) (c : byte) : Int.xor (Int.xor B (int c)) (int c) = B := by
  obtain ⟨k, rfl⟩ := Int.eq_ofNat_of_zero_le hB
  simp only [int, Int.ofNat_eq_coe, xor_ofNat]
  rw [Nat.xor_assoc, Nat.xor_self, Nat.xor_zero]

/-- `pushSibling` when the new label goes to the front of the chain. -/
theorem pushSibling_front (t : prefixTree) (frm base : Int) (label : byte) (hasChild : Bool)
    (x0 xe : ninfo)
    (hx0 : rd t.Ninfos frm = .ok x0)
    (hxe : rd t.Ninfos (Int.xor base (int label)) = .ok xe)
    (hfe : Int.xor base (int label) ≠ frm)
    (hord : t.Ordered = true)
    (hfront : ¬ (hasChild = true ∧ label > x0.Child)) :
    pushSibling t frm base label hasChild = .ok { t with
      Ninfos := (t.Ninfos.set (Int.xor base (int label)).toNat { xe with Sibling := x0.Child }).set
        frm.toNat { x0 with Child := label } } := by
  have h1 : rd (t.Ninfos.set (Int.xor base (int label)).toNat { xe with Sibling := x0.Child }) frm
      = .ok x0 := by
    rw [rd_set_other _ (rd_ok_iff.1 hxe).1 (Ne.symm hfe)]; exact hx0
  simp [pushSibling, readLoc, writeLoc, hx0, hord, hfront, wr_of_rd _ hxe, wr_of_rd _ h1,
    bind, Except.bind, pure, Except.pure]


/-- `Insert` of a one-byte key whose slot under the root is empty, is neither the head
of the ring of block 0 nor its last counted slot, and whose byte goes to the front of the
root's chain: the slot is unlinked from the ring, takes the value, and heads the chain. -/
theorem Insert_root_front (t : prefixTree) (c : byte) (v e : Int) (ne np nq nc : node)
    (b : block) (x0 xe : ninfo)
    (hv : 0 ≤ v ∧ v < ValueLimit)
    (h0 : rd t.Array 0 = .ok ⟨-2, 0⟩)
    (he : Int.xor 1 (int c) = e) (he0 : 0 < e) (he256 : e < 256)
    (hne : rd t.Array e = .ok ne) (hfree : ne.Check < 0)
    (hpe : -ne.Value ≠ e) (hqe : -ne.Check ≠ e)
    (hnp : rd t.Array (-ne.Value) = .ok np)
    (hnq : rd (t.Array.set (-ne.Value).toNat { np with Check := ne.Check }) (-ne.Check) = .ok nq)
    (hb : t.Blocks = [b]) (hnum : b.Num ≠ 1) (hhead : b.Ehead ≠ e)
    (hx0 : rd t.Ninfos 0 = .ok x0) (hxe : rd t.Ninfos e = .ok xe)
    (hnc : rd t.Array (Int.xor 1 (int x0.Child)) = .ok nc)
    (hord : t.Ordered = true)
    (hfront : ¬ (nc.Check = 0 ∧ c > x0.Child)) :
    Insert t [c] v = .ok ({ t with
      Array := ((t.Array.set (-ne.Value).toNat { np with Check := ne.Check }).set
        (-ne.Check).toNat { nq with Value := ne.Value }).set e.toNat ⟨v, 0⟩
      Ninfos := (t.Ninfos.set e.toNat { xe with Sibling := x0.Child }).set 0 { x0 with Child := c }
      Blocks := [{ b with Num := b.Num - 1 }] }, none) := by
  have hpop := popEnode_block0 t c 0 e ne np nq b he (le_of_lt he0) he256 hne hpe hqe hnp hnq hb
    hnum hhead
  have hx : Int.xor e (int c) = 1 := by rw [← he]; exact xor_xor_byte 1 (by decide) c
  have hpush := pushSibling_front { t with
      Array := ((t.Array.set (-ne.Value).toNat { np with Check := ne.Check }).set
        (-ne.Check).toNat { nq with Value := ne.Value }).set e.toNat ⟨ValueLimit, 0⟩
      Blocks := [{ b with Num := b.Num - 1 }] } 0 1 c (decide (nc.Check = 0)) x0 xe hx0
    (by rw [he]; exact hxe) (by rw [he]; omega) hord (by simpa using hfront)
  have hp0 : 0 ≤ -ne.Value := (rd_ok_iff.1 hnp).1
  have hq0 : 0 ≤ -ne.Check := (rd_ok_iff.1 hnq).1
  have h1 : rd (t.Array.set (-ne.Value).toNat { np with Check := ne.Check }) e = .ok ne := by
    rw [rd_set_other _ hp0 (Ne.symm hpe)]; exact hne
  have h2 : rd ((t.Array.set (-ne.Value).toNat { np with Check := ne.Check }).set
      (-ne.Check).toNat { nq with Value := ne.Value }) e = .ok ne := by
    rw [rd_set_other _ hq0 (Ne.symm hqe)]; exact h1
  have h3 := rd_set_same (w := (⟨ValueLimit, 0⟩ : node)) h2
  have hfollow : follow t 0 c = .ok ({ t with
      Array := ((t.Array.set (-ne.Value).toNat { np with Check := ne.Check }).set
        (-ne.Check).toNat { nq with Value := ne.Value }).set e.toNat ⟨ValueLimit, 0⟩
      Ninfos := (t.Ninfos.set e.toNat { xe with Sibling := x0.Child }).set 0 { x0 with Child := c }
      Blocks := [{ b with Num := b.Num - 1 }] }, e) := by
    rw [he] at hpush
    simp [follow, h0, node.base, he, hne, hfree, hx0, hnc, hpop, hx, hpush, bind, Except.bind,
      pure, Except.pure]
  have hlim : ¬ (ValueLimit < 0) := by unfold ValueLimit; norm_num
  have hv2 : ¬ (v < 0 ∨ v ≥ ValueLimit) := by omega
  simp [Insert, hv2, get, getLoop, h0, hfollow, h3, hlim, setValue, wr_of_rd _ h3, List.set_set,
    bind, Except.bind, pure, Except.pure]


theorem rd_range_map {α : Type} (F : Nat → α) (n i : Nat) (h : i < n) :
    rd ((List.range n).map F) (i : Int) = .ok (F i) := by
  apply rd_ok_iff.2
  refine ⟨by omega, ?_⟩
  simp [h]

theorem getElem?_range_map {α : Type} (F : Nat → α) (n j : Nat) :
    ((List.range n).map F)[j]? = if j < n then some (F j) else none := by
  by_cases h : j < n
  · simp [h]
  · simp [h]
    omega

/-- The Nat-indexed form of `Insert_root_front`. -/
theorem Insert_root_front_nat (t : prefixTree) (c : byte) (v : Int) (e p q : Nat)
    (np nq nc : node) (b : block) (x0 xe : ninfo)
    (hv : 0 ≤ v ∧ v < ValueLimit)
    (h0 : rd t.Array 0 = .ok ⟨-2, 0⟩)
    (he : Int.xor 1 (int c) = (e : Int)) (he0 : 0 < e) (he256 : e < 256)
    (hne : rd t.Array (e : Int) = .ok ⟨-(p : Int), -(q : Int)⟩) (hq : 0 < q)
    (hpe : p ≠ e) (hqe : q ≠ e)
    (hnp : rd t.Array (p : Int) = .ok np)
    (hnq : rd (t.Array.set p { np with Check := -(q : Int) }) (q : Int) = .ok nq)
    (hb : t.Blocks = [b]) (hnum : b.Num ≠ 1) (hhead : b.Ehead ≠ (e : Int))
    (hx0 : rd t.Ninfos 0 = .ok x0) (hxe : rd t.Ninfos (e : Int) = .ok xe)
    (hnc : rd t.Array (Int.xor 1 (int x0.Child)) = .ok nc)
    (hord : t.Ordered = true)
    (hfront : ¬ (nc.Check = 0 ∧ c > x0.Child)) :
    Insert t [c] v = .ok ({ t with
      Array := ((t.Array.set p { np with Check := -(q : Int) }).set q
        { nq with Value := -(p : Int) }).set e ⟨v, 0⟩
      Ninfos := (t.Ninfos.set e { xe with Sibling := x0.Child }).set 0 { x0 with Child := c }
      Blocks := [{ b with Num := b.Num - 1 }] }, none) := by
  have h := Insert_root_front t c v (e : Int) ⟨-(p : Int), -(q : Int)⟩ np nq nc b x0 xe hv h0 he
    (by omega) (by omega) hne (by show -(q : Int) < 0; omega)
    (by show - -(p : Int) ≠ (e : Int); omega) (by show - -(q : Int) ≠ (e : Int); omega)
    (by simpa using hnp) (by simpa using hnq) hb hnum hhead hx0 hxe hnc hord hfront
  simpa using h

theorem xor_one_toByte : ∀ c : Fin 256, Int.xor 1 (int (toByte ((c.val : Nat) : Int))) =
    ((if c.val % 2 = 0 then c.val + 1 else c.val - 1 : Nat) : Int) := by
  decide!

theorem rd_downTo_Array (m i : Nat) (h : i < 256) :
    rd (downTo m).Array (i : Int) = .ok (downSlot m i) :=
  rd_range_map (downSlot m) 256 i h

theorem rd_downTo_Ninfos (m i : Nat) (h : i < 256) :
    rd (downTo m).Ninfos (i : Int) = .ok (downInfo m i) :=
  rd_range_map (downInfo m) 256 i h

theorem toByte_val (c : Nat) (h : c < 256) : (toByte (c : Int)).val = c := by
  show ((c : Int) % 256).toNat = c
  omega

theorem downSlot_zero (m : Nat) : downSlot m 0 = ⟨-2, 0⟩ := by
  simp [downSlot]

theorem downSlot_even_free (m i : Nat) (hm : m % 2 = 0) (h0 : i ≠ 0) (h : i < m) :
    downSlot m i = ⟨if i = 1 then -((m : Int) - 1) else -((i : Int) - 1),
      if i + 1 = m then -1 else -((i : Int) + 1)⟩ := by
  unfold downSlot
  rw [if_neg h0, if_pos hm, if_pos h]

theorem downSlot_even_used (m i : Nat) (hm : m % 2 = 0) (h0 : i ≠ 0) (h : ¬ i < m) :
    downSlot m i = downUsed i := by
  unfold downSlot
  rw [if_neg h0, if_pos hm, if_neg h]

theorem downSlot_odd_free (m i : Nat) (hm : m % 2 = 1) (h0 : i ≠ 0) (h : i + 1 < m) :
    downSlot m i = ⟨if i = 1 then -(m : Int) else -((i : Int) - 1),
      if i + 2 = m then -(m : Int) else -((i : Int) + 1)⟩ := by
  unfold downSlot
  rw [if_neg h0, if_neg (by omega), if_pos h]

theorem downSlot_odd_last (m : Nat) (hm : m % 2 = 1) :
    downSlot m m = ⟨-((m : Int) - 2), -1⟩ := by
  unfold downSlot
  rw [if_neg (by omega), if_neg (by omega), if_neg (by omega), if_pos rfl]

theorem downSlot_odd_used (m i : Nat) (hm : m % 2 = 1) (h0 : i ≠ 0) (h1 : ¬ i + 1 < m)
    (h2 : i ≠ m) : downSlot m i = downUsed i := by
  unfold downSlot
  rw [if_neg h0, if_neg (by omega), if_neg h1, if_neg h2]

theorem downInfo_zero (m : Nat) : downInfo m 0 = ⟨0, toByte (m : Int)⟩ := by
  simp [downInfo]

theorem downInfo_free (m i : Nat) (h0 : i ≠ 0)
    (h : (m % 2 = 0 ∧ i < m) ∨ (m % 2 = 1 ∧ (i + 1 < m ∨ i = m))) :
    downInfo m i = ninfo.zero := by
  unfold downInfo
  rw [if_neg h0, if_pos h]

theorem downInfo_used (m i : Nat) (h0 : i ≠ 0)
    (h : ¬ ((m % 2 = 0 ∧ i < m) ∨ (m % 2 = 1 ∧ (i + 1 < m ∨ i = m)))) :
    downInfo m i =
      ⟨toByte (if i % 2 = 0 then (if i = 254 then 0 else (i : Int) + 2) else (i : Int)), 0⟩ := by
  unfold downInfo
  rw [if_neg h0, if_neg h]

theorem downTo_step_odd (c : Nat) (h2 : 2 ≤ c) (h255 : c ≤ 255) (hodd : c % 2 = 1) :
    Insert (downTo (c + 1)) [toByte (c : Int)] (c : Int) = .ok (downTo c, none) := by
  have hx := xor_one_toByte ⟨c, by omega⟩
  simp only [hodd] at hx
  have hx' : Int.xor 1 (int (toByte ((c : Nat) : Int))) = ((c - 1 : Nat) : Int) := by
    simpa using hx
  have e1 : (c + 1) % 2 = 0 := by omega
  have hne : downSlot (c + 1) (c - 1) = ⟨-((c - 2 : Nat) : Int), -((c : Nat) : Int)⟩ := by
    unfold downSlot
    have e2 : ¬ (c - 1 = 0) := by omega
    have e3 : c - 1 < c + 1 := by omega
    have e4 : ¬ (c - 1 = 1) := by omega
    have e5 : ¬ (c - 1 + 1 = c + 1) := by omega
    simp only [e1, e2, e3, e4, e5, if_true, if_false]
    congr 1 <;> omega
  have hchild : (downInfo (c + 1) 0).Child = toByte ((c + 1 : Nat) : Int) := by
    simp [downInfo]
  -- the first child of the root before the call
  have hnc : ∃ nc, rd (downTo (c + 1)).Array (Int.xor 1 (int (downInfo (c + 1) 0).Child)) = .ok nc ∧
      ¬ (nc.Check = 0 ∧ toByte (c : Int) > (downInfo (c + 1) 0).Child) := by
    rw [hchild]
    by_cases hc : c = 255
    · subst hc
      refine ⟨downSlot 256 1, by decide!, by decide!⟩
    · have hy := xor_one_toByte ⟨c + 1, by omega⟩
      simp only [e1, if_true] at hy
      rw [hy]
      refine ⟨_, rd_downTo_Array (c + 1) (c + 1 + 1) (by omega), ?_⟩
      intro h
      have := h.2
      rw [gt_iff_lt, Fin.lt_def, toByte_val c (by omega), toByte_val (c + 1) (by omega)] at this
      omega
  obtain ⟨nc, hnc1, hnc2⟩ := hnc
  have hq : rd ((downTo (c + 1)).Array.set (c - 2)
      { downSlot (c + 1) (c - 2) with Check := -((c : Nat) : Int) }) ((c : Nat) : Int)
      = .ok (downSlot (c + 1) c) := by
    have := rd_set_other (a := (downTo (c + 1)).Array) (i := ((c - 2 : Nat) : Int))
      (j := ((c : Nat) : Int)) { downSlot (c + 1) (c - 2) with Check := -((c : Nat) : Int) }
      (by omega) (by omega)
    rw [Int.toNat_ofNat] at this
    rw [this]
    exact rd_downTo_Array (c + 1) c (by omega)
  have hmain := Insert_root_front_nat (downTo (c + 1)) (toByte (c : Int)) (c : Int) (c - 1) (c - 2) c
    (downSlot (c + 1) (c - 2)) (downSlot (c + 1) c) nc
    { block.zero.init with Ehead := 1, Num := ((c + 1 : Nat) : Int) }
    (downInfo (c + 1) 0) (downInfo (c + 1) (c - 1))
    (by unfold ValueLimit; omega)
    (by simpa [downSlot] using rd_downTo_Array (c + 1) 0 (by omega))
    hx' (by omega) (by omega)
    (by rw [rd_downTo_Array (c + 1) (c - 1) (by omega), hne]) (by omega) (by omega) (by omega)
    (rd_downTo_Array (c + 1) (c - 2) (by omega)) hq rfl
    (by show ((c + 1 : Nat) : Int) ≠ 1; omega) (by show (1 : Int) ≠ ((c - 1 : Nat) : Int); omega)
    (by simpa using rd_downTo_Ninfos (c + 1) 0 (by omega))
    (rd_downTo_Ninfos (c + 1) (c - 1) (by omega)) hnc1 rfl hnc2
  rw [hmain]
  have hA : ((((List.range 256).map (downSlot (c + 1))).set (c - 2)
      ⟨(downSlot (c + 1) (c - 2)).Value, -((c : Nat) : Int)⟩).set c
      ⟨-((c - 2 : Nat) : Int), (downSlot (c + 1) c).Check⟩).set (c - 1) ⟨(c : Int), 0⟩ =
      (List.range 256).map (downSlot c) := by
    apply List.ext_getElem?
    intro j
    simp only [List.getElem?_set, List.length_set, List.length_map, List.length_range,
      getElem?_range_map]
    clear hmain hq hnc1 hnc2 hx hx' hchild hne
    by_cases hj : j < 256
    · simp only [hj, if_true]
      by_cases h1 : c - 1 = j
      · subst h1
        rw [if_pos rfl, if_pos (by omega), downSlot_odd_used c (c - 1) hodd (by omega) (by omega) (by omega)]
        unfold downUsed
        rw [if_pos (by omega)]
        simp only [Option.some.injEq, node.mk.injEq]
        exact ⟨by omega, trivial⟩
      · rw [if_neg h1]
        by_cases h2 : c = j
        · subst h2
          rw [if_pos rfl, if_pos (by omega), downSlot_odd_last c hodd,
            downSlot_even_free (c + 1) c e1 (by omega) (by omega)]
          simp only [Option.some.injEq, node.mk.injEq]
          split_ifs <;> omega
        · rw [if_neg h2]
          by_cases h3 : c - 2 = j
          · subst h3
            rw [if_pos rfl, if_pos (by omega),
              downSlot_odd_free c (c - 2) hodd (by omega) (by omega),
              downSlot_even_free (c + 1) (c - 2) e1 (by omega) (by omega)]
            simp only [Option.some.injEq, node.mk.injEq]
            split_ifs <;> omega
          · rw [if_neg h3]
            simp only [Option.some.injEq]
            by_cases hj0 : j = 0
            · subst hj0; rw [downSlot_zero, downSlot_zero]
            · by_cases hjc : j < c
              · rw [downSlot_odd_free c j hodd hj0 (by omega),
                  downSlot_even_free (c + 1) j e1 hj0 (by omega)]
                simp only [node.mk.injEq]
                split_ifs <;> omega
              · rw [downSlot_odd_used c j hodd hj0 (by omega) (by omega),
                  downSlot_even_used (c + 1) j e1 hj0 (by omega)]
    · simp only [hj, if_false]
      rw [if_neg (by omega), if_neg (by omega), if_neg (by omega)]
  have hN : (((List.range 256).map (downInfo (c + 1))).set (c - 1)
      ⟨(downInfo (c + 1) 0).Child, (downInfo (c + 1) (c - 1)).Child⟩).set 0
      ⟨(downInfo (c + 1) 0).Sibling, toByte (c : Int)⟩ =
      (List.range 256).map (downInfo c) := by
    apply List.ext_getElem?
    intro j
    simp only [List.getElem?_set, List.length_set, List.length_map, List.length_range,
      getElem?_range_map]
    clear hmain hq hnc1 hnc2 hx hx' hchild hne hA
    by_cases hj : j < 256
    · simp only [hj, if_true]
      by_cases h1 : 0 = j
      · subst h1
        rw [if_pos rfl, if_pos (by omega), downInfo_zero, downInfo_zero]
      · rw [if_neg h1]
        by_cases h2 : c - 1 = j
        · subst h2
          rw [if_pos rfl, if_pos (by omega), downInfo_zero,
            downInfo_free (c + 1) (c - 1) (by omega) (Or.inl ⟨e1, by omega⟩),
            downInfo_used c (c - 1) (by omega) (by omega)]
          simp only [Option.some.injEq, ninfo.mk.injEq, ninfo.zero]
          refine ⟨?_, trivial⟩
          rw [if_pos (by omega)]
          by_cases hc : c = 255
          · subst hc; decide
          · rw [if_neg (by omega)]
            congr 1
            omega
        · rw [if_neg h2]
          simp only [Option.some.injEq]
          by_cases hjc : j < c
          · rw [downInfo_free c j (by omega) (Or.inr ⟨hodd, by omega⟩),
              downInfo_free (c + 1) j (by omega) (Or.inl ⟨e1, by omega⟩)]
          · by_cases hjc2 : j = c
            · subst hjc2
              rw [downInfo_free j j (by omega) (Or.inr ⟨hodd, by omega⟩),
                downInfo_free (j + 1) j (by omega) (Or.inl ⟨e1, by omega⟩)]
            · rw [downInfo_used c j (by omega) (by omega),
                downInfo_used (c + 1) j (by omega) (by omega)]
    · simp only [hj, if_false]
      rw [if_neg (by omega), if_neg (by omega)]
  simp only [downTo] at hmain ⊢
  rw [hA, hN]
  have hnum : ((c + 1 : Nat) : Int) - 1 = (c : Int) := by omega
  rw [hnum]

theorem downTo_step_even (c : Nat) (h2 : 2 ≤ c) (h255 : c ≤ 255) (heven : c % 2 = 0) :
    Insert (downTo (c + 1)) [toByte (c : Int)] (c : Int) = .ok (downTo c, none) := by
  have hx := xor_one_toByte ⟨c, by omega⟩
  simp only [heven, if_true] at hx
  have e1 : (c + 1) % 2 = 1 := by omega
  have hne : downSlot (c + 1) (c + 1) = ⟨-((c - 1 : Nat) : Int), -((1 : Nat) : Int)⟩ := by
    rw [downSlot_odd_last (c + 1) e1]
    simp only [node.mk.injEq]
    omega
  have hchild : (downInfo (c + 1) 0).Child = toByte ((c + 1 : Nat) : Int) := by
    simp [downInfo]
  have hnc : rd (downTo (c + 1)).Array (Int.xor 1 (int (downInfo (c + 1) 0).Child)) =
      .ok (downSlot (c + 1) c) ∧
      ¬ ((downSlot (c + 1) c).Check = 0 ∧ toByte (c : Int) > (downInfo (c + 1) 0).Child) := by
    rw [hchild]
    have hy := xor_one_toByte ⟨c + 1, by omega⟩
    simp only [e1] at hy
    rw [hy]
    refine ⟨by simpa using rd_downTo_Array (c + 1) c (by omega), ?_⟩
    intro h
    have := h.2
    rw [gt_iff_lt, Fin.lt_def, toByte_val c (by omega), toByte_val (c + 1) (by omega)] at this
    omega
  obtain ⟨hnc1, hnc2⟩ := hnc
  have hq : rd ((downTo (c + 1)).Array.set (c - 1)
      ⟨(downSlot (c + 1) (c - 1)).Value, -((1 : Nat) : Int)⟩) ((1 : Nat) : Int)
      = .ok (if c = 2 then ⟨(downSlot (c + 1) (c - 1)).Value, -((1 : Nat) : Int)⟩
          else downSlot (c + 1) 1) := by
    by_cases hc : c = 2
    · subst hc
      rw [if_pos rfl]
      have := rd_set_same (w := (⟨(downSlot (2 + 1) (2 - 1)).Value, -((1 : Nat) : Int)⟩ : node))
        (rd_downTo_Array (2 + 1) 1 (by omega))
      simpa using this
    · rw [if_neg hc]
      have := rd_set_other (a := (downTo (c + 1)).Array) (i := ((c - 1 : Nat) : Int))
        (j := ((1 : Nat) : Int)) (⟨(downSlot (c + 1) (c - 1)).Value, -((1 : Nat) : Int)⟩ : node)
        (by omega) (by omega)
      rw [Int.toNat_ofNat] at this
      rw [this]
      exact rd_downTo_Array (c + 1) 1 (by omega)
  have hmain := Insert_root_front_nat (downTo (c + 1)) (toByte (c : Int)) (c : Int) (c + 1) (c - 1) 1
    (downSlot (c + 1) (c - 1))
    (if c = 2 then ⟨(downSlot (c + 1) (c - 1)).Value, -((1 : Nat) : Int)⟩ else downSlot (c + 1) 1)
    (downSlot (c + 1) c)
    { block.zero.init with Ehead := 1, Num := ((c + 1 : Nat) : Int) }
    (downInfo (c + 1) 0) (downInfo (c + 1) (c + 1))
    (by unfold ValueLimit; omega)
    (by simpa [downSlot] using rd_downTo_Array (c + 1) 0 (by omega))
    hx (by omega) (by omega)
    (by rw [rd_downTo_Array (c + 1) (c + 1) (by omega), hne]) (by omega) (by omega) (by omega)
    (rd_downTo_Array (c + 1) (c - 1) (by omega)) hq rfl
    (by show ((c + 1 : Nat) : Int) ≠ 1; omega) (by show (1 : Int) ≠ ((c + 1 : Nat) : Int); omega)
    (by simpa using rd_downTo_Ninfos (c + 1) 0 (by omega))
    (rd_downTo_Ninfos (c + 1) (c + 1) (by omega)) hnc1 rfl hnc2
  rw [hmain]
  have hA : ((((List.range 256).map (downSlot (c + 1))).set (c - 1)
      ⟨(downSlot (c + 1) (c - 1)).Value, -((1 : Nat) : Int)⟩).set 1
      ⟨-((c - 1 : Nat) : Int), (if c = 2 then
        (⟨(downSlot (c + 1) (c - 1)).Value, -((1 : Nat) : Int)⟩ : node)
          else downSlot (c + 1) 1).Check⟩).set (c + 1) ⟨(c : Int), 0⟩ =
      (List.range 256).map (downSlot c) := by
    apply List.ext_getElem?
    intro j
    simp only [List.getElem?_set, List.length_set, List.length_map, List.length_range,
      getElem?_range_map]
    clear hmain hq hnc1 hnc2 hx hchild hne
    by_cases hj : j < 256
    · simp only [hj, if_true]
      by_cases h1 : c + 1 = j
      · subst h1
        rw [if_pos rfl, if_pos (by omega),
          downSlot_even_used c (c + 1) heven (by omega) (by omega)]
        unfold downUsed
        rw [if_neg (by omega)]
        simp only [Option.some.injEq, node.mk.injEq]
        exact ⟨by omega, trivial⟩
      · rw [if_neg h1]
        by_cases h2 : 1 = j
        · subst h2
          rw [if_pos rfl, if_pos (by omega), downSlot_even_free c 1 heven (by omega) (by omega)]
          simp only [Option.some.injEq, node.mk.injEq]
          by_cases hc : c = 2
          · subst hc
            simp
          · rw [if_neg hc, downSlot_odd_free (c + 1) 1 e1 (by omega) (by omega)]
            simp only [if_true]
            rw [if_neg (by omega), if_neg (by omega)]
            constructor <;> omega
        · rw [if_neg h2]
          by_cases h3 : c - 1 = j
          · subst h3
            rw [if_pos rfl, if_pos (by omega),
              downSlot_even_free c (c - 1) heven (by omega) (by omega),
              downSlot_odd_free (c + 1) (c - 1) e1 (by omega) (by omega)]
            simp only [Option.some.injEq, node.mk.injEq]
            rw [if_neg (by omega), if_neg (by omega), if_pos (by omega)]
            constructor <;> omega
          · rw [if_neg h3]
            simp only [Option.some.injEq]
            by_cases hj0 : j = 0
            · subst hj0; rw [downSlot_zero, downSlot_zero]
            · by_cases hjc : j < c
              · rw [downSlot_even_free c j heven hj0 hjc,
                  downSlot_odd_free (c + 1) j e1 hj0 (by omega)]
                simp only [node.mk.injEq]
                rw [if_neg (by omega), if_neg (by omega), if_neg (by omega), if_neg (by omega)]
                constructor <;> rfl
              · rw [downSlot_even_used c j heven hj0 hjc,
                  downSlot_odd_used (c + 1) j e1 hj0 (by omega) (by omega)]
    · simp only [hj, if_false]
      rw [if_neg (by omega), if_neg (by omega), if_neg (by omega)]
  have hN : (((List.range 256).map (downInfo (c + 1))).set (c + 1)
      ⟨(downInfo (c + 1) 0).Child, (downInfo (c + 1) (c + 1)).Child⟩).set 0
      ⟨(downInfo (c + 1) 0).Sibling, toByte (c : Int)⟩ =
      (List.range 256).map (downInfo c) := by
    apply List.ext_getElem?
    intro j
    simp only [List.getElem?_set, List.length_set, List.length_map, List.length_range,
      getElem?_range_map]
    clear hmain hq hnc1 hnc2 hx hchild hne hA
    by_cases hj : j < 256
    · simp only [hj, if_true]
      by_cases h1 : 0 = j
      · subst h1
        rw [if_pos rfl, if_pos (by omega), downInfo_zero, downInfo_zero]
      · rw [if_neg h1]
        by_cases h2 : c + 1 = j
        · subst h2
          rw [if_pos rfl, if_pos (by omega), downInfo_zero,
            downInfo_free (c + 1) (c + 1) (by omega) (Or.inr ⟨e1, Or.inr rfl⟩),
            downInfo_used c (c + 1) (by omega) (by omega)]
          simp only [Option.some.injEq, ninfo.mk.injEq, ninfo.zero]
          refine ⟨?_, trivial⟩
          rw [if_neg (by omega)]
        · rw [if_neg h2]
          simp only [Option.some.injEq]
          by_cases hjc : j < c
          · rw [downInfo_free c j (by omega) (Or.inl ⟨heven, hjc⟩),
              downInfo_free (c + 1) j (by omega) (Or.inr ⟨e1, by omega⟩)]
          · rw [downInfo_used c j (by omega) (by omega),
              downInfo_used (c + 1) j (by omega) (by omega)]
    · simp only [hj, if_false]
      rw [if_neg (by omega), if_neg (by omega)]
  simp only [downTo] at hmain ⊢
  rw [hA, hN]
  have hnum : ((c + 1 : Nat) : Int) - 1 = (c : Int) := by omega
  rw [hnum]

theorem downTo_step (c : Nat) (h2 : 2 ≤ c) (h255 : c ≤ 255) :
    Insert (downTo (c + 1)) [toByte (c : Int)] (c : Int) = .ok (downTo c, none) := by
  rcases Nat.mod_two_eq_zero_or_one c with h | h
  · exact downTo_step_even c h2 h255 h
  · exact downTo_step_odd c h2 h255 h

theorem New_eq_downTo : New = downTo 256 := by
  decide!

theorem run_insertsFrom : ∀ (n hi : Nat), hi ≤ 255 → n + 1 ≤ hi →
    run (insertsFrom hi n) (downTo (hi + 1)) = .ok (downTo (hi + 1 - n), List.replicate n none) := by
  intro n
  induction n with
  | zero => intro hi _ _; rfl
  | succ n ih =>
    intro hi h1 h2
    have hs := downTo_step hi (by omega) h1
    have hr := ih (hi - 1) (by omega) (by omega)
    rw [show hi - 1 + 1 = hi by omega, show hi - n = hi + 1 - (n + 1) by omega] at hr
    simp only [insertsFrom, run, Op.apply, hs, hr, bind, Except.bind, pure, Except.pure,
      List.replicate_succ]

theorem run_append (a b : List Op) : ∀ t : prefixTree,
    run (a ++ b) t = (do
      let (t1, e1) ← run a t
      let (t2, e2) ← run b t1
      return (t2, e1 ++ e2)) := by
  induction a with
  | nil =>
    intro t
    cases h : run b t with
    | error f => simp [run, h, bind, Except.bind]
    | ok r => simp [run, h, bind, Except.bind, pure, Except.pure]
  | cons op ops ih =>
    intro t
    show run (op :: (ops ++ b)) t = _
    simp only [run]
    cases h1 : op.apply t with
    | error f => simp [bind, Except.bind]
    | ok r =>
      obtain ⟨u, e⟩ := r
      simp only [bind, Except.bind]
      rw [ih u]
      cases h2 : run ops u with
      | error f => simp [bind, Except.bind]
      | ok r2 =>
        cases h3 : run b r2.1 with
        | error f => simp [bind, Except.bind, pure, Except.pure, h3]
        | ok r3 => simp [bind, Except.bind, pure, Except.pure, h3]

/-- After `Insert([]byte{b}, b)` for `b = 255, 254, ..., 2` on `New()` the trie is
`downTo 2`, and every call returned `nil`. -/
theorem run_down :
    run (insertsFrom 255 254) New = .ok (downTo 2, List.replicate 254 none) := by
  rw [New_eq_downTo]
  exact run_insertsFrom 254 255 (by omega) (by omega)

theorem run_down_then (rest : List Op) :
    run (insertsFrom 255 254 ++ rest) New = (do
      let (t2, e2) ← run rest (downTo 2)
      return (t2, List.replicate 254 none ++ e2)) := by
  rw [run_append, run_down]
  rfl

theorem Insert_last : Insert (downTo 2) [0] 0 = .ok (fullTrie, none) := by
  decide!

/-- After the calls of `fullBlock0` on `New()` the trie is `fullTrie`, and every call
returned `nil`. -/
theorem run_fullBlock0 : run fullBlock0 New = .ok (fullTrie, List.replicate 255 none) := by
  have h : run [Op.insert [0] 0] (downTo 2) = .ok (fullTrie, [none]) := by
    show (do
      let (t, e) ← Insert (downTo 2) [0] 0
      let (t, es) ← run [] t
      return (t, e :: es)) = _
    rw [Insert_last]
    rfl
  unfold fullBlock0
  rw [run_down_then, h]
  show Except.ok (fullTrie, List.replicate 254 none ++ [none]) = _
  rw [← List.replicate_succ']

theorem run_fullBlock0_then (rest : List Op) :
    run (fullBlock0 ++ rest) New = (do
      let (t2, e2) ← run rest fullTrie
      return (t2, List.replicate 255 none ++ e2)) := by
  rw [run_append, run_fullBlock0]
  rfl

/-- In `fullTrie` every one-byte key other than `"\x01"` reads back the value inserted
for it, its byte; `"\x01"` reads the value of `"\x00"`. -/
theorem Get_fullTrie (b : byte) :
    Get fullTrie [b] = .ok (if b = 1 then 0 else (b.val : Int), none) := by
  by_cases h1 : b = 1
  · subst h1
    decide!
  have hv1 : b.val ≠ 1 := fun h => h1 (Fin.ext h)
  have hx := xor_one_toByte b
  have hb : toByte ((b.val : Nat) : Int) = b := toByte_int b
  rw [hb] at hx
  have hlt := b.isLt
  have hroot : rd fullTrie.Array 0 = .ok ⟨-2, 0⟩ :=
    rd_range_map fullSlot 256 0 (by omega)
  have hslot : fullSlot (if b.val % 2 = 0 then b.val + 1 else b.val - 1) = ⟨(b.val : Int), 0⟩ := by
    rcases Nat.mod_two_eq_zero_or_one b.val with h | h
    · rw [if_pos h]
      unfold fullSlot downUsed
      by_cases h0 : b.val = 0
      · rw [if_neg (by omega), if_pos (by omega), h0]
        rfl
      · rw [if_neg (by omega), if_neg (by omega), if_neg (by omega)]
        simp only [node.mk.injEq]
        exact ⟨by omega, trivial⟩
    · rw [if_neg (by omega)]
      unfold fullSlot downUsed
      rw [if_neg (by omega), if_neg (by omega), if_pos (by omega)]
      simp only [node.mk.injEq]
      exact ⟨by omega, trivial⟩
  have he : rd fullTrie.Array ((if b.val % 2 = 0 then b.val + 1 else b.val - 1 : Nat) : Int) =
      .ok ⟨(b.val : Int), 0⟩ := by
    rw [← hslot]
    exact rd_range_map fullSlot 256 (if b.val % 2 = 0 then b.val + 1 else b.val - 1)
      (by split_ifs <;> omega)
  have hJ : Jump fullTrie [b] 0 =
      .ok (((if b.val % 2 = 0 then b.val + 1 else b.val - 1 : Nat) : Int), none) := by
    unfold Jump
    rw [jumpLoop_step hroot (by decide) (by simpa [node.base] using hx) he [] 0]
    simp [jumpLoop]
  rw [Get_of_path ((Jump_zero_iff _ _ _).1 hJ)]
  unfold Value
  rw [he, if_neg h1]
  have hnn : (b.val : Int) ≥ 0 := by omega
  simp only [bind, Except.bind, pure, Except.pure, hnn, if_true]

theorem all_none_replicate (n : Nat) (es : List (Option Error)) :
    (List.replicate n (none : Option Error) ++ es).all Option.isNone =
      es.all Option.isNone := by
  induction n with
  | zero => rfl
  | succ n ih => rw [List.replicate_succ, List.cons_append, List.all_cons, ih]; rfl

theorem errorsOf_full (rest : List Op) :
    errorsOf (fullBlock0 ++ rest) =
      (run rest fullTrie).map (fun p => List.replicate 255 none ++ p.2) := by
  unfold errorsOf
  rw [run_fullBlock0_then]
  cases run rest fullTrie <;> rfl

theorem getAfter_full (rest : List Op) (key : List byte) :
    getAfter (fullBlock0 ++ rest) key =
      (match run rest fullTrie with
       | .ok (t, es) => if es.all Option.isNone then (Get t key).map some else .ok none
       | .error f => .error f) := by
  unfold getAfter build
  rw [run_fullBlock0_then]
  cases h : run rest fullTrie with
  | error f => rfl
  | ok r =>
    obtain ⟨t, es⟩ := r
    simp only [bind, Except.bind, pure, Except.pure, all_none_replicate]
    by_cases hes : es.all Option.isNone = true
    · simp only [hes, if_true]
      cases Get t key <;> rfl
    · simp only [hes]
      rfl

theorem getAfter_fullBlock0 (key : List byte) :
    getAfter fullBlock0 key = (Get fullTrie key).map some := by
  have h := getAfter_full [] key
  rw [List.append_nil] at h
  rw [h]
  rfl

/-- C4 (Delete restores absence), failing input: `Insert([]byte{b}, b)` for
`b = 255, 254, ..., 2`, then `Insert([]byte{0}, 0)`, then `Delete([]byte{5})`.  All 256
calls return `nil`, and before the `Delete` every inserted key reads back its value:
`Get` of each one-byte key `b` other than `"\x01"` returns `(b, nil)` (`"\x01"`, never
inserted, reads the value of `"\x00"`).  After `Delete("\x05")` returned `nil`,
`Get("\x05")` returns `(7, nil)`, not an error, and other stored keys no longer return
their values: `Get("\x07")` returns `ErrNoValue`, `Get("\x02")` returns `ErrNoPath`,
`Get("\x04")` returns `(6, nil)`.  The root slot, `{-2, 0}` before, has become
`{-4, 0}`: with no empty slot left in block 0, `pushEnode(4)` links the released slot
after the stale ring head `Ehead = 1`, an occupied slot whose `Check` is 0, and so
stores `-4` in `Array[0].Value`. -/
theorem delete_leaves_key_readable :
    errorsOf (fullBlock0 ++ [.delete [5]]) = .ok (List.replicate 256 none) ∧
    (∀ b : byte, getAfter fullBlock0 [b] =
      .ok (some (if b = 1 then 0 else (b.val : Int), none))) ∧
    getAfter (fullBlock0 ++ [.delete [5]]) [5] = .ok (some (7, none)) ∧
    getAfter (fullBlock0 ++ [.delete [5]]) [7] = .ok (some (0, some .ErrNoValue)) ∧
    getAfter (fullBlock0 ++ [.delete [5]]) [2] = .ok (some (0, some .ErrNoPath)) ∧
    getAfter (fullBlock0 ++ [.delete [5]]) [4] = .ok (some (6, none)) ∧
    ((do
      let (t, _) ← run fullBlock0 New
      rd t.Array 0) : Except Fault node) = .ok ⟨-2, 0⟩ ∧
    ((do
      let (t, _) ← run (fullBlock0 ++ [.delete [5]]) New
      rd t.Array 0) : Except Fault node) = .ok ⟨-4, 0⟩ := by
  refine ⟨?_, ?_, ?_⟩
  · rw [errorsOf_full]
    decide!
  · intro b
    rw [getAfter_fullBlock0, Get_fullTrie]
    rfl
  · simp only [getAfter_full, run_fullBlock0_then, run_fullBlock0]
    decide!

end PrefixTree
